import Mathlib

/-!
# Adaptive traffic-signal controller: interval statistics and phase state machine

A shallow embedding of `traffic.c`.

Modelling conventions.

* C `int` is `Int` (array sizes and loop counters, which are never negative on
  the paths modelled, are `Nat`).  The `int` accumulator of `calcTotalCars` is
  wrapped to 32 bits (`wrapInt`).  The car counter of a phase stays far below
  `2^31` (at most one per 100 ms tick of a phase of about 30 s), so no
  wrap-around is modelled for it.
* C `float` is an arbitrary linearly ordered field `F` with exact arithmetic.
  All definitions are computable and can be evaluated at `F = ℚ`; statements
  about `sqrt` are read at `F = ℝ`.  The functions whose result depends on the
  rounding of `float` arithmetic are given a second time in binary32
  (`calcAverageCPS32`, `calcMedianCPS32`, `calcPopStdDevCPS32`,
  `calcSmplStdDevCPS32`), and the statements about them say which arithmetic
  they are about.
* An interval log `statsInterval[0 .. sizeStats)` is a `List`; `sizeStats` is
  its length.  A `for`/`while` loop over `i < sizeStats` that only reads cell
  `i` is a left fold over that list.
* A read of an array cell that may lie outside the part the list describes goes
  through `arrGet`, which takes the content of the outside cells as a
  parameter.
* `sqrt` (from the C maths library) is a parameter.
* The arrays `north` and `west` of `main` are lists of the cells written so far;
  their capacity of 10000 cells is not modelled.
* Calls of the indicator, log-sink and report-sink functions are left out.
-/

namespace Traffic

/-! ## Data model -/

/-- Stats over one interval (raw data): `struct StatsOverInterval`. -/
structure StatsOverInterval (F : Type) where
  numCars : Int
  timeInterval : F
  cps : F
deriving DecidableEq

/-- Stats over the simulation: `struct StatsOverSimulation`.  `modeCars` holds the
cells `modeCars[0 .. numModes)` that `calcModeCars` has written. -/
structure StatsOverSimulation (F : Type) where
  totalCars : Int
  totalTime : F
  maxCars : Int
  minCars : Int
  averageCars : F
  averageTime : F
  modeCars : List Int
  numModes : Nat
  maxCPS : F
  minCPS : F
  avgCPS : F
  medianCPS : F
  popStdDevCPS : F
  smplStdDevCPS : F
  timeSaved : F
deriving DecidableEq

/-- Read of `cells[i]` for a C array whose cells `0 .. cells.length - 1` are
`cells`; `outside i` is the content of the memory at any other index. -/
def arrGet {α : Type} (cells : List α) (outside : Int → α) (i : Int) : α :=
  if 0 ≤ i then
    match cells[i.toNat]? with
    | some x => x
    | none => outside i
  else outside i

/-- Contents of the memory the statistics functions read outside their arrays:
`log` for `statsInterval[]` beyond `sizeStats`, `newData` for the sorted copy in
`calcModeCars`, `set` for the sorted copy in `calcMedianCPS`. -/
structure Stray (F : Type) where
  log : Int → StatsOverInterval F
  newData : Int → Int
  set : Int → F

/-- The value an `int` variable holds after an addition with the exact result
`n`: the 32-bit two's complement wrap-around of `n`.  (C leaves signed overflow
undefined; this is the result the compiled addition produces.) -/
def wrapInt (n : Int) : Int := (n + 2147483648) % 4294967296 - 2147483648

section Stats

variable {F : Type} [LinearOrderedField F]

/-! ## Statistics functions -/

/-- Function `calcCarsPerSecond`: `numCars / timeInterval`, the car count converted to
`float`, for `timeInterval ≠ 0`.  (On a zero duration the quotient computed by
the C code is infinite or not a number, which the field does not represent; the
controller records no zero duration unless the clock runs backwards, see
`phase_duration_pos`.) -/
def calcCarsPerSecond (intervalStats : StatsOverInterval F) : F :=
  (intervalStats.numCars : F) / intervalStats.timeInterval

/-- Function `calcTotalTime`: the loop `total += statsInterval[i].timeInterval`. -/
def calcTotalTime (statsInterval : List (StatsOverInterval F)) : F :=
  statsInterval.foldl (fun total s => total + s.timeInterval) 0

/-- Function `calcTotalCars`: the loop `total += statsInterval[i].numCars` on the
`int` accumulator `total`. -/
def calcTotalCars (statsInterval : List (StatsOverInterval F)) : Int :=
  statsInterval.foldl (fun total s => wrapInt (total + s.numCars)) 0

/-- Function `calcMaxCars`: starts from `statsInterval[0].numCars` and scans all cells. -/
def calcMaxCars (outside : Int → StatsOverInterval F)
    (statsInterval : List (StatsOverInterval F)) : Int :=
  statsInterval.foldl (fun max s => if s.numCars > max then s.numCars else max)
    (arrGet statsInterval outside 0).numCars

/-- Function `calcMinCars`: starts from `statsInterval[0].numCars` and scans all cells. -/
def calcMinCars (outside : Int → StatsOverInterval F)
    (statsInterval : List (StatsOverInterval F)) : Int :=
  statsInterval.foldl (fun min s => if s.numCars < min then s.numCars else min)
    (arrGet statsInterval outside 0).numCars

/-- Function `calcAvgCars`: a `float` total of the car counts divided by `sizeStats`. -/
def calcAvgCars (statsInterval : List (StatsOverInterval F)) : F :=
  statsInterval.foldl (fun total s => total + (s.numCars : F)) 0
    / (statsInterval.length : F)

/-- Function `calcAvgTime`: the total of the durations divided by `sizeStats`. -/
def calcAvgTime (statsInterval : List (StatsOverInterval F)) : F :=
  statsInterval.foldl (fun total s => total + s.timeInterval) 0
    / (statsInterval.length : F)

end Stats

/-! ## Selection sort -/

section SelectionSort

variable {α : Type} [LinearOrder α]

/-- The inner loop of `selectionInt` / `selectionFloat`:
`for (i = index; i < size; i++) if (dataset[i] < min) { min = dataset[i]; posMin = i; }`
started with `min = dataset[index]`, `posMin = index`; returns `(min, posMin)`. -/
def selectMin (d : α) (dataset : List α) (size index : Nat) : α × Nat :=
  (List.range' index (size - index)).foldl
    (fun (mp : α × Nat) i => if dataset.getD i d < mp.1 then (dataset.getD i d, i) else mp)
    (dataset.getD index d, index)

/-- The recursion shared by `selectionInt` and `selectionFloat`: find the
position of the minimum of `dataset[index .. size)`, swap it with
`dataset[index]`, recurse on `index + 1`.  The C exit test is `index == size`;
every call reached from `sortInt` / `sortFloat` has `index ≤ size`, so the test
is written `¬ index < size`.  All reads are inside `dataset[0 .. size)`, the
default `d` is never returned when `size ≤ dataset.length`. -/
def selection (d : α) (dataset : List α) (size index : Nat) : List α :=
  if index < size then
    let posMin := (selectMin d dataset size index).2
    let temp := dataset.getD index d
    let dataset1 := dataset.set index (dataset.getD posMin d)
    let dataset2 := dataset1.set posMin temp
    selection d dataset2 size (index + 1)
  else dataset
termination_by size - index

end SelectionSort

/-- Function `selectionInt`. -/
def selectionInt (dataset : List Int) (size index : Nat) : List Int :=
  selection 0 dataset size index

/-- Function `sortInt`: `selectionInt (dataset, size, 0)`; the result is the array
after the call. -/
def sortInt (dataset : List Int) (size : Nat) : List Int :=
  selectionInt dataset size 0

section Stats2

variable {F : Type} [LinearOrderedField F]

/-- Function `selectionFloat`. -/
def selectionFloat (dataset : List F) (size index : Nat) : List F :=
  selection 0 dataset size index

/-- Function `sortFloat`: `selectionFloat (dataset, size, 0)`. -/
def sortFloat (dataset : List F) (size : Nat) : List F :=
  selectionFloat dataset size 0

/-! ## Modes -/

/-- Local variables of the scan loop of `calcModeCars`.  `modes` is the content
of `modes[0 .. indexMode)`; a write `modes[indexMode] = v` keeps the cells
below `indexMode` and puts `v` at `indexMode`. -/
structure ModeScan where
  modes : List Int
  sizeMode : Nat
  indexMode : Nat
  maxCount : Nat
  modeCount : Nat
  firstTime : Bool
deriving DecidableEq

/-- The write `modes[indexMode] = v; indexMode++; sizeMode++`. -/
def ModeScan.push (s : ModeScan) (v : Int) : ModeScan :=
  { s with modes := s.modes.take s.indexMode ++ [v],
           indexMode := s.indexMode + 1,
           sizeMode := s.sizeMode + 1 }

/-- One iteration of the scan loop of `calcModeCars`, on `cur = newData[i]` and
`next = newData[i+1]`. -/
def modeStep (s : ModeScan) (cur next : Int) : ModeScan :=
  if cur = next then
    let s1 := { s with modeCount := s.modeCount + 1 }
    let s2 := if s1.modeCount = s1.maxCount then s1.push cur else s1
    if s2.modeCount > s2.maxCount then
      let s3 := { s2 with maxCount := s2.modeCount }
      if s3.firstTime then
        { ({ s3 with indexMode := 0, sizeMode := 0 } : ModeScan).push cur with
          firstTime := false }
      else s3
    else s2
  else
    if s.maxCount = 1 then
      { s.push cur with firstTime := true }
    else
      { s with modeCount := 1, firstTime := true }

/-- Initial values of the locals of `calcModeCars`. -/
def modeInit : ModeScan :=
  { modes := [], sizeMode := 0, indexMode := 0, maxCount := 1, modeCount := 1,
    firstTime := true }

/-- The scan loop `for (i = 0; i <= sizeStats-1; i++)` over the sorted copy
`newData`; `newData[i+1]` is read with `arrGet`, since for `i = sizeStats-1`
it is the cell after the end of the copy. -/
def modeScan (outside : Int → Int) (newData : List Int) (sizeStats : Nat) : ModeScan :=
  (List.range sizeStats).foldl
    (fun s (i : Nat) =>
      modeStep s (arrGet newData outside (i : Int)) (arrGet newData outside ((i : Int) + 1)))
    modeInit

/-- Function `calcModeCars`: copies the car counts, sorts the copy, scans it.  Returns
the written part of `modes[]` and the return value `numModes`. -/
def calcModeCars (outside : Int → Int) (statsInterval : List (StatsOverInterval F)) :
    List Int × Nat :=
  let sizeStats := statsInterval.length
  let newData := statsInterval.map (fun s => s.numCars)
  let newData := sortInt newData sizeStats
  let s := modeScan outside newData sizeStats
  (s.modes.take s.sizeMode, s.sizeMode)

/-! ## Cars per second -/

/-- Function `calcMaxCPS`. -/
def calcMaxCPS (outside : Int → StatsOverInterval F)
    (statsInterval : List (StatsOverInterval F)) : F :=
  statsInterval.foldl (fun max s => if s.cps > max then s.cps else max)
    (arrGet statsInterval outside 0).cps

/-- Function `calcMinCPS`. -/
def calcMinCPS (outside : Int → StatsOverInterval F)
    (statsInterval : List (StatsOverInterval F)) : F :=
  statsInterval.foldl (fun min s => if s.cps < min then s.cps else min)
    (arrGet statsInterval outside 0).cps

/-- Function `calcAverageCPS`. -/
def calcAverageCPS (statsInterval : List (StatsOverInterval F)) : F :=
  statsInterval.foldl (fun total s => total + s.cps) 0 / (statsInterval.length : F)

/-- Function `calcMedianCPS`: copies the cps values into `set`, sorts the copy and reads
its middle cell(s). -/
def calcMedianCPS (outside : Int → F) (statsInterval : List (StatsOverInterval F)) : F :=
  let sizeStats := statsInterval.length
  let set := statsInterval.map (fun s => s.cps)
  let set := sortFloat set sizeStats
  if sizeStats % 2 = 0 then
    (arrGet set outside ((sizeStats : Int) / 2)
      + arrGet set outside ((sizeStats : Int) / 2 - 1)) / 2
  else
    arrGet set outside (((sizeStats : Int) - 1) / 2)

/-- The array `devset` of `calcPopStdDevCPS` / `calcSmplStdDevCPS`: the squared
deviations of the cps values from `calcAverageCPS`. -/
def devset (statsInterval : List (StatsOverInterval F)) : List F :=
  statsInterval.map (fun s =>
    (s.cps - calcAverageCPS statsInterval) * (s.cps - calcAverageCPS statsInterval))

/-- Function `calcPopStdDevCPS`: `sqrt (popdev / sizeStats)` with `popdev` the total of
`devset`, and `-1` when `sizeStats <= 0`. -/
def calcPopStdDevCPS (sqrt : F → F) (statsInterval : List (StatsOverInterval F)) : F :=
  let sizeStats := statsInterval.length
  let popdev := (devset statsInterval).foldl (fun popdev x => popdev + x) 0
  let popdev := sqrt (popdev / (sizeStats : F))
  if sizeStats ≤ 0 then -1 else popdev

/-- Function `calcSmplStdDevCPS`: `-1` when `sizeStats == 1`, otherwise
`sqrt (smpldev / (sizeStats - 1))`, the subtraction done on `int`. -/
def calcSmplStdDevCPS (sqrt : F → F) (statsInterval : List (StatsOverInterval F)) : F :=
  let sizeStats := statsInterval.length
  let smpldev := (devset statsInterval).foldl (fun smpldev x => smpldev + x) 0
  if sizeStats = 1 then -1
  else sqrt (smpldev / (((sizeStats : Int) - 1 : Int) : F))

/-- Function `calcTimeSaved`. -/
def calcTimeSaved (statsInterval : List (StatsOverInterval F))
    (defaultIntersectionTime : F) : F :=
  let total := statsInterval.foldl (fun total s => total + s.timeInterval) 0
  (statsInterval.length : F) * defaultIntersectionTime - total

/-- Function `computeStatsOverSimulation` (the two log-sink calls left out). -/
def computeStatsOverSimulation (sqrt : F → F) (stray : Stray F)
    (intervalStats : List (StatsOverInterval F)) : StatsOverSimulation F :=
  { totalCars := calcTotalCars intervalStats,
    totalTime := calcTotalTime intervalStats,
    maxCars := calcMaxCars stray.log intervalStats,
    minCars := calcMinCars stray.log intervalStats,
    averageCars := calcAvgCars intervalStats,
    averageTime := calcAvgTime intervalStats,
    modeCars := (calcModeCars stray.newData intervalStats).1,
    numModes := (calcModeCars stray.newData intervalStats).2,
    maxCPS := calcMaxCPS stray.log intervalStats,
    minCPS := calcMinCPS stray.log intervalStats,
    avgCPS := calcAverageCPS intervalStats,
    medianCPS := calcMedianCPS stray.set intervalStats,
    popStdDevCPS := calcPopStdDevCPS sqrt intervalStats,
    smplStdDevCPS := calcSmplStdDevCPS sqrt intervalStats,
    timeSaved := calcTimeSaved intervalStats 30 }

end Stats2

/-! ## Sensor -/

/-- The wait loop of `readSensor`:
`while ((echo==0) && (iterations < 5000)) { echo = gpio_get_value(gpioIn); iterations++; }`.
`gpio k` is the value returned by call number `k` of `gpio_get_value` (call `0`
is the one before the loop), so `echo = gpio iterations` at the loop test.
Returns the final value of `iterations`. -/
def waitEcho (gpio : Nat → Int) (iterations : Nat) : Nat :=
  if gpio iterations = 0 ∧ iterations < 5000 then waitEcho gpio (iterations + 1)
  else iterations
termination_by 5000 - iterations

/-- The measuring loop of `readSensor`:
`while ((echo != 0) && (microsecondCounter < 32000)) { echo = gpio_get_value(gpioIn); microsecondCounter += 10; }`
with `echo = gpio call` at the loop test.  Returns the final `microsecondCounter`. -/
def measureEcho (gpio : Nat → Int) (call : Nat) (microsecondCounter : Nat) : Nat :=
  if gpio call ≠ 0 ∧ microsecondCounter < 32000 then
    measureEcho gpio (call + 1) (microsecondCounter + 10)
  else microsecondCounter
termination_by 32000 - microsecondCounter

section Sensor

variable {F : Type} [LinearOrderedField F]

/-- Function `readSensor`: `-2` when the echo was not seen within 5000 iterations
("sensor didn't work"), `-1` when the echo lasted 32000 microseconds ("detected
nothing"), otherwise the range `microsecondCounter/58`. -/
def readSensor (gpio : Nat → Int) : F :=
  let iterations := waitEcho gpio 0
  if iterations ≥ 5000 then -2
  else
    let microsecondCounter := measureEcho gpio (iterations + 1) 0
    if microsecondCounter ≥ 32000 then -1
    else (microsecondCounter : F) / 58

/-- Function `carPassed`: `readSensor(gpioIn, gpioOut) <= threshold`. -/
def carPassed (gpio : Nat → Int) (threshold : F) : Bool :=
  if (readSensor gpio : F) ≤ threshold then true else false

/-- Threshold for the sensor: `defaultThreshold = 0.3`. -/
def defaultThreshold : F := 3 / 10

/-- Default time interval to switch from green to red: `defaultTimeInterval = 30`. -/
def defaultTimeInterval : F := 30

end Sensor

/-! ## Phase state machine -/

/-- What one pass through the body of a `while (!done)` loop of `main` reads from
outside: the result of `carPassed`, and the clock (`tv_sec`) at each of the
clock reads the pass can make. -/
structure Tick where
  /-- Result of `carPassed (SENS_x_IN, SENS_x_OUT, defaultThreshold)`. -/
  passed : Bool
  /-- Clock at `timerOpti = timeUpdate()` (read only when `passed`). -/
  tPassed : Int
  /-- Clock at `deltaTime(timerMain) > defaultTimeInterval`. -/
  tMain : Int
  /-- Clock at `deltaTime(timerOpti) > 10` (read only when the first test fails). -/
  tOpti : Int
  /-- Clock at `intervalStat.timeInterval = deltaTime(timerMain)` (cutoff only). -/
  tClose : Int
deriving DecidableEq

/-- The variables of `main` that the state machine uses; `sizeNorth` and
`sizeWest` are the lengths of `north` and `west`. -/
structure MainState (F : Type) where
  currentState : Char
  north : List (StatsOverInterval F)
  west : List (StatsOverInterval F)
  done : Bool
  timerMain : Int
  timerOpti : Int
  carCounter : Int
  intervalStat : StatsOverInterval F
deriving DecidableEq

section Controller

variable {F : Type} [LinearOrderedField F]

/-- The statements `north[sizeNorth] = intervalStat; sizeNorth++` in `case 'n'`,
`west[sizeWest] = intervalStat; sizeWest++` in `case 'w'`. -/
def MainState.record (m : MainState F) : MainState F :=
  if m.currentState = 'n' then { m with north := m.north ++ [m.intervalStat] }
  else { m with west := m.west ++ [m.intervalStat] }

/-- One pass through the body of `while (!done)` (the same code in `case 'n'`
and `case 'w'`, on `north` or `west`); log-sink calls left out. -/
def pollTick (m : MainState F) (k : Tick) : MainState F :=
  let m1 : MainState F :=
    if k.passed then { m with carCounter := m.carCounter + 1, timerOpti := k.tPassed }
    else m
  if k.tMain - m1.timerMain > 30 then
    let m2 : MainState F := { m1 with done := true }
    let s1 : StatsOverInterval F := { m2.intervalStat with numCars := m2.carCounter }
    let s2 : StatsOverInterval F := { s1 with timeInterval := defaultTimeInterval }
    let s3 : StatsOverInterval F := { s2 with cps := calcCarsPerSecond s2 }
    ({ m2 with intervalStat := s3 } : MainState F).record
  else if k.tOpti - m1.timerOpti > 10 then
    let m2 : MainState F := { m1 with done := true }
    let s1 : StatsOverInterval F := { m2.intervalStat with numCars := m2.carCounter }
    let s2 : StatsOverInterval F :=
      { s1 with timeInterval := ((k.tClose - m2.timerMain : Int) : F) }
    let s3 : StatsOverInterval F := { s2 with cps := calcCarsPerSecond s2 }
    ({ m2 with intervalStat := s3 } : MainState F).record
  else m1

/-- The loop `while (!done) { ... }` run on the ticks observed; it stops at the
first tick that sets `done`, or when the observed ticks are used up. -/
def phaseLoop (m : MainState F) : List Tick → MainState F
  | [] => m
  | k :: ks => if m.done then m else phaseLoop (pollTick m k) ks

/-- Entry of a `case`: `done = false; timerMain = timeUpdate();
timerOpti = timeUpdate(); carCounter = 0`. -/
def enterPhase (m : MainState F) (tMain tOpti : Int) : MainState F :=
  { m with done := false, timerMain := tMain, timerOpti := tOpti, carCounter := 0 }

/-- The assignment after the inner loop: `currentState = 'w'` in `case 'n'`,
`currentState = 'n'` in `case 'w'`. -/
def switchState (m : MainState F) : MainState F :=
  { m with currentState := if m.currentState = 'n' then 'w' else 'n' }

/-- Phase clock of a tick: the value of `deltaTime(timerMain)` it tests. -/
def phaseClock (m : MainState F) (k : Tick) : Int := k.tMain - m.timerMain

/-- Idle clock of a tick: the value of `deltaTime(timerOpti)` it tests, after
`timerOpti` was reset if the tick detected a passage. -/
def idleClock (m : MainState F) (k : Tick) : Int :=
  k.tOpti - (if k.passed then k.tPassed else m.timerOpti)

/-- The log of the approach that is green: `north` in state `'n'`, else `west`. -/
def activeLog (m : MainState F) : List (StatsOverInterval F) :=
  if m.currentState = 'n' then m.north else m.west

/-- The log of the approach that is red. -/
def passiveLog (m : MainState F) : List (StatsOverInterval F) :=
  if m.currentState = 'n' then m.west else m.north

end Controller

/-! ## Specification-side definitions and example inputs -/

section SortSpec

variable {α : Type} [LinearOrder α]

/-- The part of the array below `k` is in ascending order and below the rest
of `dataset[0 .. size)`. -/
def LowerSorted (d : α) (size : Nat) (l : List α) (k : Nat) : Prop :=
  ∀ i j, i < k → i < j → j < size → l.getD i d ≤ l.getD j d

end SortSpec

/-- The modes of the car counts `xs`, in the words of the specification: `ms`
lists, each once and in ascending order, exactly the values whose frequency in
`xs` equals the maximum frequency. -/
def IsModeList (xs ms : List Int) : Prop :=
  ms.Sorted (· < ·) ∧ ∀ v, v ∈ ms ↔ (v ∈ xs ∧ ∀ w ∈ xs, xs.count w ≤ xs.count v)

/-- The scan loop of `calcModeCars` as a recursion over the sorted copy: the
pass on cell `i` sees `newData[i]` and `newData[i+1]`, and the last pass sees
the last cell and `o`, the content of the cell after the copy. -/
def scanFrom (o : Int) : ModeScan → List Int → ModeScan
  | st, [] => st
  | st, [x] => modeStep st x o
  | st, x :: y :: rest => scanFrom o (modeStep st x y) (y :: rest)

/-- Invariant of the scan loop of `calcModeCars` before the pass on a cell
holding `x`, with `P` the cells before it: `modeCount` is the length of the run
of `x` so far, `maxCount` the largest frequency so far, and `modes` lists in
ascending order the values before `x` (while every frequency is 1) or the
values whose frequency so far is `maxCount`. -/
structure ScanInv (P : List Int) (x : Int) (st : ModeScan) : Prop where
  size_eq : st.sizeMode = st.modes.length
  index_eq : st.indexMode = st.modes.length
  count_eq : st.modeCount = (P ++ [x]).count x
  max_ge : ∀ w ∈ P ++ [x], (P ++ [x]).count w ≤ st.maxCount
  max_at : ∃ w ∈ P ++ [x], (P ++ [x]).count w = st.maxCount
  sorted : st.modes.Sorted (· < ·)
  mem_one : st.maxCount = 1 → ∀ v, v ∈ st.modes ↔ v ∈ P
  mem_many : st.maxCount ≠ 1 →
    ∀ v, v ∈ st.modes ↔ (v ∈ P ++ [x] ∧ (P ++ [x]).count v = st.maxCount)
  first : st.firstTime = false → st.modes = [x] ∧ st.modeCount = st.maxCount
  le_cur : ∀ w ∈ P, w ≤ x

/-- A `'n'` phase entered at clock `0`, the car counter at `1` after one
passage, the last passage at clock `25`. -/
def northAt25 : MainState ℚ :=
  { currentState := 'n', north := [], west := [], done := false, timerMain := 0,
    timerOpti := 25, carCounter := 1, intervalStat := ⟨0, 0, 0⟩ }

/-- The variables of `main` before the first phase, `currentState = 'n'`. -/
def mainStart : MainState ℚ :=
  { currentState := 'n', north := [], west := [], done := false, timerMain := 0,
    timerOpti := 0, carCounter := 0, intervalStat := ⟨0, 0, 0⟩ }

/-- A tick without a passage on which every clock read gives `t`. -/
def quietAt (t : Int) : Tick := ⟨false, t, t, t, t⟩

/-- A tick with a passage on which every clock read gives `t`. -/
def passageAt (t : Int) : Tick := ⟨true, t, t, t, t⟩

/-- A `'w'` phase entered at clock `100`, no passage so far. -/
def westIdle : MainState ℚ :=
  { currentState := 'w', north := [⟨2, 30, 1 / 15⟩], west := [], done := false,
    timerMain := 100, timerOpti := 100, carCounter := 0, intervalStat := ⟨2, 30, 1 / 15⟩ }

/-- A log with the given cps values (one car in every interval). -/
def logOfCps {F : Type} [LinearOrderedField F] (xs : List F) : List (StatsOverInterval F) :=
  xs.map (fun x => ⟨1, 1 / x, x⟩)

/-- Memory around the arrays: cell `north[0]` left over with 7 cars in 30 s, and zeros. -/
def strayExample : Stray ℚ :=
  { log := fun _ => ⟨7, 30, 7 / 30⟩, newData := fun _ => 0, set := fun _ => 0 }

/-- The log of five intervals with car counts 5, 2, 3, 2, 5 (30 s each). -/
def logModes : List (StatsOverInterval ℚ) :=
  [⟨5, 30, 1 / 6⟩, ⟨2, 30, 1 / 15⟩, ⟨3, 30, 1 / 10⟩, ⟨2, 30, 1 / 15⟩, ⟨5, 30, 1 / 6⟩]

/-- A log of two intervals that lasted 30 s and 7 s. -/
def logDurations : List (StatsOverInterval ℚ) :=
  [⟨3, 30, 1 / 10⟩, ⟨1, 7, 1 / 7⟩]

/-- What one pass through the `switch` of `main` reads from outside: the clock
at the loop test `deltaTime(simulationTimer) < simulationTime`, the clock at
`timerMain = timeUpdate()` and at `timerOpti = timeUpdate()`, and the ticks
observed in the inner loop. -/
structure PhaseInput where
  tCheck : Int
  tMain : Int
  tOpti : Int
  ticks : List Tick
deriving DecidableEq

section MainLoop

variable {F : Type} [LinearOrderedField F]

/-- The variables of `main` when the state machine starts: `currentState = 'n'`
(north is green), `sizeNorth = 0`, `sizeWest = 0`, `done = false`,
`carCounter = 0`; `intervalStat`, `timerMain` and `timerOpti` are declared
without a value, their content is a parameter. -/
def mainInit (intervalStat : StatsOverInterval F) (timerMain timerOpti : Int) :
    MainState F :=
  { currentState := 'n', north := [], west := [], done := false, timerMain := timerMain,
    timerOpti := timerOpti, carCounter := 0, intervalStat := intervalStat }

/-- One pass through `switch (currentState)`: in `case 'n'` and `case 'w'` the
phase is entered, the inner loop runs on the ticks observed, and when it has set
`done` the state is switched; any other value of `currentState` matches no
case. -/
def runPhase (m : MainState F) (ph : PhaseInput) : MainState F :=
  if m.currentState = 'n' ∨ m.currentState = 'w' then
    let m1 := phaseLoop (enterPhase m ph.tMain ph.tOpti) ph.ticks
    if m1.done then switchState m1 else m1
  else m

/-- The loop `while (deltaTime(simulationTimer) < simulationTime) { switch ... }`
on the phases observed; it stops when the test fails, when the observed phases
are used up, or inside a phase whose observed ticks are used up before `done`. -/
def mainLoop (simulationTimer simulationTime : Int) :
    MainState F → List PhaseInput → MainState F
  | m, [] => m
  | m, ph :: rest =>
    if ph.tCheck - simulationTimer < simulationTime then
      if (runPhase m ph).done then mainLoop simulationTimer simulationTime (runPhase m ph) rest
      else runPhase m ph
    else m

/-- The ticks of the observed sequence that the loop `while (!done)` executes:
all ticks up to and including the first one that sets `done`. -/
def ticksExecuted (m : MainState F) : List Tick → List Tick
  | [] => []
  | k :: ks => if m.done then [] else k :: ticksExecuted (pollTick m k) ks

end MainLoop

/-- The clock values of a tick in the order in which the code reads them. -/
def Tick.reads (k : Tick) : List Int := [k.tPassed, k.tMain, k.tOpti, k.tClose]

/-- The clock values read during a phase, in program order: the two reads at
the entry of the phase, then those of every tick. -/
def phaseReads (tMain tOpti : Int) (ks : List Tick) : List Int :=
  tMain :: tOpti :: ks.flatMap Tick.reads

/-- A tick without a passage during which the second changes from 30 to 31
between the full-duration test and the idle test. -/
def tickAcrossSecond : Tick := ⟨false, 30, 30, 31, 31⟩

/-- The relation between the fields of an interval record: `cps` is the car
count divided by the duration. -/
def CpsConsistent {F : Type} [LinearOrderedField F] (r : StatsOverInterval F) : Prop :=
  r.cps = (r.numCars : F) / r.timeInterval

/-- A phase observed from its entry at clock 0: a tick at clock 5 and a tick
at clock 11, both without a passage. -/
def idlePhase : PhaseInput := ⟨0, 0, 0, [quietAt 5, quietAt 11]⟩

/-- The ticks of a phase entered at clock 0 with one passage at clock 20; on
the last tick the second changes from 30 to 31 after the full-duration test. -/
def ticksAcrossSecond : List Tick :=
  [passageAt 20, quietAt 25, quietAt 30, tickAcrossSecond]

/-- The ticks of a phase entered at clock 0: passages at clock 9, 18 and 27, and
a passage on the tick at clock 31 that closes the phase by the full-duration
rule; the tick at clock 32 is observed but not executed. -/
def ticksFourPassages : List Tick :=
  [passageAt 9, quietAt 14, passageAt 18, passageAt 27, passageAt 31, quietAt 32]

/-! ## Statistics calls as state passing -/

/-- The arrays that a call of a statistics function can write to: the caller's
log `statsInterval`, the local copies `newData` (of `calcModeCars`) and `set`
(of `calcMedianCPS`), and the caller's array `modes`. -/
structure StatsArrays (F : Type) where
  statsInterval : List (StatsOverInterval F)
  newData : List Int
  set : List F
  modes : List Int

section StatePassing

variable {F : Type} [LinearOrderedField F]

/-- The copy loop of `calcModeCars`:
`for (i = 0; i < sizeStats; i++) newData[i] = statsInterval[i].numCars;`. -/
def copyNumCars (outside : Int → StatsOverInterval F) (a : StatsArrays F)
    (sizeStats : Nat) : StatsArrays F :=
  (List.range sizeStats).foldl
    (fun (a : StatsArrays F) (i : Nat) =>
      { a with newData := a.newData.set i (arrGet a.statsInterval outside (i : Int)).numCars })
    a

/-- The copy loop of `calcMedianCPS`:
`while (j < sizeStats) { set[j] = statsInterval[j].cps; j++; }`. -/
def copyCps (outside : Int → StatsOverInterval F) (a : StatsArrays F)
    (sizeStats : Nat) : StatsArrays F :=
  (List.range sizeStats).foldl
    (fun (a : StatsArrays F) (j : Nat) =>
      { a with set := a.set.set j (arrGet a.statsInterval outside (j : Int)).cps })
    a

/-- The call `calcModeCars (statsInterval, sizeStats, modes)` on the arrays: the
declaration `int newData[sizeStats]` places `newData` on memory holding
`stray.newData`, the copy loop fills it, `sortInt (newData, sizeStats)` sorts
it in place, and the scan writes `modes`.  Returns the arrays after the call
and the return value. -/
def calcModeCarsOn (stray : Stray F) (a : StatsArrays F) : StatsArrays F × Nat :=
  let sizeStats := a.statsInterval.length
  let a1 : StatsArrays F :=
    { a with
      newData := (List.range sizeStats).map (fun (i : Nat) => stray.newData (i : Int)) }
  let a2 := copyNumCars stray.log a1 sizeStats
  let a3 : StatsArrays F := { a2 with newData := sortInt a2.newData sizeStats }
  let s := modeScan stray.newData a3.newData sizeStats
  ({ a3 with modes := s.modes.take s.sizeMode }, s.sizeMode)

/-- The call `calcMedianCPS (statsInterval, sizeStats)` on the arrays: `set` is
declared, filled by the copy loop and sorted in place by
`sortFloat (set, sizeStats)`.  Returns the arrays after the call and the
return value. -/
def calcMedianCPSOn (stray : Stray F) (a : StatsArrays F) : StatsArrays F × F :=
  let sizeStats := a.statsInterval.length
  let a1 : StatsArrays F :=
    { a with
      set := (List.range sizeStats).map (fun (j : Nat) => stray.set (j : Int)) }
  let a2 := copyCps stray.log a1 sizeStats
  let a3 : StatsArrays F := { a2 with set := sortFloat a2.set sizeStats }
  let median :=
    if sizeStats % 2 = 0 then
      (arrGet a3.set stray.set ((sizeStats : Int) / 2)
        + arrGet a3.set stray.set ((sizeStats : Int) / 2 - 1)) / 2
    else
      arrGet a3.set stray.set (((sizeStats : Int) - 1) / 2)
  (a3, median)

/-- The call `computeStatsOverSimulation (intervalStats, sizeStats)` on the
arrays: the fourteen calls in the order of the source, each reading
`statsInterval` as the calls before it left it.  Returns the arrays after the
call and the record. -/
def computeStatsOverSimulationOn (sqrt : F → F) (stray : Stray F) (a : StatsArrays F) :
    StatsArrays F × StatsOverSimulation F :=
  let totalCars := calcTotalCars a.statsInterval
  let totalTime := calcTotalTime a.statsInterval
  let maxCars := calcMaxCars stray.log a.statsInterval
  let minCars := calcMinCars stray.log a.statsInterval
  let averageCars := calcAvgCars a.statsInterval
  let averageTime := calcAvgTime a.statsInterval
  let r1 := calcModeCarsOn stray a
  let maxCPS := calcMaxCPS stray.log r1.1.statsInterval
  let minCPS := calcMinCPS stray.log r1.1.statsInterval
  let avgCPS := calcAverageCPS r1.1.statsInterval
  let r2 := calcMedianCPSOn stray r1.1
  let popStdDevCPS := calcPopStdDevCPS sqrt r2.1.statsInterval
  let smplStdDevCPS := calcSmplStdDevCPS sqrt r2.1.statsInterval
  let timeSaved := calcTimeSaved r2.1.statsInterval 30
  (r2.1,
    { totalCars := totalCars, totalTime := totalTime, maxCars := maxCars, minCars := minCars,
      averageCars := averageCars, averageTime := averageTime, modeCars := r1.1.modes,
      numModes := r1.2, maxCPS := maxCPS, minCPS := minCPS, avgCPS := avgCPS,
      medianCPS := r2.2, popStdDevCPS := popStdDevCPS, smplStdDevCPS := smplStdDevCPS,
      timeSaved := timeSaved })

end StatePassing

/-! ## Arithmetic of `float` with rounding

The statistics above are modelled in exact arithmetic.  Where a result depends
on rounding, the operations of `float` are modelled as those of IEEE-754
binary32 with round to nearest, ties to even, each operation rounded once.  A finite binary32 value `x` is coded by the integer
`x * 2^149` (every finite binary32 value is a multiple of `2^-149`), so the
order of the codes is the order of the values.  Overflow to infinity, NaN and
division by zero are not modelled. -/

/-- Nearest multiple of `2^s` to the non-negative rational `a / q`, the
multiple with an even factor when `a / q` is half-way between two multiples. -/
def roundToGrid (a q s : Nat) : Nat :=
  let g := q * 2 ^ s
  let lo := a / g
  let r := a % g
  if 2 * r < g then lo * 2 ^ s
  else if g < 2 * r then (lo + 1) * 2 ^ s
  else if lo % 2 = 0 then lo * 2 ^ s
  else (lo + 1) * 2 ^ s

/-- Number of halvings that bring `t` below `2^24`, at most `fuel` of them. -/
def excessBits : Nat → Nat → Nat
  | 0, _ => 0
  | fuel + 1, t => if t < 2 ^ 24 then 0 else excessBits fuel (t / 2) + 1

/-- Code of the binary32 value nearest to `(a / q) * 2^-149`, for `a / q ≥ 0`:
below `2^24` the codes are spaced by 1 (subnormal numbers and the first
binade), and a code of `24 + s` bits is a multiple of `2^s` (24 significant
bits).  The codes of finite values are below `2^277`, so 300 halvings are
enough. -/
def round32Nat (a q : Nat) : Nat :=
  roundToGrid a q (excessBits 300 (a / q))

/-- Code of the binary32 value nearest to `(p / q) * 2^-149`; rounding is
symmetric in the sign. -/
def round32 (p : Int) (q : Nat) : Int :=
  if p < 0 then -((round32Nat (-p).toNat q : Nat) : Int)
  else ((round32Nat p.toNat q : Nat) : Int)

/-- Conversion of an `int` to `float`. -/
def F32.ofInt (n : Int) : Int := round32 (n * ((2 ^ 149 : Nat) : Int)) 1

/-- The sum of two `float` values. -/
def F32.add (x y : Int) : Int := round32 (x + y) 1

/-- The quotient of two `float` values, for `y ≠ 0`. -/
def F32.div (x y : Int) : Int :=
  if y < 0 then round32 (-(x * ((2 ^ 149 : Nat) : Int))) (-y).toNat
  else round32 (x * ((2 ^ 149 : Nat) : Int)) y.toNat

/-- The function `calcCarsPerSecond` in binary32: the car count is converted to
`float` and divided by the duration. -/
def calcCarsPerSecond32 (numCars : Int) (timeInterval : Int) : Int :=
  F32.div (F32.ofInt numCars) timeInterval

/-- The function `calcAverageCPS` in binary32: `total += statsInterval[i].cps`
from `total = 0`, then `total/sizeStats` with `sizeStats` converted to `float`. -/
def calcAverageCPS32 (statsInterval : List (StatsOverInterval Int)) : Int :=
  F32.div (statsInterval.foldl (fun total s => F32.add total s.cps) 0)
    (F32.ofInt statsInterval.length)

/-- The function `calcMinCPS` on binary32 codes (comparisons only). -/
def calcMinCPS32 (outside : Int → StatsOverInterval Int)
    (statsInterval : List (StatsOverInterval Int)) : Int :=
  statsInterval.foldl (fun min s => if s.cps < min then s.cps else min)
    (arrGet statsInterval outside 0).cps

/-- The function `calcMaxCPS` on binary32 codes (comparisons only). -/
def calcMaxCPS32 (outside : Int → StatsOverInterval Int)
    (statsInterval : List (StatsOverInterval Int)) : Int :=
  statsInterval.foldl (fun max s => if s.cps > max then s.cps else max)
    (arrGet statsInterval outside 0).cps

/-- The record the controller appends for `numCars` cars in `seconds` seconds,
in binary32. -/
def record32 (numCars seconds : Int) : StatsOverInterval Int :=
  ⟨numCars, F32.ofInt seconds, calcCarsPerSecond32 numCars (F32.ofInt seconds)⟩

/-- Log of three intervals of 2 cars in 19 s, in binary32. -/
def logThreeSlow : List (StatsOverInterval Int) :=
  [record32 2 19, record32 2 19, record32 2 19]

/-- Log of three intervals of 7 cars in 18 s, in binary32. -/
def logThreeBusy : List (StatsOverInterval Int) :=
  [record32 7 18, record32 7 18, record32 7 18]

/-- The difference of two `float` values. -/
def F32.sub (x y : Int) : Int := round32 (x - y) 1

/-- The product of two `float` values: the codes `x` and `y` stand for
`x * 2^-149` and `y * 2^-149`, so the code of the exact product is
`x * y / 2^149`. -/
def F32.mul (x y : Int) : Int := round32 (x * y) (2 ^ 149)

/-- Integer square root by bits: the largest `r + d` with `d < 2^k` and
`(r + d)^2 ≤ n`. -/
def sqrtBits (n : Nat) : Nat → Nat → Nat
  | 0, r => r
  | k + 1, r =>
    if (r + 2 ^ k) * (r + 2 ^ k) ≤ n then sqrtBits n k (r + 2 ^ k) else sqrtBits n k r

/-- The integer part of the square root of `n`, for `n < 4^220`; the square
roots of the codes of finite binary32 values are taken of numbers below
`2^430`. -/
def sqrtFloor (n : Nat) : Nat := sqrtBits n 220 0

/-- The call `sqrt(x)` of the C library on a `float` argument `x ≥ 0`, its
result stored in a `float`: the binary32 value nearest to the square root.  (The
library function works in double precision, whose 53 bits are enough for the
second rounding, to `float`, to give the nearest `float`.)  The code of the
square root of `x * 2^-149` is the square root of `x * 2^149`; with `t` the
integer part of four times that root, the root is `t / 4` when `t * t` is
`16 * x * 2^149`, and otherwise lies strictly between `t / 4` and `(t + 1) / 4`,
where no binary32 value and no midpoint of two lies, so that it is rounded like
`(2 * t + 1) / 8`. -/
def F32.sqrt (x : Int) : Int :=
  let n := x.toNat * 2 ^ 149 * 16
  let t := sqrtFloor n
  if t * t = n then ((round32Nat t 4 : Nat) : Int)
  else ((round32Nat (2 * t + 1) 8 : Nat) : Int)

/-- The array `devset` of `calcPopStdDevCPS` / `calcSmplStdDevCPS` in binary32:
`(cps - calcAverageCPS(..)) * (cps - calcAverageCPS(..))`. -/
def devset32 (statsInterval : List (StatsOverInterval Int)) : List Int :=
  statsInterval.map (fun s =>
    F32.mul (F32.sub s.cps (calcAverageCPS32 statsInterval))
      (F32.sub s.cps (calcAverageCPS32 statsInterval)))

/-- The function `calcPopStdDevCPS` in binary32. -/
def calcPopStdDevCPS32 (statsInterval : List (StatsOverInterval Int)) : Int :=
  let sizeStats := statsInterval.length
  let popdev := (devset32 statsInterval).foldl (fun popdev x => F32.add popdev x) 0
  let popdev := F32.sqrt (F32.div popdev (F32.ofInt sizeStats))
  if sizeStats ≤ 0 then F32.ofInt (-1) else popdev

/-- The function `calcSmplStdDevCPS` in binary32. -/
def calcSmplStdDevCPS32 (statsInterval : List (StatsOverInterval Int)) : Int :=
  let sizeStats := statsInterval.length
  let smpldev := (devset32 statsInterval).foldl (fun smpldev x => F32.add smpldev x) 0
  if sizeStats = 1 then F32.ofInt (-1)
  else F32.sqrt (F32.div smpldev (F32.ofInt ((sizeStats : Int) - 1)))

/-- The function `calcMedianCPS` in binary32: the copy `set` of the cps values
is sorted by `sortFloat` (comparisons and swaps only, here on the codes), and
the two middle cells of an even number of cells are added and divided by 2. -/
def calcMedianCPS32 (outside : Int → Int) (statsInterval : List (StatsOverInterval Int)) :
    Int :=
  let sizeStats := statsInterval.length
  let set := statsInterval.map (fun s => s.cps)
  let set := selection (0 : Int) set sizeStats 0
  if sizeStats % 2 = 0 then
    F32.div (F32.add (arrGet set outside ((sizeStats : Int) / 2))
      (arrGet set outside ((sizeStats : Int) / 2 - 1))) (F32.ofInt 2)
  else
    arrGet set outside (((sizeStats : Int) - 1) / 2)

/-- Log of two intervals with cps 2.0 and 4.0 (2 cars and 4 cars in 1 s), in
binary32. -/
def logTwoFour32 : List (StatsOverInterval Int) := [record32 2 1, record32 4 1]

/-- A finite binary32 value, as a code: below `2^128` in magnitude, and a
multiple of the spacing of the binary32 values at its magnitude. -/
def IsBinary32 (c : Int) : Prop :=
  c.natAbs < 2 ^ 128 * 2 ^ 149 ∧ 2 ^ excessBits 300 c.natAbs ∣ c.natAbs

/-- Whether a code is a finite binary32 value can be computed. -/
instance IsBinary32.decidable (c : Int) : Decidable (IsBinary32 c) :=
  (inferInstance :
    Decidable (c.natAbs < 2 ^ 128 * 2 ^ 149 ∧ 2 ^ excessBits 300 c.natAbs ∣ c.natAbs))

/-- Log of an interval of 2 cars in 19 s and one of 7 cars in 18 s, in
binary32. -/
def logSlowBusy : List (StatsOverInterval Int) := [record32 2 19, record32 7 18]

/-- A log of two intervals of 1 car in 2 s and 1 car in 4 s; its cps values
1/2 and 1/4, their sum and their mean are `float` values. -/
def logHalfQuarter : List (StatsOverInterval ℚ) := [⟨1, 2, 1 / 2⟩, ⟨1, 4, 1 / 4⟩]

/-! ## Sorting with a call bound, scan reads, log sizes -/

section SelectionFuel

variable {α : Type} [LinearOrder α]

/-- The recursion of `selectionInt` / `selectionFloat` with the exit test of the
source, `index == size`, and a bound `fuel` on the number of calls: `none` when
the calls are used up before the exit test succeeds. -/
def selectionFuel (d : α) : Nat → List α → Nat → Nat → Option (List α)
  | 0, _, _, _ => none
  | fuel + 1, dataset, size, index =>
    if index = size then some dataset
    else
      let posMin := (selectMin d dataset size index).2
      let temp := dataset.getD index d
      let dataset1 := dataset.set index (dataset.getD posMin d)
      let dataset2 := dataset1.set posMin temp
      selectionFuel d fuel dataset2 size (index + 1)

end SelectionFuel

/-- The indices of `newData` read by the scan loop of `calcModeCars`,
`for (i = 0; i <= sizeStats-1; i++)`: pass `i` evaluates
`newData[i] == newData[i+1]`. -/
def scanReads (sizeStats : Nat) : List Int :=
  (List.range sizeStats).flatMap (fun (i : Nat) => [(i : Int), (i : Int) + 1])

/-- The relation between the sizes of the two logs and the state: equal sizes
in state `'n'`, one more North interval in state `'w'`. -/
def SizesAlternate {F : Type} (m : MainState F) : Prop :=
  (m.currentState = 'n' ∧ m.north.length = m.west.length) ∨
  (m.currentState = 'w' ∧ m.north.length = m.west.length + 1)

/-- Three phases observed from the start of the run: North closes by the idle
rule at clock 11, West at clock 23, and the third phase (North again) is still
open when the observation ends. -/
def threePhases : List PhaseInput :=
  [⟨0, 0, 0, [quietAt 5, quietAt 11]⟩, ⟨11, 12, 12, [quietAt 18, quietAt 23]⟩,
   ⟨23, 24, 24, [quietAt 30]⟩]

/-! ## Regular polling -/

/-- Clock reads of successive passes of the loop `while (!done)` under regular
polling.  `first` and `last` are the first and the last clock value read before
the passes `ks` (by the pass before them, or at the entry of the phase).  The
clock does not run backwards from one read to the next, and the last read of a
pass is at most one second after the first read of the pass before it: every
pass ends with `usleep(100000)`, so two successive passes take far less than a
second.  The fields of a tick that its pass does not read are taken as reads at
their place in the order. -/
def RegularFrom (first last : Int) : List Tick → Prop
  | [] => True
  | k :: ks =>
    last ≤ k.tPassed ∧ k.tPassed ≤ k.tMain ∧ k.tMain ≤ k.tOpti ∧ k.tOpti ≤ k.tClose ∧
      k.tClose ≤ first + 1 ∧ RegularFrom k.tPassed k.tClose ks

/-- Whether a sequence of passes is regular can be computed. -/
instance RegularFrom.decidable : (first last : Int) → (ks : List Tick) →
    Decidable (RegularFrom first last ks)
  | _, _, [] => isTrue trivial
  | first, last, k :: ks =>
    have := RegularFrom.decidable k.tPassed k.tClose ks
    (inferInstance : Decidable (last ≤ k.tPassed ∧ k.tPassed ≤ k.tMain ∧ k.tMain ≤ k.tOpti ∧
      k.tOpti ≤ k.tClose ∧ k.tClose ≤ first + 1 ∧ RegularFrom k.tPassed k.tClose ks))

/-- Regular polling of a phase entered with the clock reads `tMain`
(`timerMain = timeUpdate()`) and `tOpti` (`timerOpti = timeUpdate()`). -/
def RegularPolling (tMain tOpti : Int) (ks : List Tick) : Prop :=
  tMain ≤ tOpti ∧ tOpti ≤ tMain + 1 ∧ RegularFrom tMain tOpti ks

/-- Whether a phase is polled regularly can be computed. -/
instance RegularPolling.decidable (tMain tOpti : Int) (ks : List Tick) :
    Decidable (RegularPolling tMain tOpti ks) :=
  (inferInstance : Decidable (tMain ≤ tOpti ∧ tOpti ≤ tMain + 1 ∧ RegularFrom tMain tOpti ks))

/-- The pass of the loop made in second `t` of a phase that is observed once a
second: every clock read gives `t`, and a passage is reported when `t` is one of
`passages`. -/
def secondTick (passages : List Int) (t : Int) : Tick :=
  ⟨decide (t ∈ passages), t, t, t, t⟩

/-- The passes made in the seconds `1 .. n`. -/
def ticksUpTo (passages : List Int) (n : Nat) : List Tick :=
  (List.range n).map (fun (i : Nat) => secondTick passages ((i : Int) + 1))

/-- A phase entered at clock 0 with passages in the seconds 10 and 20, observed
once a second up to second 30; on the pass after that the second changes from
30 to 31 between the full-duration test and the idle test. -/
def phaseLateRead : PhaseInput :=
  ⟨0, 0, 0, ticksUpTo [10, 20] 30 ++ [tickAcrossSecond]⟩

/-! ## Shared lemmas -/

section FoldLemmas

variable {β γ : Type}

/-- An accumulating loop `total += f s` computes the start value plus the sum. -/
theorem foldl_add_eq_sum [AddCommMonoid γ] (f : β → γ) (l : List β) (a : γ) :
    l.foldl (fun total s => total + f s) a = a + (l.map f).sum := by
  induction l generalizing a with
  | nil => simp
  | cons x xs ih => simp [ih, add_assoc]

/-- The running maximum never drops below its start value. -/
theorem le_foldl_max [LinearOrder γ] (f : β → γ) (l : List β) (a : γ) :
    a ≤ l.foldl (fun max s => if f s > max then f s else max) a := by
  induction l generalizing a with
  | nil => simp
  | cons x xs ih =>
    simp only [List.foldl_cons]
    split
    · exact le_trans (le_of_lt (by assumption)) (ih _)
    · exact ih _

/-- The running maximum dominates every scanned value. -/
theorem mem_le_foldl_max [LinearOrder γ] (f : β → γ) (l : List β) (a : γ) :
    ∀ s ∈ l, f s ≤ l.foldl (fun max s => if f s > max then f s else max) a := by
  induction l generalizing a with
  | nil => simp
  | cons x xs ih =>
    intro s hs
    simp only [List.foldl_cons]
    rcases List.mem_cons.mp hs with rfl | hs
    · split
      · exact le_foldl_max f xs _
      · exact le_trans (not_lt.mp (by assumption)) (le_foldl_max f xs _)
    · exact ih _ s hs

/-- The running maximum is the start value or one of the scanned values. -/
theorem foldl_max_mem [LinearOrder γ] (f : β → γ) (l : List β) (a : γ) :
    l.foldl (fun max s => if f s > max then f s else max) a = a ∨
      ∃ s ∈ l, l.foldl (fun max s => if f s > max then f s else max) a = f s := by
  induction l generalizing a with
  | nil => simp
  | cons x xs ih =>
    simp only [List.foldl_cons]
    split
    · rcases ih (f x) with h | ⟨s, hs, h⟩
      · exact Or.inr ⟨x, List.mem_cons_self _ _, h⟩
      · exact Or.inr ⟨s, List.mem_cons_of_mem _ hs, h⟩
    · rcases ih a with h | ⟨s, hs, h⟩
      · exact Or.inl h
      · exact Or.inr ⟨s, List.mem_cons_of_mem _ hs, h⟩

/-- The running minimum never rises above its start value. -/
theorem foldl_min_le [LinearOrder γ] (f : β → γ) (l : List β) (a : γ) :
    l.foldl (fun min s => if f s < min then f s else min) a ≤ a := by
  induction l generalizing a with
  | nil => simp
  | cons x xs ih =>
    simp only [List.foldl_cons]
    split
    · exact le_trans (ih _) (le_of_lt (by assumption))
    · exact ih _

/-- The running minimum is below every scanned value. -/
theorem foldl_min_le_mem [LinearOrder γ] (f : β → γ) (l : List β) (a : γ) :
    ∀ s ∈ l, l.foldl (fun min s => if f s < min then f s else min) a ≤ f s := by
  induction l generalizing a with
  | nil => simp
  | cons x xs ih =>
    intro s hs
    simp only [List.foldl_cons]
    rcases List.mem_cons.mp hs with rfl | hs
    · split
      · exact foldl_min_le f xs _
      · exact le_trans (foldl_min_le f xs _) (not_lt.mp (by assumption))
    · exact ih _ s hs

/-- The running minimum is the start value or one of the scanned values. -/
theorem foldl_min_mem [LinearOrder γ] (f : β → γ) (l : List β) (a : γ) :
    l.foldl (fun min s => if f s < min then f s else min) a = a ∨
      ∃ s ∈ l, l.foldl (fun min s => if f s < min then f s else min) a = f s := by
  induction l generalizing a with
  | nil => simp
  | cons x xs ih =>
    simp only [List.foldl_cons]
    split
    · rcases ih (f x) with h | ⟨s, hs, h⟩
      · exact Or.inr ⟨x, List.mem_cons_self _ _, h⟩
      · exact Or.inr ⟨s, List.mem_cons_of_mem _ hs, h⟩
    · rcases ih a with h | ⟨s, hs, h⟩
      · exact Or.inl h
      · exact Or.inr ⟨s, List.mem_cons_of_mem _ hs, h⟩

/-- Inside the array, `arrGet` reads the cell. -/
theorem arrGet_of_lt (cells : List β) (outside : Int → β) (i : Nat) (h : i < cells.length) :
    arrGet cells outside (i : Int) = cells.get ⟨i, h⟩ := by
  unfold arrGet
  simp only [Int.natCast_nonneg, if_true, Int.toNat_ofNat, List.getElem?_eq_getElem h]
  rfl

/-- Outside the array, `arrGet` reads the surrounding memory. -/
theorem arrGet_of_ge (cells : List β) (outside : Int → β) (i : Nat) (h : cells.length ≤ i) :
    arrGet cells outside (i : Int) = outside i := by
  unfold arrGet
  simp only [Int.natCast_nonneg, if_true, Int.toNat_ofNat, List.getElem?_eq_none h]

/-- Cell `0` of a non-empty array is its first element. -/
theorem arrGet_zero_cons (x : β) (xs : List β) (outside : Int → β) :
    arrGet (x :: xs) outside 0 = x := by
  simp [arrGet]

end FoldLemmas

section StatsTheorems

variable {F : Type} [LinearOrderedField F]

/-- C8: on a non-empty log, `calcMinCars ≤ numCars_i ≤ calcMaxCars` and
`calcMinCPS ≤ cps_i ≤ calcMaxCPS` for every interval `i`, and each of the four
results is the value of some interval of the log. -/
theorem min_max_bounds (outside : Int → StatsOverInterval F)
    (log : List (StatsOverInterval F)) (hne : log ≠ []) :
    (∀ s ∈ log, calcMinCars outside log ≤ s.numCars ∧ s.numCars ≤ calcMaxCars outside log ∧
      calcMinCPS outside log ≤ s.cps ∧ s.cps ≤ calcMaxCPS outside log) ∧
    (∃ s ∈ log, calcMinCars outside log = s.numCars) ∧
    (∃ s ∈ log, calcMaxCars outside log = s.numCars) ∧
    (∃ s ∈ log, calcMinCPS outside log = s.cps) ∧
    (∃ s ∈ log, calcMaxCPS outside log = s.cps) := by
  obtain ⟨x, xs, rfl⟩ := List.exists_cons_of_ne_nil hne
  have hx : x ∈ x :: xs := List.mem_cons_self _ _
  refine ⟨fun s hs => ⟨?_, ?_, ?_, ?_⟩, ?_, ?_, ?_, ?_⟩
  · exact foldl_min_le_mem (fun s : StatsOverInterval F => s.numCars) _ _ s hs
  · exact mem_le_foldl_max (fun s : StatsOverInterval F => s.numCars) _ _ s hs
  · exact foldl_min_le_mem (fun s : StatsOverInterval F => s.cps) _ _ s hs
  · exact mem_le_foldl_max (fun s : StatsOverInterval F => s.cps) _ _ s hs
  · rcases foldl_min_mem (fun s : StatsOverInterval F => s.numCars) (x :: xs)
      (arrGet (x :: xs) outside 0).numCars with h | h
    · exact ⟨x, hx, by unfold calcMinCars; rw [h, arrGet_zero_cons]⟩
    · exact h
  · rcases foldl_max_mem (fun s : StatsOverInterval F => s.numCars) (x :: xs)
      (arrGet (x :: xs) outside 0).numCars with h | h
    · exact ⟨x, hx, by unfold calcMaxCars; rw [h, arrGet_zero_cons]⟩
    · exact h
  · rcases foldl_min_mem (fun s : StatsOverInterval F => s.cps) (x :: xs)
      (arrGet (x :: xs) outside 0).cps with h | h
    · exact ⟨x, hx, by unfold calcMinCPS; rw [h, arrGet_zero_cons]⟩
    · exact h
  · rcases foldl_max_mem (fun s : StatsOverInterval F => s.cps) (x :: xs)
      (arrGet (x :: xs) outside 0).cps with h | h
    · exact ⟨x, hx, by unfold calcMaxCPS; rw [h, arrGet_zero_cons]⟩
    · exact h

end StatsTheorems

/-- C8, witness: the log with car counts 5, 2, 3, 2, 5; its extreme car counts
and cps values bound every interval and occur in the log. -/
theorem min_max_bounds_witness :
    logModes ≠ [] ∧
    (∀ s ∈ logModes, calcMinCars strayExample.log logModes ≤ s.numCars ∧
      s.numCars ≤ calcMaxCars strayExample.log logModes ∧
      calcMinCPS strayExample.log logModes ≤ s.cps ∧
      s.cps ≤ calcMaxCPS strayExample.log logModes) ∧
    (∃ s ∈ logModes, calcMaxCPS strayExample.log logModes = s.cps) :=
  ⟨by decide, (min_max_bounds strayExample.log logModes (by decide)).1,
    (min_max_bounds strayExample.log logModes (by decide)).2.2.2.2⟩

/-! ## Selection sort: correctness -/

section SortLemmas

variable {α : Type}

/-- Reading a cell after a write to the array. -/
theorem getD_set_eq (l : List α) (i j : Nat) (a d : α) (hi : i < l.length) :
    (l.set i a).getD j d = if i = j then a else l.getD j d := by
  simp only [List.getD_eq_getElem?_getD, List.getElem?_set]
  split_ifs <;> simp_all

/-- Moving the value of cell `j` to the front and `x` into cell `j` permutes. -/
theorem cons_getD_set_perm (t : List α) (j : Nat) (x d : α) (hj : j < t.length) :
    (t.getD j d :: t.set j x).Perm (x :: t) := by
  induction t generalizing j with
  | nil => simp at hj
  | cons y t ih =>
    cases j with
    | zero => simpa using List.Perm.swap x y t
    | succ j =>
      have hj2 : j < t.length := by simpa using hj
      have h1 : ((y :: t).getD (j + 1) d :: (y :: t).set (j + 1) x)
          = (t.getD j d :: y :: t.set j x) := by simp
      rw [h1]
      exact (List.Perm.swap y (t.getD j d) (t.set j x)).trans
        (((ih j hj2).cons y).trans (List.Perm.swap x y t))

/-- Exchanging the cells `i < j` of an array permutes it. -/
theorem swap_perm_lt (l : List α) (i j : Nat) (d : α) (hij : i < j) (hj : j < l.length) :
    ((l.set i (l.getD j d)).set j (l.getD i d)).Perm l := by
  induction l generalizing i j with
  | nil => simp at hj
  | cons x t ih =>
    cases j with
    | zero => omega
    | succ j =>
      have hj2 : j < t.length := by simpa using hj
      cases i with
      | zero => simpa using cons_getD_set_perm t j x d hj2
      | succ i => simpa using (ih i j (by omega) hj2).cons x

/-- Exchanging two cells of an array permutes it. -/
theorem swap_perm (l : List α) (i j : Nat) (d : α) (hi : i < l.length) (hj : j < l.length) :
    ((l.set i (l.getD j d)).set j (l.getD i d)).Perm l := by
  rcases Nat.lt_trichotomy i j with h | h | h
  · exact swap_perm_lt l i j d h hj
  · subst h
    have : (l.set i (l.getD i d)).set i (l.getD i d) = l := by
      apply List.ext_getElem
      · simp
      · intro n h1 h2
        simp only [List.getElem_set]
        split_ifs with h
        · subst h
          simp [List.getD_eq_getElem?_getD, List.getElem?_eq_getElem hi]
        · rfl
    rw [this]
  · have hc : (l.set i (l.getD j d)).set j (l.getD i d)
        = (l.set j (l.getD i d)).set i (l.getD j d) :=
      List.set_comm _ _ _ (by omega)
    rw [hc]
    exact swap_perm_lt l j i d h hi

end SortLemmas

section SortCorrect

variable {α : Type} [LinearOrder α]

/-- Invariant of the inner loop of the selection step, for the part
`dataset[lo .. s)` already scanned. -/
theorem selectMin_fold (d : α) (l : List α) (lo : Nat) (n s : Nat) (mp : α × Nat)
    (h1 : mp.1 = l.getD mp.2 d) (h2 : lo ≤ mp.2) (h3 : mp.2 < s ∨ mp.2 = lo)
    (h4 : ∀ i, lo ≤ i → i < s → mp.1 ≤ l.getD i d) (hs : lo ≤ s) :
    let r := (List.range' s n).foldl
      (fun (mp : α × Nat) i => if l.getD i d < mp.1 then (l.getD i d, i) else mp) mp
    r.1 = l.getD r.2 d ∧ lo ≤ r.2 ∧ (r.2 < s + n ∨ r.2 = lo) ∧
      ∀ i, lo ≤ i → i < s + n → r.1 ≤ l.getD i d := by
  induction n generalizing s mp with
  | zero => exact ⟨h1, h2, h3, h4⟩
  | succ n ih =>
    simp only [List.range'_succ, List.foldl_cons]
    have key := ih (s + 1)
      (if l.getD s d < mp.1 then (l.getD s d, s) else mp) ?_ ?_ ?_ ?_ (by omega)
    · simpa [Nat.add_assoc, Nat.add_comm 1 n] using key
    · split_ifs <;> simp [h1]
    · split_ifs <;> simp [h2, hs]
    · split_ifs
      · left; simp
      · rcases h3 with h | h
        · left; omega
        · right; exact h
    · intro i hi1 hi2
      by_cases hi : i = s
      · subst hi
        split_ifs with hlt
        · exact le_refl _
        · exact not_lt.mp hlt
      · have := h4 i hi1 (by omega)
        split_ifs with hlt
        · exact le_trans (le_of_lt hlt) this
        · exact this

/-- The inner loop returns a position of a minimum of `dataset[index .. size)`. -/
theorem selectMin_spec (d : α) (l : List α) (size index : Nat) (h : index < size) :
    index ≤ (selectMin d l size index).2 ∧ (selectMin d l size index).2 < size ∧
    ∀ i, index ≤ i → i < size →
      l.getD (selectMin d l size index).2 d ≤ l.getD i d := by
  have key := selectMin_fold d l index (size - index) index (l.getD index d, index)
    rfl (le_refl _) (Or.inr rfl) (fun i h1 h2 => by omega) (le_refl _)
  have e : index + (size - index) = size := by omega
  simp only [e] at key
  obtain ⟨k1, k2, k3, k4⟩ := key
  refine ⟨k2, ?_, ?_⟩
  · rcases k3 with h3 | h3
    · exact h3
    · unfold selectMin; omega
  · intro i hi1 hi2
    have := k4 i hi1 hi2
    unfold selectMin
    rw [← k1]
    exact this

end SortCorrect

section SortCorrect2

variable {α : Type} [LinearOrder α]

/-- Function `selection` permutes the array and keeps its length. -/
theorem selection_perm (d : α) (size : Nat) :
    ∀ (n index : Nat) (l : List α), size - index = n → size ≤ l.length →
      (selection d l size index).Perm l := by
  intro n
  induction n with
  | zero =>
    intro index l hn _
    rw [selection, if_neg (by omega)]
  | succ n ih =>
    intro index l hn hl
    have hlt : index < size := by omega
    rw [selection, if_pos hlt]
    obtain ⟨_, hp, _⟩ := selectMin_spec d l size index hlt
    have hsw := swap_perm l index (selectMin d l size index).2 d (by omega) (by omega)
    refine (ih (index + 1) _ (by omega) ?_).trans hsw
    simpa using hl

/-- Function `selection` extends the sorted part to the whole of `dataset[0 .. size)`. -/
theorem selection_lowerSorted (d : α) (size : Nat) :
    ∀ (n index : Nat) (l : List α), size - index = n → index ≤ size → size ≤ l.length →
      LowerSorted d size l index → LowerSorted d size (selection d l size index) size := by
  intro n
  induction n with
  | zero =>
    intro index l hn hle _ hpre
    rw [selection, if_neg (by omega)]
    have : index = size := by omega
    subst this
    exact hpre
  | succ n ih =>
    intro index l hn hle hl hpre
    have hlt : index < size := by omega
    rw [selection, if_pos hlt]
    obtain ⟨hp1, hp2, hmin⟩ := selectMin_spec d l size index hlt
    refine ih (index + 1) _ (by omega) (by omega) (by simpa using hl) ?_
    intro i j hi hij hj
    have hget : ∀ c, c < size →
        ((l.set index (l.getD (selectMin d l size index).2 d)).set
          (selectMin d l size index).2 (l.getD index d)).getD c d
        = if (selectMin d l size index).2 = c then l.getD index d
          else if index = c then l.getD (selectMin d l size index).2 d else l.getD c d := by
      intro c _
      rw [getD_set_eq _ _ _ _ _ (by simp; omega), getD_set_eq _ _ _ _ _ (by omega)]
    rw [hget i (by omega), hget j hj]
    by_cases hii : i = index
    · subst hii
      have e1 : (if (selectMin d l size i).2 = i then l.getD i d
          else if i = i then l.getD (selectMin d l size i).2 d else l.getD i d)
          = l.getD (selectMin d l size i).2 d := by
        by_cases h : (selectMin d l size i).2 = i
        · rw [if_pos h, h]
        · rw [if_neg h, if_pos rfl]
      rw [e1]
      split_ifs
      · exact hmin i (le_refl _) hlt
      · omega
      · exact hmin j (by omega) hj
    · have hi2 : i < index := by omega
      rw [if_neg (by omega), if_neg (by omega)]
      split_ifs
      · exact hpre i index hi2 hi2 hlt
      · exact hpre i _ hi2 (by omega) hp2
      · exact hpre i j hi2 hij hj

/-- Sorting the whole array gives an ascending permutation of it. -/
theorem selection_sorted_perm (d : α) (l : List α) :
    (selection d l l.length 0).Sorted (· ≤ ·) ∧ (selection d l l.length 0).Perm l := by
  have hperm := selection_perm d l.length l.length 0 l rfl (le_refl _)
  refine ⟨?_, hperm⟩
  have hpre := selection_lowerSorted d l.length l.length 0 l rfl (Nat.zero_le _) (le_refl _)
    (fun i j hi _ _ => absurd hi (Nat.not_lt_zero _))
  have hlen : (selection d l l.length 0).length = l.length := hperm.length_eq
  rw [List.Sorted, List.pairwise_iff_getElem]
  intro i j hi hj hij
  have := hpre i j (by omega) hij (by omega)
  rwa [List.getD_eq_getElem _ _ hi, List.getD_eq_getElem _ _ hj] at this

end SortCorrect2

/-! ## Statistics: median and standard deviation -/

section MedianTheorems

variable {F : Type} [LinearOrderedField F]

/-- The sorted copy made by `sortFloat` is the ascending arrangement of the values. -/
theorem sortFloat_eq (xs s : List F) (hs : s.Sorted (· ≤ ·)) (hp : s.Perm xs) :
    sortFloat xs xs.length = s := by
  obtain ⟨h1, h2⟩ := selection_sorted_perm (0 : F) xs
  exact List.eq_of_perm_of_sorted (h2.trans hp.symm) h1 hs

/-- C9: on a non-empty log of `n` intervals, with `s` the ascending sort of the
cps values, `calcMedianCPS` returns `s[(n-1)/2]` when `n` is odd and
`(s[n/2 - 1] + s[n/2]) / 2` when `n` is even. -/
theorem median_is_middle (outside : Int → F) (log : List (StatsOverInterval F))
    (hne : log ≠ []) (s : List F) (hs : s.Sorted (· ≤ ·))
    (hp : s.Perm (log.map (fun r => r.cps))) :
    (log.length % 2 = 1 → s[(log.length - 1) / 2]? = some (calcMedianCPS outside log)) ∧
    (log.length % 2 = 0 → ∃ a b, s[log.length / 2 - 1]? = some a ∧
      s[log.length / 2]? = some b ∧ calcMedianCPS outside log = (a + b) / 2) := by
  have hsort : sortFloat (log.map (fun r => r.cps)) log.length = s := by
    have := sortFloat_eq (log.map (fun r => r.cps)) s hs hp
    simpa using this
  have hlen : s.length = log.length := by simpa using hp.length_eq
  have hpos : 0 < log.length := List.length_pos.mpr hne
  constructor
  · intro hodd
    have hi : (log.length - 1) / 2 < s.length := by omega
    have hidx : ((log.length : Int) - 1) / 2 = (((log.length - 1) / 2 : Nat) : Int) := by omega
    unfold calcMedianCPS
    simp only [hsort]
    rw [if_neg (by omega), hidx, arrGet_of_lt s outside _ hi]
    simp [List.getElem?_eq_getElem hi]
  · intro heven
    have hi1 : log.length / 2 - 1 < s.length := by omega
    have hi2 : log.length / 2 < s.length := by omega
    have hidx1 : (log.length : Int) / 2 - 1 = ((log.length / 2 - 1 : Nat) : Int) := by omega
    have hidx2 : (log.length : Int) / 2 = ((log.length / 2 : Nat) : Int) := by omega
    refine ⟨s[log.length / 2 - 1], s[log.length / 2], by simp [List.getElem?_eq_getElem hi1],
      by simp [List.getElem?_eq_getElem hi2], ?_⟩
    unfold calcMedianCPS
    simp only [hsort]
    rw [if_pos heven, hidx1, arrGet_of_lt s outside _ hi1, hidx2, arrGet_of_lt s outside _ hi2]
    simp [add_comm]

end MedianTheorems

/-- C9, witness: cps values `[3, 1, 2]` have median `2`, and cps values
`[1, 2, 3, 4]` have median `5/2`. -/
theorem median_is_middle_witness :
    (logOfCps [(3 : ℚ), 1, 2] ≠ [] ∧ [(1 : ℚ), 2, 3].Sorted (· ≤ ·) ∧
      [(1 : ℚ), 2, 3].Perm ((logOfCps [(3 : ℚ), 1, 2]).map (fun r => r.cps))) ∧
    calcMedianCPS (fun _ => 0) (logOfCps [(3 : ℚ), 1, 2]) = 2 ∧
    calcMedianCPS (fun _ => 0) (logOfCps [(1 : ℚ), 2, 3, 4]) = 5 / 2 := by
  have hne : logOfCps [(3 : ℚ), 1, 2] ≠ [] := by simp [logOfCps]
  have hs : [(1 : ℚ), 2, 3].Sorted (· ≤ ·) := by simp [List.Sorted]; norm_num
  have hp : [(1 : ℚ), 2, 3].Perm ((logOfCps [(3 : ℚ), 1, 2]).map (fun r => r.cps)) := by
    simp only [logOfCps, List.map_cons, List.map_nil]
    exact ((List.Perm.swap 3 2 []).cons 1).trans (List.Perm.swap 3 1 [2])
  have h := (median_is_middle (fun _ => 0) (logOfCps [(3 : ℚ), 1, 2]) hne _ hs hp).1
    (by simp [logOfCps])
  have hs4 : [(1 : ℚ), 2, 3, 4].Sorted (· ≤ ·) := by simp [List.Sorted]; norm_num
  obtain ⟨a, b, ha, hb, hab⟩ :=
    (median_is_middle (fun _ => 0) (logOfCps [(1 : ℚ), 2, 3, 4]) (by simp [logOfCps])
      [(1 : ℚ), 2, 3, 4] hs4 (by simp [logOfCps])).2 (by simp [logOfCps])
  refine ⟨⟨hne, hs, hp⟩, ?_, ?_⟩
  · simpa [logOfCps] using h.symm
  · simp [logOfCps] at ha hb
    rw [hab, ← ha, ← hb]
    norm_num

section StdDevTheorems

variable {F : Type} [LinearOrderedField F]

/-- Function `calcAverageCPS` is the sum of the cps values divided by their number. -/
theorem calcAverageCPS_eq (log : List (StatsOverInterval F)) :
    calcAverageCPS log = (log.map (fun r => r.cps)).sum / (log.length : F) := by
  unfold calcAverageCPS
  rw [foldl_add_eq_sum (fun r : StatsOverInterval F => r.cps) log 0, zero_add]

/-- On a non-empty log `calcPopStdDevCPS` is `sqrt` of the mean squared
deviation of the cps values from their mean. -/
theorem calcPopStdDevCPS_eq (sqrt : F → F) (log : List (StatsOverInterval F))
    (hne : log ≠ []) :
    calcPopStdDevCPS sqrt log
      = sqrt (((log.map (fun r => r.cps)).map (fun x =>
          (x - (log.map (fun r => r.cps)).sum / (log.length : F)) ^ 2)).sum
            / (log.length : F)) := by
  have hpos : 0 < log.length := List.length_pos.mpr hne
  unfold calcPopStdDevCPS
  simp only
  rw [if_neg (by omega), foldl_add_eq_sum (fun x : F => x) (devset log) 0, zero_add]
  unfold devset
  simp only [calcAverageCPS_eq, List.map_map, List.map_id']
  congr 3
  apply List.map_congr_left
  intro r _
  simp [pow_two]

end StdDevTheorems

/-- C10 (amended): on a non-empty log of `n` intervals with cps values `x_i` and
mean `m = (sum x_i)/n`, when the operations of `float` are carried out without
rounding error (`float` read as the reals, with the real square root for
`sqrt`), `calcPopStdDevCPS` returns the non-negative square root of
`(sum (x_i - m)^2) / n`. -/
theorem pop_std_dev_is_root (log : List (StatsOverInterval ℝ)) (hne : log ≠ []) :
    0 ≤ calcPopStdDevCPS Real.sqrt log ∧
    calcPopStdDevCPS Real.sqrt log ^ 2
      = ((log.map (fun r => r.cps)).map (fun x =>
          (x - (log.map (fun r => r.cps)).sum / (log.length : ℝ)) ^ 2)).sum
            / (log.length : ℝ) := by
  rw [calcPopStdDevCPS_eq Real.sqrt log hne]
  refine ⟨Real.sqrt_nonneg _, Real.sq_sqrt ?_⟩
  apply div_nonneg
  · apply List.sum_nonneg
    intro x hx
    obtain ⟨y, _, rfl⟩ := List.mem_map.mp hx
    exact sq_nonneg _
  · exact Nat.cast_nonneg _

/-- C10, witness: for cps `[2, 4]` the mean is 3 and the result is 1. -/
theorem pop_std_dev_is_root_witness :
    logOfCps [(2 : ℝ), 4] ≠ [] ∧ calcAverageCPS (logOfCps [(2 : ℝ), 4]) = 3 ∧
    calcPopStdDevCPS Real.sqrt (logOfCps [(2 : ℝ), 4]) = 1 := by
  have hne : logOfCps [(2 : ℝ), 4] ≠ [] := by simp [logOfCps]
  obtain ⟨h0, h2⟩ := pop_std_dev_is_root (logOfCps [(2 : ℝ), 4]) hne
  refine ⟨hne, ?_, ?_⟩
  · rw [calcAverageCPS_eq]
    norm_num [logOfCps]
  · have h3 : calcPopStdDevCPS Real.sqrt (logOfCps [(2 : ℝ), 4]) ^ 2 = 1 := by
      rw [h2]
      norm_num [logOfCps]
    nlinarith [h0, h3]

/-! ## Phase controller -/

section ControllerTheorems

variable {F : Type} [LinearOrderedField F]

/-- Function `pollTick` never changes `currentState`, `timerMain` or the other approach. -/
theorem pollTick_frame (m : MainState F) (k : Tick) :
    (pollTick m k).currentState = m.currentState ∧
    (pollTick m k).timerMain = m.timerMain ∧
    passiveLog (pollTick m k) = passiveLog m := by
  simp only [pollTick, MainState.record, passiveLog]
  split_ifs <;> simp_all

/-- A tick whose phase clock is above 30 closes the phase with a full-duration record. -/
theorem pollTick_full (m : MainState F) (k : Tick) (h : phaseClock m k > 30) :
    (pollTick m k).done = true ∧
    activeLog (pollTick m k) = activeLog m ++ [(pollTick m k).intervalStat] ∧
    (pollTick m k).intervalStat.timeInterval = defaultTimeInterval ∧
    (pollTick m k).intervalStat.numCars = m.carCounter + (if k.passed then 1 else 0) := by
  unfold phaseClock at h
  simp only [pollTick, MainState.record, activeLog]
  split_ifs <;> simp_all

/-- A tick whose phase clock is at most 30 and whose idle clock is above 10 closes the phase with a cutoff record. -/
theorem pollTick_cutoff (m : MainState F) (k : Tick) (h : phaseClock m k ≤ 30)
    (hi : idleClock m k > 10) :
    (pollTick m k).done = true ∧
    activeLog (pollTick m k) = activeLog m ++ [(pollTick m k).intervalStat] ∧
    (pollTick m k).intervalStat.timeInterval = ((k.tClose - m.timerMain : Int) : F) ∧
    (pollTick m k).intervalStat.numCars = m.carCounter + (if k.passed then 1 else 0) := by
  unfold phaseClock at h
  unfold idleClock at hi
  simp only [pollTick, MainState.record, activeLog]
  split_ifs <;> simp_all <;> omega

/-- A tick whose phase clock is at most 30 and whose idle clock is at most 10 keeps polling -/
theorem pollTick_continue (m : MainState F) (k : Tick) (h : phaseClock m k ≤ 30)
    (hi : idleClock m k ≤ 10) :
    pollTick m k = if k.passed then { m with carCounter := m.carCounter + 1, timerOpti := k.tPassed } else m := by
  unfold phaseClock at h
  unfold idleClock at hi
  simp only [pollTick, MainState.record, activeLog]
  split_ifs <;> simp_all <;> omega

end ControllerTheorems

section ControllerTheorems2

variable {F : Type} [LinearOrderedField F]

/-- Once `done` is set the loop is left. -/
theorem phaseLoop_of_done (m : MainState F) (ks : List Tick) (hd : m.done = true) :
    phaseLoop m ks = m := by
  cases ks <;> simp [phaseLoop, hd]

/-- Running the loop on a sequence of ticks in two parts. -/
theorem phaseLoop_append (m : MainState F) (ks rest : List Tick) :
    phaseLoop m (ks ++ rest) = phaseLoop (phaseLoop m ks) rest := by
  induction ks generalizing m with
  | nil => simp [phaseLoop]
  | cons k ks ih =>
    by_cases hd : m.done = true
    · simp [phaseLoop, hd, phaseLoop_of_done]
    · simp [phaseLoop, hd, ih]

/-- A tick without a passage either closes the phase or leaves the state as it is. -/
theorem pollTick_quiet (m : MainState F) (k : Tick) (hq : k.passed = false) :
    (pollTick m k).done = true ∨ pollTick m k = m := by
  simp only [pollTick, MainState.record]
  split_ifs <;> simp_all

/-- Ticks without a passage that do not close the phase leave the state as it is. -/
theorem phaseLoop_quiet_open (m : MainState F) (ks : List Tick)
    (hq : ∀ k ∈ ks, k.passed = false) (ho : (phaseLoop m ks).done = false) :
    phaseLoop m ks = m := by
  induction ks with
  | nil => rfl
  | cons k ks ih =>
    by_cases hd : m.done = true
    · exact phaseLoop_of_done m _ hd
    · have hstep : phaseLoop m (k :: ks) = phaseLoop (pollTick m k) ks := by
        simp [phaseLoop, hd]
      rcases pollTick_quiet m k (hq k (List.mem_cons_self _ _)) with h | h
      · rw [hstep, phaseLoop_of_done _ _ h] at ho
        rw [h] at ho
        exact absurd ho (by simp)
      · rw [hstep, h] at ho ⊢
        exact ih (fun k hk => hq k (List.mem_cons_of_mem _ hk)) ho

/-- Ticks without a passage, one of which has a phase clock above 30: the loop
closes the phase, with the car counter it started from, on a tick that passes
one of the two tests. -/
theorem phaseLoop_quiet_close (m : MainState F) (ks : List Tick) (hd : m.done = false)
    (hq : ∀ k ∈ ks, k.passed = false) (hc : ∃ k ∈ ks, k.tMain - m.timerMain > 30) :
    (phaseLoop m ks).done = true ∧
    activeLog (phaseLoop m ks) = activeLog m ++ [(phaseLoop m ks).intervalStat] ∧
    passiveLog (phaseLoop m ks) = passiveLog m ∧
    (phaseLoop m ks).intervalStat.numCars = m.carCounter ∧
    ∃ kc ∈ ks,
      (kc.tMain - m.timerMain > 30 ∧
        (phaseLoop m ks).intervalStat.timeInterval = defaultTimeInterval) ∨
      (kc.tMain - m.timerMain ≤ 30 ∧ kc.tOpti - m.timerOpti > 10 ∧
        (phaseLoop m ks).intervalStat.timeInterval = ((kc.tClose - m.timerMain : Int) : F)) := by
  induction ks with
  | nil => simp at hc
  | cons k ks ih =>
    have hk : k.passed = false := hq k (List.mem_cons_self _ _)
    have hstep : phaseLoop m (k :: ks) = phaseLoop (pollTick m k) ks := by
      simp [phaseLoop, hd]
    by_cases h1 : phaseClock m k > 30
    · obtain ⟨a, b, c, e⟩ := pollTick_full m k h1
      rw [hstep, phaseLoop_of_done _ _ a]
      refine ⟨a, b, (pollTick_frame m k).2.2, by simpa [hk] using e, k, List.mem_cons_self _ _, ?_⟩
      exact Or.inl ⟨h1, c⟩
    · by_cases h2 : idleClock m k > 10
      · obtain ⟨a, b, c, e⟩ := pollTick_cutoff m k (not_lt.mp h1) h2
        rw [hstep, phaseLoop_of_done _ _ a]
        refine ⟨a, b, (pollTick_frame m k).2.2, by simpa [hk] using e, k,
          List.mem_cons_self _ _, ?_⟩
        refine Or.inr ⟨not_lt.mp h1, ?_, c⟩
        simpa [idleClock, hk] using h2
      · have hm : pollTick m k = m := by
          rw [pollTick_continue m k (not_lt.mp h1) (not_lt.mp h2)]
          simp [hk]
        rw [hstep, hm]
        have hc2 : ∃ k ∈ ks, k.tMain - m.timerMain > 30 := by
          obtain ⟨k2, hk2, hgt⟩ := hc
          rcases List.mem_cons.mp hk2 with rfl | hin
          · exact absurd hgt h1
          · exact ⟨k2, hin, hgt⟩
        obtain ⟨a, b, c, e, kc, hkc, hor⟩ :=
          ih (fun k hk => hq k (List.mem_cons_of_mem _ hk)) hc2
        exact ⟨a, b, c, e, kc, List.mem_cons_of_mem _ hkc, hor⟩

end ControllerTheorems2
section ControllerClaims

variable {F : Type} [LinearOrderedField F]

/-- C4 (amended): in either phase, a polling tick whose phase clock is strictly
greater than 30 ends the phase on that tick: `done` is set, exactly one record
is appended to the log of the green approach, the other log is unchanged, and
the record has `timeInterval` exactly 30. -/
theorem full_duration_close (m : MainState F) (k : Tick) (h : phaseClock m k > 30) :
    (pollTick m k).done = true ∧
    activeLog (pollTick m k) = activeLog m ++ [(pollTick m k).intervalStat] ∧
    passiveLog (pollTick m k) = passiveLog m ∧
    (pollTick m k).intervalStat.timeInterval = 30 :=
  ⟨(pollTick_full m k h).1, (pollTick_full m k h).2.1, (pollTick_frame m k).2.2,
    (pollTick_full m k h).2.2.1⟩

/-- C4, witness: a tick at phase clock 31. -/
theorem full_duration_close_witness :
    phaseClock northAt25 (quietAt 31) > 30 ∧
    ((pollTick northAt25 (quietAt 31)).done = true ∧
    activeLog (pollTick northAt25 (quietAt 31))
      = activeLog northAt25 ++ [(pollTick northAt25 (quietAt 31)).intervalStat] ∧
    passiveLog (pollTick northAt25 (quietAt 31)) = passiveLog northAt25 ∧
    (pollTick northAt25 (quietAt 31)).intervalStat.timeInterval = 30) :=
  ⟨by decide, full_duration_close northAt25 (quietAt 31) (by decide)⟩

/-- C4, counterexample: at phase clock exactly 30 (idle clock 5) the phase does
not end and nothing is recorded. -/
theorem full_duration_at_30_continues :
    phaseClock northAt25 (quietAt 30) = 30 ∧ idleClock northAt25 (quietAt 30) = 5 ∧
    (pollTick northAt25 (quietAt 30)).done = false ∧
    (pollTick northAt25 (quietAt 30)).north = [] ∧
    (pollTick northAt25 (quietAt 30)).west = [] := by
  decide

/-- C5 (amended): in either phase, a polling tick whose phase clock is at most
30 and whose idle clock is strictly greater than 10 ends the phase on that
tick: `done` is set, exactly one record is appended to the log of the green
approach, the other log is unchanged, and the record's `timeInterval` is the
phase clock read when the record is filled in (`k.tClose - timerMain`), which is
the tested phase clock when the clock did not move between the two reads. -/
theorem idle_cutoff_close (m : MainState F) (k : Tick) (h : phaseClock m k ≤ 30)
    (hi : idleClock m k > 10) :
    (pollTick m k).done = true ∧
    activeLog (pollTick m k) = activeLog m ++ [(pollTick m k).intervalStat] ∧
    passiveLog (pollTick m k) = passiveLog m ∧
    (pollTick m k).intervalStat.timeInterval = ((k.tClose - m.timerMain : Int) : F) ∧
    (k.tClose = k.tMain →
      (pollTick m k).intervalStat.timeInterval = ((phaseClock m k : Int) : F)) := by
  obtain ⟨a, b, c, _⟩ := pollTick_cutoff m k h hi
  refine ⟨a, b, (pollTick_frame m k).2.2, c, fun ht => ?_⟩
  rw [c, ht, phaseClock]

end ControllerClaims

/-- C5, witness: a tick at phase clock 11 and idle clock 11. -/
theorem idle_cutoff_close_witness :
    (phaseClock westIdle (quietAt 111) ≤ 30 ∧ idleClock westIdle (quietAt 111) > 10) ∧
    ((pollTick westIdle (quietAt 111)).done = true ∧
    activeLog (pollTick westIdle (quietAt 111))
      = activeLog westIdle ++ [(pollTick westIdle (quietAt 111)).intervalStat] ∧
    passiveLog (pollTick westIdle (quietAt 111)) = passiveLog westIdle ∧
    (pollTick westIdle (quietAt 111)).intervalStat.timeInterval
      = (((quietAt 111).tClose - westIdle.timerMain : Int) : ℚ) ∧
    ((quietAt 111).tClose = (quietAt 111).tMain →
      (pollTick westIdle (quietAt 111)).intervalStat.timeInterval
        = ((phaseClock westIdle (quietAt 111) : Int) : ℚ))) :=
  ⟨by decide, idle_cutoff_close westIdle (quietAt 111) (by decide) (by decide)⟩

/-- C5, counterexample: at idle clock exactly 10 (phase clock 10) the phase
does not end and nothing is recorded. -/
theorem idle_cutoff_at_10_continues :
    phaseClock westIdle (quietAt 110) = 10 ∧ idleClock westIdle (quietAt 110) = 10 ∧
    (pollTick westIdle (quietAt 110)).done = false ∧
    (pollTick westIdle (quietAt 110)).west = [] := by
  decide

/-! ## Modes: the scan loop -/

/-- Equal neighbours, run length reaching `maxCount`: the value is pushed. -/
theorem modeStep_eq_push (st : ModeScan) (x : Int) (h : st.modeCount + 1 = st.maxCount) :
    modeStep st x x = ({ st with modeCount := st.modeCount + 1 } : ModeScan).push x := by
  simp [modeStep, ModeScan.push, h]

/-- Equal neighbours, run length passing `maxCount` for the first time in this
run: the modes are reset to the value. -/
theorem modeStep_eq_reset (st : ModeScan) (x : Int) (h : st.maxCount < st.modeCount + 1)
    (hf : st.firstTime = true) :
    modeStep st x x =
      { modes := [x], sizeMode := 1, indexMode := 1, maxCount := st.modeCount + 1,
        modeCount := st.modeCount + 1, firstTime := false } := by
  have h2 : ¬ st.modeCount + 1 = st.maxCount := by omega
  simp [modeStep, ModeScan.push, h, h2, hf]

/-- Equal neighbours, run length passing `maxCount` again in the same run. -/
theorem modeStep_eq_grow (st : ModeScan) (x : Int) (h : st.maxCount < st.modeCount + 1)
    (hf : st.firstTime = false) :
    modeStep st x x
      = { st with modeCount := st.modeCount + 1, maxCount := st.modeCount + 1 } := by
  have h2 : ¬ st.modeCount + 1 = st.maxCount := by omega
  simp [modeStep, ModeScan.push, h, h2, hf]

/-- Equal neighbours, run still shorter than `maxCount`. -/
theorem modeStep_eq_short (st : ModeScan) (x : Int) (h : st.modeCount + 1 < st.maxCount) :
    modeStep st x x = { st with modeCount := st.modeCount + 1 } := by
  have h2 : ¬ st.modeCount + 1 = st.maxCount := by omega
  have h3 : ¬ st.maxCount < st.modeCount + 1 := by omega
  simp [modeStep, ModeScan.push, h2, h3]

/-- Different neighbours while every frequency is 1: the value is pushed. -/
theorem modeStep_ne_one (st : ModeScan) (x y : Int) (h : x ≠ y) (h1 : st.maxCount = 1) :
    modeStep st x y = { st.push x with firstTime := true } := by
  simp [modeStep, h, h1]

/-- Different neighbours after a run longer than 1 was seen: the run counter restarts. -/
theorem modeStep_ne_many (st : ModeScan) (x y : Int) (h : x ≠ y) (h1 : st.maxCount ≠ 1) :
    modeStep st x y = { st with modeCount := 1, firstTime := true } := by
  simp [modeStep, h, h1]

/-- The scan loop over the indices is the recursion over the cells. -/
theorem modeScan_fold_eq (outside : Int → Int) (s : List Int) :
    ∀ (m k : Nat) (st : ModeScan), s.length - k = m → k ≤ s.length →
      (List.range' k m).foldl
        (fun st (i : Nat) =>
          modeStep st (arrGet s outside (i : Int)) (arrGet s outside ((i : Int) + 1))) st
      = scanFrom (outside s.length) st (s.drop k) := by
  intro m
  induction m with
  | zero =>
    intro k st hm hk
    have : s.drop k = [] := List.drop_eq_nil_of_le (by omega)
    simp [this, scanFrom]
  | succ m ih =>
    intro k st hm hk
    have hlt : k < s.length := by omega
    simp only [List.range'_succ, List.foldl_cons]
    rw [ih (k + 1) _ (by omega) (by omega)]
    have hk0 : arrGet s outside (k : Int) = s[k] := arrGet_of_lt s outside k hlt
    have hcast : ((k : Int) + 1) = ((k + 1 : Nat) : Int) := by push_cast; rfl
    rw [hk0, hcast]
    have hd : s.drop k = s[k] :: s.drop (k + 1) := List.drop_eq_getElem_cons hlt
    rw [hd]
    by_cases hlast : k + 1 < s.length
    · have hd2 : s.drop (k + 1) = s[k + 1] :: s.drop (k + 1 + 1) :=
        List.drop_eq_getElem_cons hlast
      rw [arrGet_of_lt s outside (k + 1) hlast, hd2]
      simp [scanFrom]
    · have hd2 : s.drop (k + 1) = [] := List.drop_eq_nil_of_le (by omega)
      have hn : k + 1 = s.length := by omega
      rw [arrGet_of_ge s outside (k + 1) (by omega), hd2, hn]
      simp [scanFrom]

/-- The scan loop of `calcModeCars` is `scanFrom` on the whole sorted copy. -/
theorem modeScan_eq_scanFrom (outside : Int → Int) (s : List Int) :
    modeScan outside s s.length = scanFrom (outside s.length) modeInit s := by
  unfold modeScan
  rw [List.range_eq_range']
  simpa using modeScan_fold_eq outside s s.length 0 modeInit (by omega) (Nat.zero_le _)

/-- Frequency of `w` after appending one cell. -/
theorem count_snoc (Q : List Int) (x w : Int) :
    (Q ++ [x]).count w = Q.count w + (if w = x then 1 else 0) := by
  rw [List.count_append, List.count_singleton]
  by_cases h : w = x
  · subst h; simp
  · have h2 : ¬ x = w := fun e => h e.symm
    simp [h, h2]

/-- The invariant holds before the first pass of the scan loop. -/
theorem scanInv_init (x : Int) : ScanInv [] x modeInit where
  size_eq := rfl
  index_eq := rfl
  count_eq := by simp [modeInit]
  max_ge := by
    intro w hw
    have : w = x := by simpa using hw
    subst this
    simp [modeInit]
  max_at := ⟨x, by simp, by simp [modeInit]⟩
  sorted := List.sorted_nil
  mem_one := fun _ v => by simp [modeInit]
  mem_many := fun h => absurd rfl h
  first := fun h => by simp [modeInit] at h
  le_cur := fun w hw => by simp at hw

/-- Facts about the state that follow from the invariant. -/
theorem ScanInv.basic {P : List Int} {x : Int} {st : ModeScan} (h : ScanInv P x st) :
    1 ≤ st.modeCount ∧ st.modeCount ≤ st.maxCount ∧ (∀ w ∈ P ++ [x], w ≤ x) ∧
    st.modes.take st.indexMode = st.modes := by
  refine ⟨?_, ?_, ?_, ?_⟩
  · rw [h.count_eq]
    exact List.count_pos_iff.mpr (by simp)
  · rw [h.count_eq]
    exact h.max_ge x (by simp)
  · intro w hw
    rcases List.mem_append.mp hw with hw | hw
    · exact h.le_cur w hw
    · simp at hw; omega
  · rw [h.index_eq, List.take_length]

/-- The invariant is kept by a pass that sees two equal neighbours. -/
theorem scanInv_step_eq (P : List Int) (x : Int) (st : ModeScan) (h : ScanInv P x st) :
    ScanInv (P ++ [x]) x (modeStep st x x) := by
  obtain ⟨hc1, hcM, hle, htake⟩ := h.basic
  have hcx := h.count_eq
  have hmg := h.max_ge
  have hma := h.max_at
  have hmm := h.mem_many
  have hxQ : x ∈ P ++ [x] := by simp
  generalize P ++ [x] = Q at hcx hmg hma hmm hle hxQ ⊢
  have hmemQ : ∀ w, w ∈ Q ++ [x] ↔ w ∈ Q := by
    intro w
    rw [List.mem_append, List.mem_singleton]
    exact ⟨fun hw => hw.elim id (fun e => e ▸ hxQ), Or.inl⟩
  have hge : ∀ w ∈ Q ++ [x], (Q ++ [x]).count w ≤ max st.maxCount (st.modeCount + 1) := by
    intro w hw
    rw [count_snoc]
    have := hmg w ((hmemQ w).mp hw)
    split_ifs with e
    · subst e; omega
    · omega
  have hcount : st.modeCount + 1 = (Q ++ [x]).count x := by
    rw [count_snoc, if_pos rfl, ← hcx]
  rcases Nat.lt_trichotomy (st.modeCount + 1) st.maxCount with hlt | heq | hgt
  · -- the run is still shorter than the longest one
    rw [modeStep_eq_short st x hlt]
    refine ⟨h.size_eq, h.index_eq, hcount, ?_, ?_, h.sorted, ?_, ?_, ?_, hle⟩
    · intro w hw
      have := hge w hw
      dsimp only
      omega
    · obtain ⟨w, hw, hwc⟩ := hma
      refine ⟨w, (hmemQ w).mpr hw, ?_⟩
      have hne : w ≠ x := by rintro rfl; omega
      rw [count_snoc, if_neg hne]
      exact hwc
    · intro hM
      dsimp only at hM
      omega
    · intro hM v
      dsimp only at hM ⊢
      rw [hmm hM v, hmemQ, count_snoc]
      constructor
      · rintro ⟨hv, hvc⟩
        have hne : v ≠ x := by rintro rfl; omega
        exact ⟨hv, by rw [if_neg hne]; exact hvc⟩
      · rintro ⟨hv, hvc⟩
        have hne : v ≠ x := by
          rintro rfl
          rw [if_pos rfl] at hvc
          omega
        rw [if_neg hne] at hvc
        exact ⟨hv, hvc⟩
    · intro hf
      have := (h.first hf).2
      omega
  · -- the run reaches the longest length: its value is pushed
    rw [modeStep_eq_push st x heq]
    have hM1 : st.maxCount ≠ 1 := by omega
    refine ⟨?_, ?_, hcount, ?_, ?_, ?_, ?_, ?_, ?_, hle⟩
    · simp [ModeScan.push, htake, h.size_eq]
    · simp [ModeScan.push, htake, h.index_eq]
    · intro w hw
      have := hge w hw
      simp only [ModeScan.push]
      omega
    · refine ⟨x, by simp, ?_⟩
      simp only [ModeScan.push]
      omega
    · simp only [ModeScan.push, htake]
      rw [List.Sorted, List.pairwise_append]
      refine ⟨h.sorted, List.pairwise_singleton _ _, ?_⟩
      intro a ha b hb
      have hb2 : b = x := by simpa using hb
      subst hb2
      obtain ⟨haQ, hac⟩ := (hmm hM1 a).mp ha
      have h1 := hle a haQ
      have h2 : a ≠ b := by rintro rfl; omega
      omega
    · intro hM
      simp only [ModeScan.push] at hM
      omega
    · intro _ v
      simp only [ModeScan.push, htake]
      rw [List.mem_append, hmm hM1 v, hmemQ, count_snoc]
      constructor
      · rintro (⟨hv, hvc⟩ | hv)
        · have hne : v ≠ x := by rintro rfl; omega
          exact ⟨hv, by rw [if_neg hne]; exact hvc⟩
        · have : v = x := by simpa using hv
          subst this
          exact ⟨hxQ, by rw [if_pos rfl]; omega⟩
      · rintro ⟨hv, hvc⟩
        by_cases e : v = x
        · right; simp [e]
        · left
          rw [if_neg e] at hvc
          exact ⟨hv, hvc⟩
    · intro hf
      simp only [ModeScan.push] at hf
      have := (h.first hf).2
      omega
  · -- the run becomes the longest one
    have hmodes : ∀ v, v ∈ [x] ↔ (v ∈ Q ++ [x] ∧ (Q ++ [x]).count v = st.modeCount + 1) := by
      intro v
      rw [hmemQ, count_snoc]
      constructor
      · intro hv
        have : v = x := by simpa using hv
        subst this
        exact ⟨hxQ, by rw [if_pos rfl]; omega⟩
      · rintro ⟨hv, hvc⟩
        by_cases e : v = x
        · simp [e]
        · have := hmg v hv
          rw [if_neg e] at hvc
          omega
    have hge2 : ∀ w ∈ Q ++ [x], (Q ++ [x]).count w ≤ st.modeCount + 1 := by
      intro w hw
      have := hge w hw
      omega
    have hat : ∃ w ∈ Q ++ [x], (Q ++ [x]).count w = st.modeCount + 1 :=
      ⟨x, by simp, hcount.symm⟩
    by_cases hf : st.firstTime = true
    · rw [modeStep_eq_reset st x hgt hf]
      exact ⟨rfl, rfl, hcount, hge2, hat, List.sorted_singleton x,
        fun hM => by dsimp only at hM; omega, fun _ v => hmodes v, fun _ => ⟨rfl, rfl⟩, hle⟩
    · have hf2 : st.firstTime = false := by simpa using hf
      rw [modeStep_eq_grow st x hgt hf2]
      have hmx : st.modes = [x] := (h.first hf2).1
      refine ⟨h.size_eq, h.index_eq, hcount, hge2, hat, h.sorted,
        fun hM => by dsimp only at hM; omega, fun _ v => ?_, fun _ => ⟨hmx, rfl⟩, hle⟩
      dsimp only
      rw [hmx]
      exact hmodes v

/-- While every frequency is 1, the values before the current cell are below it. -/
theorem ScanInv.modes_lt {P : List Int} {x : Int} {st : ModeScan} (h : ScanInv P x st)
    (hM : st.maxCount = 1) : ∀ a ∈ st.modes, a < x := by
  intro a ha
  have haP : a ∈ P := (h.mem_one hM a).mp ha
  have h1 := h.le_cur a haP
  have h2 : a ≠ x := by
    rintro rfl
    have hc := h.max_ge a (by simp)
    rw [count_snoc, if_pos rfl, hM] at hc
    have : 0 < P.count a := List.count_pos_iff.mpr haP
    omega
  omega

/-- The invariant is kept by a pass that sees a larger right neighbour. -/
theorem scanInv_step_lt (P : List Int) (x y : Int) (st : ModeScan) (h : ScanInv P x st)
    (hxy : x < y) : ScanInv (P ++ [x]) y (modeStep st x y) := by
  obtain ⟨hc1, hcM, hle, htake⟩ := h.basic
  have hne : x ≠ y := by omega
  have hcx := h.count_eq
  have hmg := h.max_ge
  have hma := h.max_at
  have hmm := h.mem_many
  have hmo := h.mem_one
  have hlt := h.modes_lt
  have hsnoc : ∀ v, v ∈ P ++ [x] ↔ v ∈ P ∨ v = x := by
    intro v; simp
  generalize P ++ [x] = Q at hcx hmg hma hmm hle hsnoc ⊢
  have hyQ : y ∉ Q := fun hy => by have := hle y hy; omega
  have hcy : (Q ++ [y]).count y = 1 := by
    rw [count_snoc, if_pos rfl, List.count_eq_zero_of_not_mem hyQ]
  have hcw : ∀ w ∈ Q, (Q ++ [y]).count w = Q.count w := by
    intro w hw
    have : w ≠ y := by rintro rfl; exact hyQ hw
    rw [count_snoc, if_neg this, Nat.add_zero]
  have hle2 : ∀ w ∈ Q, w ≤ y := fun w hw => by have := hle w hw; omega
  have hge : ∀ w ∈ Q ++ [y], (Q ++ [y]).count w ≤ st.maxCount := by
    intro w hw
    rcases List.mem_append.mp hw with hw | hw
    · rw [hcw w hw]; exact hmg w hw
    · have : w = y := by simpa using hw
      subst this
      rw [hcy]; omega
  by_cases hM : st.maxCount = 1
  · rw [modeStep_ne_one st x y hne hM]
    refine ⟨?_, ?_, ?_, hge, ?_, ?_, ?_, ?_, ?_, hle2⟩
    · simp [ModeScan.push, htake, h.size_eq]
    · simp [ModeScan.push, htake, h.index_eq]
    · simp only [ModeScan.push]
      rw [hcy]; omega
    · exact ⟨y, by simp, by simp only [ModeScan.push]; rw [hcy, hM]⟩
    · simp only [ModeScan.push, htake]
      rw [List.Sorted, List.pairwise_append]
      refine ⟨h.sorted, List.pairwise_singleton _ _, ?_⟩
      intro a ha b hb
      have hb2 : b = x := by simpa using hb
      subst hb2
      exact hlt hM a ha
    · intro _ v
      simp only [ModeScan.push, htake]
      rw [List.mem_append, List.mem_singleton, hmo hM v, hsnoc]
    · intro hM2
      simp only [ModeScan.push] at hM2
      exact absurd hM hM2
    · intro hf
      simp at hf
  · rw [modeStep_ne_many st x y hne hM]
    refine ⟨h.size_eq, h.index_eq, hcy.symm, hge, ?_, h.sorted, fun hM2 => absurd hM2 hM,
      ?_, ?_, hle2⟩
    · obtain ⟨w, hw, hwc⟩ := hma
      exact ⟨w, List.mem_append_left _ hw, by rw [hcw w hw]; exact hwc⟩
    · intro _ v
      dsimp only
      rw [hmm hM v]
      constructor
      · rintro ⟨hv, hvc⟩
        exact ⟨List.mem_append_left _ hv, by rw [hcw v hv]; exact hvc⟩
      · rintro ⟨hv, hvc⟩
        rcases List.mem_append.mp hv with hv | hv
        · exact ⟨hv, by rw [← hcw v hv]; exact hvc⟩
        · have : v = y := by simpa using hv
          subst this
          rw [hcy] at hvc
          exact absurd hvc.symm hM
    · intro hf
      simp at hf

/-- The last pass of the scan loop, when the cell after the sorted copy differs
from the last cell: the modes are complete. -/
theorem scanInv_last (P : List Int) (x o : Int) (st : ModeScan) (h : ScanInv P x st)
    (ho : o ≠ x) :
    (modeStep st x o).sizeMode = (modeStep st x o).modes.length ∧
    IsModeList (P ++ [x]) (modeStep st x o).modes := by
  obtain ⟨hc1, hcM, hle, htake⟩ := h.basic
  have hne : x ≠ o := fun e => ho e.symm
  by_cases hM : st.maxCount = 1
  · rw [modeStep_ne_one st x o hne hM]
    refine ⟨by simp [ModeScan.push, htake, h.size_eq], ?_, ?_⟩
    · simp only [ModeScan.push, htake]
      rw [List.Sorted, List.pairwise_append]
      refine ⟨h.sorted, List.pairwise_singleton _ _, ?_⟩
      intro a ha b hb
      have hb2 : b = x := by simpa using hb
      subst hb2
      exact h.modes_lt hM a ha
    · intro v
      simp only [ModeScan.push, htake]
      rw [List.mem_append, List.mem_singleton, h.mem_one hM v]
      constructor
      · intro hv
        have hvQ : v ∈ P ++ [x] := by simpa using hv
        refine ⟨hvQ, fun w hw => ?_⟩
        have h1 := h.max_ge w hw
        have h2 : 0 < (P ++ [x]).count v := List.count_pos_iff.mpr hvQ
        omega
      · rintro ⟨hv, _⟩
        simpa using hv
  · rw [modeStep_ne_many st x o hne hM]
    refine ⟨h.size_eq, h.sorted, ?_⟩
    intro v
    dsimp only
    rw [h.mem_many hM v]
    constructor
    · rintro ⟨hv, hvc⟩
      exact ⟨hv, fun w hw => by rw [hvc]; exact h.max_ge w hw⟩
    · rintro ⟨hv, hvc⟩
      obtain ⟨w, hw, hwc⟩ := h.max_at
      have h1 := hvc w hw
      have h2 := h.max_ge v hv
      exact ⟨hv, by omega⟩

/-- The scan over the rest of a sorted copy whose largest value `m` differs from
the cell `o` after the copy ends with the mode list of the whole copy. -/
theorem scanFrom_modes (o m : Int) (hom : o ≠ m) :
    ∀ (rest P : List Int) (x : Int) (st : ModeScan), ScanInv P x st →
      (x :: rest).Sorted (· ≤ ·) → m ∈ x :: rest → (∀ w ∈ x :: rest, w ≤ m) →
      (scanFrom o st (x :: rest)).sizeMode = (scanFrom o st (x :: rest)).modes.length ∧
      IsModeList (P ++ x :: rest) (scanFrom o st (x :: rest)).modes := by
  intro rest
  induction rest with
  | nil =>
    intro P x st h _ hm _
    have hmx : m = x := by simpa using hm
    subst hmx
    exact scanInv_last P m o st h hom
  | cons y rest ih =>
    intro P x st h hs hm hle
    have hxy : x ≤ y := List.rel_of_sorted_cons hs y (List.mem_cons_self _ _)
    have hs2 : (y :: rest).Sorted (· ≤ ·) := List.Sorted.of_cons hs
    have hm2 : m ∈ y :: rest := by
      rcases List.mem_cons.mp hm with e | e
      · have hy := hle y (by simp)
        have : y = m := by omega
        rw [← this]
        exact List.mem_cons_self _ _
      · exact e
    have hle2 : ∀ w ∈ y :: rest, w ≤ m := fun w hw => hle w (List.mem_cons_of_mem _ hw)
    have hstep : ScanInv (P ++ [x]) y (modeStep st x y) := by
      by_cases e : x = y
      · subst e
        exact scanInv_step_eq P x st h
      · exact scanInv_step_lt P x y st h (by omega)
    have := ih (P ++ [x]) y (modeStep st x y) hstep hs2 hm2 hle2
    simpa [scanFrom] using this

/-- The mode list of a list is the mode list of each of its permutations. -/
theorem IsModeList.of_perm {xs ys ms : List Int} (hp : xs.Perm ys) (h : IsModeList xs ms) :
    IsModeList ys ms := by
  refine ⟨h.1, fun v => ?_⟩
  rw [h.2 v, hp.mem_iff, hp.count_eq v]
  constructor
  · rintro ⟨hv, hc⟩
    exact ⟨hv, fun w hw => by rw [← hp.count_eq w]; exact hc w (hp.mem_iff.mpr hw)⟩
  · rintro ⟨hv, hc⟩
    exact ⟨hv, fun w hw => by rw [hp.count_eq w]; exact hc w (hp.mem_iff.mp hw)⟩

/-- On a non-empty log whose largest car count `m` differs from the content of
the cell after the sorted copy (`newData[sizeStats]`), `calcModeCars` returns
the mode list of the car counts and its length. -/
theorem calcModeCars_modes {F : Type} (outside : Int → Int)
    (log : List (StatsOverInterval F))
    (m : Int) (hm : m ∈ log.map (fun r => r.numCars))
    (hmax : ∀ v ∈ log.map (fun r => r.numCars), v ≤ m)
    (ho : outside log.length ≠ m) :
    IsModeList (log.map (fun r => r.numCars)) (calcModeCars outside log).1 ∧
    (calcModeCars outside log).2 = (calcModeCars outside log).1.length := by
  obtain ⟨hsorted, hperm⟩ := selection_sorted_perm (0 : Int) (log.map (fun r => r.numCars))
  have hlen : (log.map (fun r => r.numCars)).length = log.length := List.length_map _ _
  rw [hlen] at hsorted hperm
  have hslen : (selection 0 (log.map (fun r => r.numCars)) log.length 0).length = log.length := by
    rw [hperm.length_eq, hlen]
  have hcalc : calcModeCars outside log
      = ((scanFrom (outside log.length) modeInit
            (selection 0 (log.map (fun r => r.numCars)) log.length 0)).modes.take
          (scanFrom (outside log.length) modeInit
            (selection 0 (log.map (fun r => r.numCars)) log.length 0)).sizeMode,
         (scanFrom (outside log.length) modeInit
            (selection 0 (log.map (fun r => r.numCars)) log.length 0)).sizeMode) := by
    have h := modeScan_eq_scanFrom outside
      (selection 0 (log.map (fun r => r.numCars)) log.length 0)
    rw [hslen] at h
    simp only [calcModeCars, sortInt, selectionInt, h]
  rw [hcalc]
  generalize selection 0 (log.map (fun r => r.numCars)) log.length 0 = s at hsorted hperm hslen
  have hms : m ∈ s := hperm.mem_iff.mpr hm
  have hles : ∀ w ∈ s, w ≤ m := fun w hw => hmax w (hperm.mem_iff.mp hw)
  cases s with
  | nil => simp at hms
  | cons x rest =>
    obtain ⟨h1, h2⟩ := scanFrom_modes (outside log.length) m ho rest [] x modeInit
      (scanInv_init x) hsorted hms hles
    dsimp only
    rw [h1, List.take_length]
    exact ⟨IsModeList.of_perm hperm (by simpa using h2), rfl⟩

/-! ## Sensor, empty log, modes -/

/-- An echo line that stays low for the rest of the wait loop keeps it running
until `iterations` reaches 5000. -/
theorem waitEcho_low (n : Nat) (hn : n ≤ 5000) :
    waitEcho (fun _ => 0) (5000 - n) = 5000 := by
  induction n with
  | zero => rw [waitEcho]; simp
  | succ n ih =>
    rw [waitEcho, if_pos ⟨rfl, by omega⟩]
    have : 5000 - (n + 1) + 1 = 5000 - n := by omega
    rw [this]
    exact ih (by omega)

section SensorTheorems

variable {F : Type} [LinearOrderedField F]

/-- Whenever `readSensor` reports the timed-out result `-2`, `carPassed` with
the default threshold returns `true`. -/
theorem carPassed_of_timeout (gpio : Nat → Int) (h : (readSensor gpio : F) = -2) :
    carPassed gpio (defaultThreshold : F) = true := by
  unfold carPassed defaultThreshold
  rw [h, if_pos]
  have h1 : (0 : F) ≤ 3 / 10 := by positivity
  have h2 : (-2 : F) ≤ 0 := by norm_num
  exact le_trans h2 h1

/-- An echo line that is never seen high makes `readSensor` report `-2`. -/
theorem readSensor_low : (readSensor (fun _ => 0) : F) = -2 := by
  unfold readSensor
  have := waitEcho_low 5000 (le_refl _)
  simp only [Nat.sub_self] at this
  simp [this]

end SensorTheorems

/-- C2, the code at the failing input: the echo line is never seen high, so
`readSensor` times out with `-2`; `carPassed` returns `true`, and the tick that
polls this sensor (clock 26, phase entered at 0 with one car so far) increments
the car counter and resets the idle timer. -/
theorem timeout_is_counted_as_car :
    (readSensor (fun _ => 0) : ℚ) = -2 ∧
    carPassed (fun _ => 0) (defaultThreshold : ℚ) = true ∧
    (pollTick northAt25
      ⟨carPassed (fun _ => 0) (defaultThreshold : ℚ), 26, 26, 26, 26⟩).carCounter
        = northAt25.carCounter + 1 ∧
    (pollTick northAt25
      ⟨carPassed (fun _ => 0) (defaultThreshold : ℚ), 26, 26, 26, 26⟩).timerOpti = 26 := by
  have h := carPassed_of_timeout (fun _ => 0) (readSensor_low : (readSensor (fun _ => 0) : ℚ) = -2)
  refine ⟨readSensor_low, h, ?_, ?_⟩ <;> rw [h] <;> decide

section EmptyLog

variable {F : Type} [LinearOrderedField F]

/-- C3 (amended): on a log of zero intervals `computeStatsOverSimulation`
raises no error; it returns a statistics record with `totalCars = 0`,
`totalTime = 0`, no mode (`numModes = 0`), `timeSaved = 0`, and
`popStdDevCPS = -1`, the only value by which a function marks the empty log. -/
theorem empty_log_record (sqrt : F → F) (stray : Stray F) :
    (computeStatsOverSimulation sqrt stray []).totalCars = 0 ∧
    (computeStatsOverSimulation sqrt stray []).totalTime = 0 ∧
    (computeStatsOverSimulation sqrt stray []).modeCars = [] ∧
    (computeStatsOverSimulation sqrt stray []).numModes = 0 ∧
    (computeStatsOverSimulation sqrt stray []).timeSaved = 0 ∧
    (computeStatsOverSimulation sqrt stray []).popStdDevCPS = -1 := by
  refine ⟨rfl, rfl, rfl, rfl, ?_, ?_⟩
  · simp [computeStatsOverSimulation, calcTimeSaved]
  · simp [computeStatsOverSimulation, calcPopStdDevCPS]

end EmptyLog

/-- C3, counterexample: on the empty log `computeStatsOverSimulation` returns a
record, no error: the totals and `timeSaved` are defaulted to `0`, and
`maxCars`, `minCars` are computed from the cell `statsInterval[0]`, which is not
part of the log. -/
theorem empty_log_no_error :
    (computeStatsOverSimulation (fun x => x) strayExample []).totalCars = 0 ∧
    (computeStatsOverSimulation (fun x => x) strayExample []).totalTime = 0 ∧
    (computeStatsOverSimulation (fun x => x) strayExample []).timeSaved = 0 ∧
    (computeStatsOverSimulation (fun x => x) strayExample []).maxCars = 7 ∧
    (computeStatsOverSimulation (fun x => x) strayExample []).minCars = 7 ∧
    (computeStatsOverSimulation (fun x => x) strayExample []).numModes = 0 := by
  refine ⟨rfl, rfl, ?_, rfl, rfl, rfl⟩
  simp [computeStatsOverSimulation, calcTimeSaved]

/-- The sorted copy of the car counts 5, 2, 3, 2, 5. -/
theorem sorted_copy : sortInt [5, 2, 3, 2, 5] 5 = [2, 2, 3, 5, 5] := by
  have h := selection_sorted_perm (0 : Int) [5, 2, 3, 2, 5]
  exact List.eq_of_perm_of_sorted (h.2.trans (by decide)) h.1 (by decide)

/-- C1, the code at the failing input: the log with car counts 5, 2, 3, 2, 5,
whose modes are 2 and 5.  When the cell after the sorted copy (`newData[5]`,
read by the last pass of the scan) holds 5, `calcModeCars` returns the single
mode 5 and `numModes = 1`, which is not the mode list; when that cell holds 0
it returns `[2, 5]` and 2. -/
theorem modes_with_stray_five :
    calcModeCars (fun _ => 5) logModes = ([5], 1) ∧
    ¬ IsModeList (logModes.map (fun s => s.numCars)) (calcModeCars (fun _ => 5) logModes).1 ∧
    IsModeList (logModes.map (fun s => s.numCars)) [2, 5] ∧
    calcModeCars (fun _ => 0) logModes = ([2, 5], 2) := by
  have h : ∀ o, calcModeCars o logModes
      = ((modeScan o [2, 2, 3, 5, 5] 5).modes.take (modeScan o [2, 2, 3, 5, 5] 5).sizeMode,
          (modeScan o [2, 2, 3, 5, 5] 5).sizeMode) := by
    intro o
    simp only [calcModeCars, logModes, List.map, List.length]
    rw [sorted_copy]
  have h5 : calcModeCars (fun _ => 5) logModes = ([5], 1) := by rw [h]; decide
  refine ⟨h5, ?_, ?_, by rw [h]; decide⟩
  · rw [h5]
    intro hm
    have h2 := (hm.2 2).mpr (by decide)
    exact absurd h2 (by decide)
  · refine ⟨by decide, fun v => ⟨fun hv => ?_, fun hv => ?_⟩⟩
    · have hv2 : v = 2 ∨ v = 5 := by simpa using hv
      rcases hv2 with rfl | rfl <;> decide
    · have hmem : v ∈ [(5 : Int), 2, 3, 2, 5] := hv.1
      have hv3 : v = 5 ∨ v = 2 ∨ v = 3 := by
        simp only [List.mem_cons, List.mem_singleton, List.not_mem_nil, or_false] at hmem
        rcases hmem with h | h | h | h | h <;> simp [h]
      rcases hv3 with rfl | rfl | rfl
      · decide
      · decide
      · exact absurd (hv.2 2 (by decide)) (by decide)

/-! ## Statistics: sample deviation, time saved, averages -/

section MoreStats

variable {F : Type} [LinearOrderedField F]

/-- The total of `devset` is the sum of the squared deviations from the mean. -/
theorem devset_total_eq (log : List (StatsOverInterval F)) :
    (devset log).foldl (fun acc x => acc + x) 0
      = ((log.map (fun r => r.cps)).map (fun x =>
          (x - (log.map (fun r => r.cps)).sum / (log.length : F)) ^ 2)).sum := by
  rw [foldl_add_eq_sum (fun x : F => x) (devset log) 0, zero_add]
  unfold devset
  simp only [calcAverageCPS_eq, List.map_map, List.map_id']
  congr 1
  apply List.map_congr_left
  intro r _
  simp [pow_two]

/-- Unless the log has exactly one interval, `calcSmplStdDevCPS` is `sqrt` of
the sum of squared deviations divided by `sizeStats - 1`. -/
theorem calcSmplStdDevCPS_eq (sqrt : F → F) (log : List (StatsOverInterval F))
    (h : log.length ≠ 1) :
    calcSmplStdDevCPS sqrt log
      = sqrt (((log.map (fun r => r.cps)).map (fun x =>
          (x - (log.map (fun r => r.cps)).sum / (log.length : F)) ^ 2)).sum
            / ((log.length : F) - 1)) := by
  unfold calcSmplStdDevCPS
  simp only
  rw [if_neg h, devset_total_eq]
  push_cast
  rfl

/-- On a log of exactly one interval `calcSmplStdDevCPS` returns `-1`. -/
theorem calcSmplStdDevCPS_single (sqrt : F → F) (log : List (StatsOverInterval F))
    (h : log.length = 1) : calcSmplStdDevCPS sqrt log = -1 := by
  unfold calcSmplStdDevCPS
  simp only
  rw [if_pos h]

/-- On a log of exactly one interval the squared deviations add up to zero. -/
theorem devset_single (log : List (StatsOverInterval F)) (h : log.length = 1) :
    ((log.map (fun r => r.cps)).map (fun x =>
      (x - (log.map (fun r => r.cps)).sum / (log.length : F)) ^ 2)).sum = 0 := by
  obtain ⟨r, rfl⟩ := List.length_eq_one.mp h
  simp

end MoreStats

/-- C11 (amended): on a log of `n ≥ 2` intervals with cps values `x_i` and mean
`m`, when the operations of `float` are carried out without rounding error
(`float` read as the reals, with the real square root for `sqrt`),
`calcSmplStdDevCPS` returns the non-negative square root of
`(sum (x_i - m)^2) / (n - 1)`. -/
theorem smpl_std_dev_is_root (log : List (StatsOverInterval ℝ)) (h : 2 ≤ log.length) :
    0 ≤ calcSmplStdDevCPS Real.sqrt log ∧
    calcSmplStdDevCPS Real.sqrt log ^ 2
      = ((log.map (fun r => r.cps)).map (fun x =>
          (x - (log.map (fun r => r.cps)).sum / (log.length : ℝ)) ^ 2)).sum
            / ((log.length : ℝ) - 1) := by
  rw [calcSmplStdDevCPS_eq Real.sqrt log (by omega)]
  refine ⟨Real.sqrt_nonneg _, Real.sq_sqrt ?_⟩
  apply div_nonneg
  · apply List.sum_nonneg
    intro x hx
    obtain ⟨y, _, rfl⟩ := List.mem_map.mp hx
    exact sq_nonneg _
  · have : (2 : ℝ) ≤ (log.length : ℝ) := by exact_mod_cast h
    linarith

/-- C11 (amended), witness: for cps `[2, 4]` the square of the result in real
arithmetic is exactly 2. -/
theorem smpl_std_dev_is_root_witness :
    2 ≤ (logOfCps [(2 : ℝ), 4]).length ∧
    0 ≤ calcSmplStdDevCPS Real.sqrt (logOfCps [(2 : ℝ), 4]) ∧
    calcSmplStdDevCPS Real.sqrt (logOfCps [(2 : ℝ), 4]) ^ 2 = 2 := by
  have hlen : 2 ≤ (logOfCps [(2 : ℝ), 4]).length := by simp [logOfCps]
  obtain ⟨h0, h2⟩ := smpl_std_dev_is_root (logOfCps [(2 : ℝ), 4]) hlen
  refine ⟨hlen, h0, ?_⟩
  rw [h2]
  norm_num [logOfCps]

/-- C12: on a log of exactly one interval `calcSmplStdDevCPS` returns the marker
`-1` instead of a standard deviation, while `calcPopStdDevCPS` returns `0`; the
marker is distinct from every other result, since on a log of any other length
`calcSmplStdDevCPS` is non-negative (real square root for `sqrt`). -/
theorem single_interval_std_devs (log : List (StatsOverInterval ℝ)) (h : log.length = 1) :
    calcSmplStdDevCPS Real.sqrt log = -1 ∧
    calcPopStdDevCPS Real.sqrt log = 0 ∧
    ∀ other : List (StatsOverInterval ℝ), other.length ≠ 1 →
      0 ≤ calcSmplStdDevCPS Real.sqrt other := by
  refine ⟨calcSmplStdDevCPS_single Real.sqrt log h, ?_, ?_⟩
  · have hne : log ≠ [] := by
      intro e
      rw [e] at h
      simp at h
    rw [calcPopStdDevCPS_eq Real.sqrt log hne, devset_single log h]
    simp
  · intro other ho
    rw [calcSmplStdDevCPS_eq Real.sqrt other ho]
    exact Real.sqrt_nonneg _

/-- C12, witness: the log of one interval with cps 5. -/
theorem single_interval_std_devs_witness :
    (logOfCps [(5 : ℝ)]).length = 1 ∧
    calcSmplStdDevCPS Real.sqrt (logOfCps [(5 : ℝ)]) = -1 ∧
    calcPopStdDevCPS Real.sqrt (logOfCps [(5 : ℝ)]) = 0 :=
  ⟨by simp [logOfCps],
    (single_interval_std_devs (logOfCps [(5 : ℝ)]) (by simp [logOfCps])).1,
    (single_interval_std_devs (logOfCps [(5 : ℝ)]) (by simp [logOfCps])).2.1⟩

section MoreStats2

variable {F : Type} [LinearOrderedField F]

/-- C13: for a log of `n` intervals and baseline `b`, `calcTimeSaved` returns
`n*b` minus the sum of the interval durations, and `computeStatsOverSimulation`
calls it with `b = 30`; durations `[30, 7]` with baseline 30 give 23. -/
theorem time_saved_formula (sqrt : F → F) (stray : Stray F)
    (log : List (StatsOverInterval F)) (b : F) :
    calcTimeSaved log b
      = (log.length : F) * b - (log.map (fun r => r.timeInterval)).sum ∧
    (computeStatsOverSimulation sqrt stray log).timeSaved
      = (log.length : F) * 30 - (log.map (fun r => r.timeInterval)).sum ∧
    calcTimeSaved logDurations 30 = 23 := by
  have h : ∀ (G : Type) [LinearOrderedField G] (l : List (StatsOverInterval G)) (c : G),
      calcTimeSaved l c = (l.length : G) * c - (l.map (fun r => r.timeInterval)).sum := by
    intro G _ l c
    unfold calcTimeSaved
    simp only
    rw [foldl_add_eq_sum (fun r : StatsOverInterval G => r.timeInterval) l 0, zero_add]
  refine ⟨h F log b, h F log 30, ?_⟩
  rw [h ℚ logDurations 30]
  norm_num [logDurations]

/-- C18 (amended): on a non-empty log of `n` intervals, `calcAvgCars` is the sum
of `numCars` divided by `n` and `calcAvgTime` the sum of `timeInterval` divided
by `n`, the division being that of the field (no truncation); and so is
`calcAverageCPS` for the sum of `cps`, when its running total and its quotient
are computed without rounding error. -/
theorem averages_are_means (log : List (StatsOverInterval F)) (_hne : log ≠ []) :
    calcAvgCars log = (((log.map (fun r => r.numCars)).sum : Int) : F) / (log.length : F) ∧
    calcAvgTime log = (log.map (fun r => r.timeInterval)).sum / (log.length : F) ∧
    calcAverageCPS log = (log.map (fun r => r.cps)).sum / (log.length : F) := by
  refine ⟨?_, ?_, calcAverageCPS_eq log⟩
  · unfold calcAvgCars
    rw [foldl_add_eq_sum (fun r : StatsOverInterval F => (r.numCars : F)) log 0, zero_add]
    congr 1
    clear _hne
    induction log with
    | nil => simp
    | cons r rs ih => simp [ih]
  · unfold calcAvgTime
    rw [foldl_add_eq_sum (fun r : StatsOverInterval F => r.timeInterval) log 0, zero_add]

end MoreStats2

/-- C18 (amended), witness: two intervals of 1 car in 2 s and 1 car in 4 s have
an average of 1 car, 3 s and 3/8 cars per second; all these are `float` values
and no operation rounds. -/
theorem averages_are_means_witness :
    logHalfQuarter ≠ [] ∧ calcAvgCars logHalfQuarter = 1 ∧ calcAvgTime logHalfQuarter = 3 ∧
    calcAverageCPS logHalfQuarter = 3 / 8 := by
  obtain ⟨h1, h2, h3⟩ := averages_are_means logHalfQuarter (by decide)
  refine ⟨by decide, ?_, ?_, ?_⟩
  · rw [h1]; norm_num [logHalfQuarter]
  · rw [h2]; norm_num [logHalfQuarter]
  · rw [h3]; norm_num [logHalfQuarter]

/-! ## Phase controller: records, counters, phase boundaries -/

section ControllerMore

variable {F : Type} [LinearOrderedField F]

/-- What a tick that closes the phase leaves behind: `done` is set, the record
is appended to the log of the green approach, and the record holds the car
counter, the duration of the rule that fired, and their quotient. -/
theorem pollTick_closing (m : MainState F) (k : Tick)
    (h : phaseClock m k > 30 ∨ idleClock m k > 10) :
    (pollTick m k).done = true ∧
    activeLog (pollTick m k) = activeLog m ++ [(pollTick m k).intervalStat] ∧
    passiveLog (pollTick m k) = passiveLog m ∧
    (pollTick m k).intervalStat.numCars = m.carCounter + (if k.passed then 1 else 0) ∧
    (pollTick m k).intervalStat.cps
      = ((pollTick m k).intervalStat.numCars : F) / (pollTick m k).intervalStat.timeInterval ∧
    ((phaseClock m k > 30 ∧ (pollTick m k).intervalStat.timeInterval = 30) ∨
      (phaseClock m k ≤ 30 ∧ idleClock m k > 10 ∧
        (pollTick m k).intervalStat.timeInterval = ((k.tClose - m.timerMain : Int) : F))) := by
  have hcps : (pollTick m k).intervalStat.cps
      = ((pollTick m k).intervalStat.numCars : F) / (pollTick m k).intervalStat.timeInterval := by
    have h' := h
    unfold phaseClock idleClock at h'
    simp only [pollTick, MainState.record, calcCarsPerSecond]
    split_ifs <;> first | rfl | simp_all
  by_cases h1 : phaseClock m k > 30
  · obtain ⟨a, b, c, e⟩ := pollTick_full m k h1
    exact ⟨a, b, (pollTick_frame m k).2.2, e, hcps, Or.inl ⟨h1, c⟩⟩
  · have h2 : idleClock m k > 10 := h.resolve_left h1
    obtain ⟨a, b, c, e⟩ := pollTick_cutoff m k (not_lt.mp h1) h2
    exact ⟨a, b, (pollTick_frame m k).2.2, e, hcps, Or.inr ⟨not_lt.mp h1, h2, c⟩⟩

/-- A tick on which no rule fires only updates the car counter and the idle
timer. -/
theorem pollTick_open (m : MainState F) (k : Tick)
    (h : ¬ (phaseClock m k > 30 ∨ idleClock m k > 10)) :
    (pollTick m k).done = m.done ∧ (pollTick m k).north = m.north ∧
    (pollTick m k).west = m.west ∧ (pollTick m k).currentState = m.currentState ∧
    (pollTick m k).timerMain = m.timerMain ∧
    (pollTick m k).carCounter = m.carCounter + (if k.passed then 1 else 0) ∧
    (pollTick m k).timerOpti = (if k.passed then k.tPassed else m.timerOpti) := by
  have h1 : phaseClock m k ≤ 30 := not_lt.mp (fun e => h (Or.inl e))
  have h2 : idleClock m k ≤ 10 := not_lt.mp (fun e => h (Or.inr e))
  rw [pollTick_continue m k h1 h2]
  split <;> simp

/-- The inner loop started in an open phase: it keeps `currentState` and
`timerMain`, and either it is still open with both logs as they were, or it has
closed the phase with exactly one record, appended to the log of the green
approach, whose `cps` is `numCars / timeInterval`. -/
theorem phaseLoop_outcome (ks : List Tick) :
    ∀ m : MainState F, m.done = false →
      (phaseLoop m ks).currentState = m.currentState ∧
      (phaseLoop m ks).timerMain = m.timerMain ∧
      (((phaseLoop m ks).done = false ∧ (phaseLoop m ks).north = m.north ∧
          (phaseLoop m ks).west = m.west) ∨
        ((phaseLoop m ks).done = true ∧
          activeLog (phaseLoop m ks) = activeLog m ++ [(phaseLoop m ks).intervalStat] ∧
          passiveLog (phaseLoop m ks) = passiveLog m ∧
          (phaseLoop m ks).intervalStat.cps
            = ((phaseLoop m ks).intervalStat.numCars : F)
                / (phaseLoop m ks).intervalStat.timeInterval)) := by
  induction ks with
  | nil =>
    intro m hd
    exact ⟨rfl, rfl, Or.inl ⟨hd, rfl, rfl⟩⟩
  | cons k ks ih =>
    intro m hd
    have hstep : phaseLoop m (k :: ks) = phaseLoop (pollTick m k) ks := by
      simp [phaseLoop, hd]
    rw [hstep]
    by_cases hf : phaseClock m k > 30 ∨ idleClock m k > 10
    · obtain ⟨a, b, c, _, e, _⟩ := pollTick_closing m k hf
      rw [phaseLoop_of_done _ _ a]
      exact ⟨(pollTick_frame m k).1, (pollTick_frame m k).2.1, Or.inr ⟨a, b, c, e⟩⟩
    · obtain ⟨a, b, c, d, e, _, _⟩ := pollTick_open m k hf
      obtain ⟨i1, i2, i3⟩ := ih (pollTick m k) (by rw [a, hd])
      refine ⟨by rw [i1, d], by rw [i2, e], ?_⟩
      rcases i3 with ⟨x, y, z⟩ | ⟨x, y, z, w⟩
      · exact Or.inl ⟨x, by rw [y, b], by rw [z, c]⟩
      · refine Or.inr ⟨x, ?_, ?_, w⟩
        · rw [y]; simp [activeLog, b, c, d]
        · rw [z]; simp [passiveLog, b, c, d]

/-- The car counter of the record that closes a phase is the counter the loop
started from plus the number of executed ticks that reported a passage. -/
theorem phaseLoop_numCars (ks : List Tick) :
    ∀ m : MainState F, m.done = false → (phaseLoop m ks).done = true →
      (phaseLoop m ks).intervalStat.numCars
        = m.carCounter + (((ticksExecuted m ks).filter (fun k => k.passed)).length : Int) := by
  induction ks with
  | nil =>
    intro m hd he
    simp [phaseLoop, hd] at he
  | cons k ks ih =>
    intro m hd he
    have hstep : phaseLoop m (k :: ks) = phaseLoop (pollTick m k) ks := by
      simp [phaseLoop, hd]
    have hexec : ticksExecuted m (k :: ks) = k :: ticksExecuted (pollTick m k) ks := by
      simp [ticksExecuted, hd]
    rw [hstep] at he ⊢
    rw [hexec]
    by_cases hf : phaseClock m k > 30 ∨ idleClock m k > 10
    · obtain ⟨a, _, _, e, _, _⟩ := pollTick_closing m k hf
      have hnone : ticksExecuted (pollTick m k) ks = [] := by
        cases ks <;> simp [ticksExecuted, a]
      rw [phaseLoop_of_done _ _ a, e, hnone]
      by_cases hp : k.passed = true <;> simp [hp]
    · obtain ⟨a, _, _, _, _, e, _⟩ := pollTick_open m k hf
      rw [ih (pollTick m k) (by rw [a, hd]) he, e]
      by_cases hp : k.passed = true
      · simp [hp]; ring
      · simp [hp]

end ControllerMore

section ControllerClaims2

variable {F : Type} [LinearOrderedField F]

/-- C16: the controller starts in the North-green state with both logs empty;
a pass through the `switch` that closes the phase appends exactly one record at
the end of the log of the green approach, leaves the other log unchanged and
switches to the other approach; a pass that has not closed the phase changes
neither log nor the state. -/
theorem phase_close_appends_and_switches (j : StatsOverInterval F) (t1 t2 : Int)
    (m : MainState F) (ph : PhaseInput) :
    ((mainInit j t1 t2).currentState = 'n' ∧ (mainInit j t1 t2).north = [] ∧
      (mainInit j t1 t2).west = []) ∧
    (m.currentState = 'n' → (runPhase m ph).done = true →
      (runPhase m ph).north = m.north ++ [(runPhase m ph).intervalStat] ∧
      (runPhase m ph).west = m.west ∧ (runPhase m ph).currentState = 'w') ∧
    (m.currentState = 'w' → (runPhase m ph).done = true →
      (runPhase m ph).west = m.west ++ [(runPhase m ph).intervalStat] ∧
      (runPhase m ph).north = m.north ∧ (runPhase m ph).currentState = 'n') ∧
    ((m.currentState = 'n' ∨ m.currentState = 'w') → (runPhase m ph).done = false →
      (runPhase m ph).north = m.north ∧ (runPhase m ph).west = m.west ∧
      (runPhase m ph).currentState = m.currentState) := by
  obtain ⟨hcs, _, hout⟩ :=
    phaseLoop_outcome ph.ticks (enterPhase m ph.tMain ph.tOpti) rfl
  have hcs2 : (phaseLoop (enterPhase m ph.tMain ph.tOpti) ph.ticks).currentState
      = m.currentState := hcs
  have hact : activeLog (enterPhase m ph.tMain ph.tOpti) = activeLog m := rfl
  have hpas : passiveLog (enterPhase m ph.tMain ph.tOpti) = passiveLog m := rfl
  have hN : (enterPhase m ph.tMain ph.tOpti).north = m.north := rfl
  have hW : (enterPhase m ph.tMain ph.tOpti).west = m.west := rfl
  rw [hact, hpas, hN, hW] at hout
  refine ⟨⟨rfl, rfl, rfl⟩, ?_, ?_, ?_⟩
  · intro hn
    simp only [runPhase, hn, true_or, if_true]
    generalize phaseLoop (enterPhase m ph.tMain ph.tOpti) ph.ticks = e at hcs2 hout ⊢
    intro hd
    rcases hout with ⟨h1, _, _⟩ | ⟨h1, h2, h3, _⟩
    · simp [h1] at hd
    · simp only [activeLog, passiveLog, hcs2, hn, if_true] at h2 h3
      simp [switchState, h1, h2, h3, hcs2, hn]
  · intro hw
    have hnn : ¬ m.currentState = 'n' := by rw [hw]; decide
    simp only [runPhase, hw, or_true, if_true]
    generalize phaseLoop (enterPhase m ph.tMain ph.tOpti) ph.ticks = e at hcs2 hout ⊢
    intro hd
    rcases hout with ⟨h1, _, _⟩ | ⟨h1, h2, h3, _⟩
    · simp [h1] at hd
    · simp only [activeLog, passiveLog, hcs2, hnn, if_false] at h2 h3
      have hen : ¬ e.currentState = 'n' := by rw [hcs2]; exact hnn
      simp [switchState, h1, h2, h3, hen]
  · intro hv
    simp only [runPhase, hv, if_true]
    generalize phaseLoop (enterPhase m ph.tMain ph.tOpti) ph.ticks = e at hcs2 hout ⊢
    intro hd
    rcases hout with ⟨h1, h2, h3⟩ | ⟨h1, _, _, _⟩
    · simp only [h1, Bool.false_eq_true, if_false]
      exact ⟨h2, h3, hcs2⟩
    · simp [switchState, h1] at hd

/-- C19 (amended): a tick on which the phase clock is strictly above the
full-duration threshold (`phase clock > 30`) and the idle clock strictly above
the idle threshold (`idle clock > 10`) appends exactly one record, the one of
the full-duration rule: its duration is 30 and not the elapsed phase clock. -/
theorem full_rule_wins (m : MainState F) (k : Tick) (h1 : phaseClock m k > 30)
    (_h2 : idleClock m k > 10) :
    (pollTick m k).done = true ∧
    activeLog (pollTick m k) = activeLog m ++ [(pollTick m k).intervalStat] ∧
    passiveLog (pollTick m k) = passiveLog m ∧
    (pollTick m k).intervalStat.timeInterval = 30 ∧
    (pollTick m k).intervalStat.timeInterval ≠ ((phaseClock m k : Int) : F) := by
  obtain ⟨a, b, c, _⟩ := pollTick_full m k h1
  refine ⟨a, b, (pollTick_frame m k).2.2, c, ?_⟩
  rw [c]
  have : ((30 : Int) : F) < ((phaseClock m k : Int) : F) := Int.cast_lt.mpr h1
  have h30 : ((30 : Int) : F) = 30 := by norm_num
  rw [h30] at this
  exact ne_of_lt this

/-- C20: the car counter is zero when a phase is entered; every tick adds
exactly one to it when the detector reports a passage (and then resets the idle
timer to the clock) and nothing otherwise; so the `numCars` of the record that
closes a phase is the number of executed ticks of that phase, the closing one
included, that reported a passage. -/
theorem car_counter_counts_passages (m0 : MainState F) (tMain tOpti : Int) :
    (enterPhase m0 tMain tOpti).carCounter = 0 ∧
    (∀ (m : MainState F) (k : Tick),
      (pollTick m k).carCounter = m.carCounter + (if k.passed then 1 else 0) ∧
      (k.passed = true → (pollTick m k).timerOpti = k.tPassed)) ∧
    (∀ ks : List Tick, (phaseLoop (enterPhase m0 tMain tOpti) ks).done = true →
      (phaseLoop (enterPhase m0 tMain tOpti) ks).intervalStat.numCars
        = (((ticksExecuted (enterPhase m0 tMain tOpti) ks).filter
            (fun k => k.passed)).length : Int)) := by
  refine ⟨rfl, ?_, ?_⟩
  · intro m k
    simp only [pollTick, MainState.record]
    split_ifs <;> simp_all
  · intro ks hd
    have h := phaseLoop_numCars ks (enterPhase m0 tMain tOpti) rfl hd
    rw [h]
    simp [enterPhase]

end ControllerClaims2

/-- C16, witness: the first phase, closed by the idle rule at clock 11, records
one interval for North and switches to West. -/
theorem phase_close_appends_and_switches_witness :
    (mainStart.currentState = 'n' ∧ (runPhase mainStart idlePhase).done = true) ∧
    (runPhase mainStart idlePhase).north
      = mainStart.north ++ [(runPhase mainStart idlePhase).intervalStat] ∧
    (runPhase mainStart idlePhase).west = mainStart.west ∧
    (runPhase mainStart idlePhase).currentState = 'w' :=
  ⟨⟨by decide, by decide⟩,
    (phase_close_appends_and_switches ⟨0, 0, 0⟩ 0 0 mainStart idlePhase).2.1
      (by decide) (by decide)⟩

/-- C20, witness: a phase with passages on four of its five executed ticks,
the closing tick among them, closes with `numCars = 4`. -/
theorem car_counter_counts_passages_witness :
    (phaseLoop (enterPhase mainStart 0 0) ticksFourPassages).done = true ∧
    (ticksExecuted (enterPhase mainStart 0 0) ticksFourPassages).length = 5 ∧
    (phaseLoop (enterPhase mainStart 0 0) ticksFourPassages).intervalStat.numCars = 4 := by
  refine ⟨by decide, by decide, ?_⟩
  rw [(car_counter_counts_passages mainStart 0 0).2.2 ticksFourPassages (by decide)]
  decide

section ControllerRun

variable {F : Type} [LinearOrderedField F]

/-- The inner loop keeps every record of both logs consistent. -/
theorem phaseLoop_consistent (ks : List Tick) (m : MainState F) (hd : m.done = false)
    (hn : ∀ r ∈ m.north, CpsConsistent r) (hw : ∀ r ∈ m.west, CpsConsistent r) :
    (∀ r ∈ (phaseLoop m ks).north, CpsConsistent r) ∧
    (∀ r ∈ (phaseLoop m ks).west, CpsConsistent r) := by
  obtain ⟨hcs, _, hout⟩ := phaseLoop_outcome ks m hd
  generalize phaseLoop m ks = e at hcs hout ⊢
  rcases hout with ⟨_, h2, h3⟩ | ⟨_, h2, h3, h4⟩
  · rw [h2, h3]
    exact ⟨hn, hw⟩
  · by_cases hs : m.currentState = 'n'
    · simp only [activeLog, passiveLog, hcs, hs, if_true] at h2 h3
      rw [h2, h3]
      refine ⟨fun r hr => ?_, hw⟩
      rcases List.mem_append.mp hr with hr | hr
      · exact hn r hr
      · have : r = e.intervalStat := by simpa using hr
        rw [this]
        exact h4
    · simp only [activeLog, passiveLog, hcs, hs, if_false] at h2 h3
      rw [h2, h3]
      refine ⟨hn, fun r hr => ?_⟩
      rcases List.mem_append.mp hr with hr | hr
      · exact hw r hr
      · have : r = e.intervalStat := by simpa using hr
        rw [this]
        exact h4

/-- A pass through the `switch` keeps every record of both logs consistent. -/
theorem runPhase_consistent (m : MainState F) (ph : PhaseInput)
    (hn : ∀ r ∈ m.north, CpsConsistent r) (hw : ∀ r ∈ m.west, CpsConsistent r) :
    (∀ r ∈ (runPhase m ph).north, CpsConsistent r) ∧
    (∀ r ∈ (runPhase m ph).west, CpsConsistent r) := by
  have h := phaseLoop_consistent ph.ticks (enterPhase m ph.tMain ph.tOpti) rfl hn hw
  simp only [runPhase]
  split_ifs
  · exact h
  · exact h
  · exact ⟨hn, hw⟩

/-- The outer loop keeps every record of both logs consistent. -/
theorem mainLoop_consistent (simulationTimer simulationTime : Int) (phs : List PhaseInput) :
    ∀ m : MainState F, (∀ r ∈ m.north, CpsConsistent r) → (∀ r ∈ m.west, CpsConsistent r) →
      (∀ r ∈ (mainLoop simulationTimer simulationTime m phs).north, CpsConsistent r) ∧
      (∀ r ∈ (mainLoop simulationTimer simulationTime m phs).west, CpsConsistent r) := by
  induction phs with
  | nil => exact fun m hn hw => ⟨hn, hw⟩
  | cons ph rest ih =>
    intro m hn hw
    have h := runPhase_consistent m ph hn hw
    simp only [mainLoop]
    split_ifs
    · exact ih _ h.1 h.2
    · exact h
    · exact ⟨hn, hw⟩

end ControllerRun

section Durations

variable {F : Type} [LinearOrderedField F]

/-- A closing tick under a clock that does not run backwards: when the idle
timer is not before the phase timer, a passage is not stamped before the phase
timer, and the closing read is not before the idle test, the recorded duration
is positive. -/
theorem pollTick_duration_pos (m : MainState F) (k : Tick)
    (h : phaseClock m k > 30 ∨ idleClock m k > 10) (ht : m.timerMain ≤ m.timerOpti)
    (hp : m.timerMain ≤ k.tPassed) (hc : k.tOpti ≤ k.tClose) :
    0 < (pollTick m k).intervalStat.timeInterval := by
  obtain ⟨_, _, _, _, _, hdur⟩ := pollTick_closing m k h
  rcases hdur with ⟨_, e⟩ | ⟨_, hi, e⟩
  · rw [e]; norm_num
  · rw [e]
    have : 0 < k.tClose - m.timerMain := by
      unfold idleClock at hi
      split_ifs at hi <;> omega
    exact_mod_cast this

/-- The record that closes a phase has a positive duration whenever the clock
does not run backwards during the phase. -/
theorem phaseLoop_duration_pos (ks : List Tick) :
    ∀ m : MainState F, m.done = false → m.timerMain ≤ m.timerOpti →
      (∀ k ∈ ks, m.timerMain ≤ k.tPassed ∧ k.tOpti ≤ k.tClose) →
      (phaseLoop m ks).done = true →
      0 < (phaseLoop m ks).intervalStat.timeInterval := by
  induction ks with
  | nil =>
    intro m hd _ _ he
    simp [phaseLoop, hd] at he
  | cons k ks ih =>
    intro m hd ht hk he
    have hstep : phaseLoop m (k :: ks) = phaseLoop (pollTick m k) ks := by
      simp [phaseLoop, hd]
    obtain ⟨hk1, hk2⟩ := hk k (List.mem_cons_self _ _)
    rw [hstep] at he ⊢
    by_cases hf : phaseClock m k > 30 ∨ idleClock m k > 10
    · rw [phaseLoop_of_done _ _ (pollTick_closing m k hf).1]
      exact pollTick_duration_pos m k hf ht hk1 hk2
    · obtain ⟨a, _, _, _, b, _, c⟩ := pollTick_open m k hf
      refine ih (pollTick m k) (by rw [a, hd]) ?_ ?_ he
      · rw [b, c]
        split_ifs
        · exact hk1
        · exact ht
      · intro k2 hk2m
        rw [b]
        exact hk k2 (List.mem_cons_of_mem _ hk2m)

/-- The record that closes a phase has a positive duration whenever the clock
values read during the phase are in non-decreasing order. -/
theorem phase_duration_pos (m0 : MainState F) (tMain tOpti : Int) (ks : List Tick)
    (hs : (phaseReads tMain tOpti ks).Sorted (· ≤ ·))
    (hd : (phaseLoop (enterPhase m0 tMain tOpti) ks).done = true) :
    0 < (phaseLoop (enterPhase m0 tMain tOpti) ks).intervalStat.timeInterval := by
  unfold phaseReads at hs
  rw [List.Sorted, List.pairwise_cons, List.pairwise_cons] at hs
  obtain ⟨h1, _, h3⟩ := hs
  refine phaseLoop_duration_pos ks (enterPhase m0 tMain tOpti) rfl
    (h1 tOpti (List.mem_cons_self _ _)) ?_ hd
  intro k hk
  constructor
  · refine h1 k.tPassed (List.mem_cons_of_mem _ (List.mem_flatMap.mpr ⟨k, hk, ?_⟩))
    simp [Tick.reads]
  · have hk2 : (Tick.reads k).Pairwise (· ≤ ·) := (List.pairwise_flatMap.mp h3).1 k hk
    simp only [Tick.reads, List.pairwise_cons] at hk2
    exact hk2.2.2.1 k.tClose (List.mem_singleton_self _)

end Durations

/-- C14, the code at the failing input: a phase entered at clock 0 with one
passage at clock 20; on the closing tick the full-duration test reads phase
clock 30, the second then changes, the idle test reads idle clock 11 and the
duration is read as 31.  The clock never runs backwards, and the record
appended has `timeInterval = 31`, above the maximum phase duration of 30. -/
theorem cutoff_record_exceeds_maximum :
    (phaseReads 0 0 ticksAcrossSecond).Sorted (· ≤ ·) ∧
    (phaseLoop (enterPhase mainStart 0 0) ticksAcrossSecond).done = true ∧
    (phaseLoop (enterPhase mainStart 0 0) ticksAcrossSecond).north = [⟨1, 31, 1 / 31⟩] ∧
    (30 : ℚ)
      < (phaseLoop (enterPhase mainStart 0 0) ticksAcrossSecond).intervalStat.timeInterval := by
  have hn : (phaseLoop (enterPhase mainStart 0 0) ticksAcrossSecond).north
      = [⟨1, 31, 1 / 31⟩] := by
    simp [phaseLoop, pollTick, enterPhase, mainStart, passageAt, quietAt, MainState.record,
      calcCarsPerSecond, defaultTimeInterval, ticksAcrossSecond, tickAcrossSecond]
  have ht : (phaseLoop (enterPhase mainStart 0 0) ticksAcrossSecond).intervalStat.timeInterval
      = 31 := by
    simp [phaseLoop, pollTick, enterPhase, mainStart, passageAt, quietAt, MainState.record,
      calcCarsPerSecond, defaultTimeInterval, ticksAcrossSecond, tickAcrossSecond]
  refine ⟨by decide, by decide, hn, ?_⟩
  rw [ht]
  norm_num

/-! ## Statistics calls leave the log as it is -/

/-- Invariant of the copy loop of `calcModeCars` after `k` passes: only
`newData` has changed, and its first `k` cells hold the car counts. -/
theorem copyNumCars_inv {F : Type} (outside : Int → StatsOverInterval F) (a : StatsArrays F) (k : Nat)
    (hk : k ≤ a.statsInterval.length) (hlen : a.newData.length = a.statsInterval.length) :
    (copyNumCars outside a k).statsInterval = a.statsInterval ∧
    (copyNumCars outside a k).set = a.set ∧
    (copyNumCars outside a k).modes = a.modes ∧
    (copyNumCars outside a k).newData.length = a.statsInterval.length ∧
    ∀ i (hi : i < a.statsInterval.length), i < k →
      (copyNumCars outside a k).newData[i]? = some (a.statsInterval[i]).numCars := by
  induction k with
  | zero =>
    exact ⟨rfl, rfl, rfl, hlen, fun i _ h => absurd h (Nat.not_lt_zero _)⟩
  | succ k ih =>
    obtain ⟨h1, h2, h3, h4, h5⟩ := ih (by omega)
    have hstep : copyNumCars outside a (k + 1)
        = { copyNumCars outside a k with
            newData := (copyNumCars outside a k).newData.set k
              (arrGet (copyNumCars outside a k).statsInterval outside (k : Int)).numCars } := by
      simp only [copyNumCars, List.range_succ, List.foldl_append, List.foldl_cons,
        List.foldl_nil]
    rw [hstep]
    refine ⟨h1, h2, h3, by simpa using h4, ?_⟩
    intro i hi hik
    simp only [List.getElem?_set]
    by_cases e : k = i
    · subst e
      rw [if_pos rfl, if_pos (by omega), h1, arrGet_of_lt _ _ _ hi]
      rfl
    · rw [if_neg e]
      exact h5 i hi (by omega)

/-- Invariant of the copy loop of `calcMedianCPS` after `k` passes: only `set`
has changed, and its first `k` cells hold the cps values. -/
theorem copyCps_inv {F : Type} (outside : Int → StatsOverInterval F) (a : StatsArrays F) (k : Nat)
    (hk : k ≤ a.statsInterval.length) (hlen : a.set.length = a.statsInterval.length) :
    (copyCps outside a k).statsInterval = a.statsInterval ∧
    (copyCps outside a k).newData = a.newData ∧
    (copyCps outside a k).modes = a.modes ∧
    (copyCps outside a k).set.length = a.statsInterval.length ∧
    ∀ i (hi : i < a.statsInterval.length), i < k →
      (copyCps outside a k).set[i]? = some (a.statsInterval[i]).cps := by
  induction k with
  | zero =>
    exact ⟨rfl, rfl, rfl, hlen, fun i _ h => absurd h (Nat.not_lt_zero _)⟩
  | succ k ih =>
    obtain ⟨h1, h2, h3, h4, h5⟩ := ih (by omega)
    have hstep : copyCps outside a (k + 1)
        = { copyCps outside a k with
            set := (copyCps outside a k).set.set k
              (arrGet (copyCps outside a k).statsInterval outside (k : Int)).cps } := by
      simp only [copyCps, List.range_succ, List.foldl_append, List.foldl_cons,
        List.foldl_nil]
    rw [hstep]
    refine ⟨h1, h2, h3, by simpa using h4, ?_⟩
    intro i hi hik
    simp only [List.getElem?_set]
    by_cases e : k = i
    · subst e
      rw [if_pos rfl, if_pos (by omega), h1, arrGet_of_lt _ _ _ hi]
      rfl
    · rw [if_neg e]
      exact h5 i hi (by omega)

/-- After its copy loop, `newData` holds the car counts of the log. -/
theorem copyNumCars_all {F : Type} (outside : Int → StatsOverInterval F) (a : StatsArrays F)
    (hlen : a.newData.length = a.statsInterval.length) :
    (copyNumCars outside a a.statsInterval.length).statsInterval = a.statsInterval ∧
    (copyNumCars outside a a.statsInterval.length).newData
      = a.statsInterval.map (fun s => s.numCars) := by
  obtain ⟨h1, _, _, h4, h5⟩ := copyNumCars_inv outside a a.statsInterval.length (le_refl _) hlen
  refine ⟨h1, ?_⟩
  apply List.ext_getElem?
  intro i
  by_cases hi : i < a.statsInterval.length
  · rw [h5 i hi hi]
    simp [List.getElem?_map, List.getElem?_eq_getElem hi]
  · rw [List.getElem?_eq_none (by omega), List.getElem?_eq_none (by simp; omega)]

/-- After its copy loop, `set` holds the cps values of the log. -/
theorem copyCps_all {F : Type} (outside : Int → StatsOverInterval F) (a : StatsArrays F)
    (hlen : a.set.length = a.statsInterval.length) :
    (copyCps outside a a.statsInterval.length).statsInterval = a.statsInterval ∧
    (copyCps outside a a.statsInterval.length).set
      = a.statsInterval.map (fun s => s.cps) := by
  obtain ⟨h1, _, _, h4, h5⟩ := copyCps_inv outside a a.statsInterval.length (le_refl _) hlen
  refine ⟨h1, ?_⟩
  apply List.ext_getElem?
  intro i
  by_cases hi : i < a.statsInterval.length
  · rw [h5 i hi hi]
    simp [List.getElem?_map, List.getElem?_eq_getElem hi]
  · rw [List.getElem?_eq_none (by omega), List.getElem?_eq_none (by simp; omega)]

/-- The call of `calcModeCars` leaves the log as it is and returns what the
function `calcModeCars` of the log returns. -/
theorem calcModeCarsOn_spec {F : Type} (stray : Stray F) (a : StatsArrays F) :
    (calcModeCarsOn stray a).1.statsInterval = a.statsInterval ∧
    ((calcModeCarsOn stray a).1.modes, (calcModeCarsOn stray a).2)
      = calcModeCars stray.newData a.statsInterval := by
  have hlen : ((List.range a.statsInterval.length).map
      (fun (i : Nat) => stray.newData (i : Int))).length = a.statsInterval.length := by simp
  obtain ⟨h1, h2⟩ := copyNumCars_all stray.log
    ⟨a.statsInterval, (List.range a.statsInterval.length).map
      (fun (i : Nat) => stray.newData (i : Int)), a.set, a.modes⟩ hlen
  simp only at h1 h2
  simp only [calcModeCarsOn, calcModeCars, h1, h2, and_self]

section StatePassingTheorems

variable {F : Type} [LinearOrderedField F]

/-- The call of `calcMedianCPS` leaves the log as it is and returns what the
function `calcMedianCPS` of the log returns. -/
theorem calcMedianCPSOn_spec (stray : Stray F) (a : StatsArrays F) :
    (calcMedianCPSOn stray a).1.statsInterval = a.statsInterval ∧
    (calcMedianCPSOn stray a).2 = calcMedianCPS stray.set a.statsInterval := by
  have hlen : ((List.range a.statsInterval.length).map
      (fun (j : Nat) => stray.set (j : Int))).length = a.statsInterval.length := by simp
  obtain ⟨h1, h2⟩ := copyCps_all stray.log
    ⟨a.statsInterval, a.newData, (List.range a.statsInterval.length).map
      (fun (j : Nat) => stray.set (j : Int)), a.modes⟩ hlen
  simp only at h1 h2
  simp only [calcMedianCPSOn, calcMedianCPS, h1, h2, and_self]

/-- C17: computing statistics never changes the caller's interval log: after
the calls of `calcModeCars`, `calcMedianCPS` and `computeStatsOverSimulation`
the array `statsInterval` is the list it was before (same records at the same
positions), the sorting having been done on the copies `newData` and `set`;
and the values returned are those of the functions of the unchanged log. -/
theorem statistics_leave_log_unchanged (sqrt : F → F) (stray : Stray F)
    (a : StatsArrays F) :
    (calcModeCarsOn stray a).1.statsInterval = a.statsInterval ∧
    (calcMedianCPSOn stray a).1.statsInterval = a.statsInterval ∧
    (computeStatsOverSimulationOn sqrt stray a).1.statsInterval = a.statsInterval ∧
    (computeStatsOverSimulationOn sqrt stray a).2
      = computeStatsOverSimulation sqrt stray a.statsInterval := by
  obtain ⟨m1, m2⟩ := calcModeCarsOn_spec stray a
  obtain ⟨d1, d2⟩ := calcMedianCPSOn_spec stray (calcModeCarsOn stray a).1
  rw [m1] at d1 d2
  have m3 : (calcModeCarsOn stray a).1.modes = (calcModeCars stray.newData a.statsInterval).1 :=
    congrArg Prod.fst m2
  have m4 : (calcModeCarsOn stray a).2 = (calcModeCars stray.newData a.statsInterval).2 :=
    congrArg Prod.snd m2
  refine ⟨m1, (calcMedianCPSOn_spec stray a).1, d1, ?_⟩
  simp only [computeStatsOverSimulationOn, computeStatsOverSimulation, m1, d1, d2, m3, m4]

end StatePassingTheorems

/-! ## Sorting terminates; the scan reads past the copy -/

section SortTermination

variable {α : Type} [LinearOrder α]

/-- With the exit test `index == size` the recursion started at `index ≤ size`
returns after `size - index + 1` calls, with the array that `selection` gives. -/
theorem selectionFuel_eq (d : α) (size : Nat) :
    ∀ (n index : Nat) (l : List α), size - index = n → index ≤ size →
      ∀ fuel, n + 1 ≤ fuel → selectionFuel d fuel l size index = some (selection d l size index) := by
  intro n
  induction n with
  | zero =>
    intro index l hn hle fuel hf
    have he : index = size := by omega
    obtain ⟨f, rfl⟩ : ∃ f, fuel = f + 1 := ⟨fuel - 1, by omega⟩
    rw [selection, if_neg (by omega)]
    simp [selectionFuel, he]
  | succ n ih =>
    intro index l hn hle fuel hf
    have hlt : index < size := by omega
    obtain ⟨f, rfl⟩ : ∃ f, fuel = f + 1 := ⟨fuel - 1, by omega⟩
    rw [selection, if_pos hlt]
    simp only [selectionFuel, if_neg (Nat.ne_of_lt hlt)]
    exact ih (index + 1) _ (by omega) (by omega) f (by omega)

end SortTermination

/-- C21: for every array, `sortInt` on the array and its size returns (the
recursion with the exit test `index == size` ends within `size + 1` calls) and
leaves the array in ascending order as a permutation of its original contents;
likewise `sortFloat`. -/
theorem sort_terminates_sorted_perm {F : Type} [LinearOrderedField F] (dataset : List Int)
    (fdataset : List F) :
    (selectionFuel 0 (dataset.length + 1) dataset dataset.length 0
        = some (sortInt dataset dataset.length) ∧
      (sortInt dataset dataset.length).Sorted (· ≤ ·) ∧
      (sortInt dataset dataset.length).Perm dataset) ∧
    (selectionFuel 0 (fdataset.length + 1) fdataset fdataset.length 0
        = some (sortFloat fdataset fdataset.length) ∧
      (sortFloat fdataset fdataset.length).Sorted (· ≤ ·) ∧
      (sortFloat fdataset fdataset.length).Perm fdataset) := by
  refine ⟨⟨?_, ?_⟩, ⟨?_, ?_⟩⟩
  · exact selectionFuel_eq (0 : Int) dataset.length dataset.length 0 dataset (by omega)
      (Nat.zero_le _) _ (le_refl _)
  · exact selection_sorted_perm (0 : Int) dataset
  · exact selectionFuel_eq (0 : F) fdataset.length fdataset.length 0 fdataset (by omega)
      (Nat.zero_le _) _ (le_refl _)
  · exact selection_sorted_perm (0 : F) fdataset

/-- The last pass of the scan loop over a copy of `k + 1` cells compares cell
`k` with the content of the memory after the copy. -/
theorem modeScan_last_pass (outside : Int → Int) (s : List Int) (k : Nat)
    (h : s.length = k + 1) :
    modeScan outside s (k + 1)
      = modeStep (modeScan outside s k) (arrGet s outside (k : Int))
          (outside ((k : Int) + 1)) := by
  have hge : arrGet s outside ((k : Int) + 1) = outside ((k : Int) + 1) := by
    have := arrGet_of_ge s outside (k + 1) (by omega)
    simpa using this
  simp only [modeScan, List.range_succ, List.foldl_append, List.foldl_cons, List.foldl_nil, hge]

/-- On a non-empty copy the scan loop reads index `sizeStats`. -/
theorem mem_scanReads (n : Nat) (h : 0 < n) : (n : Int) ∈ scanReads n := by
  unfold scanReads
  refine List.mem_flatMap.mpr ⟨n - 1, List.mem_range.mpr (by omega), ?_⟩
  have : ((n - 1 : Nat) : Int) + 1 = (n : Int) := by omega
  simp [this]

/-- C22, the code at the failing input: for the log with car counts 5, 2, 3, 2,
5 (`sizeStats = 5`, sorted copy 2, 2, 3, 5, 5) the scan loop reads index 5 of
`newData`, which is not below `sizeStats`: its last pass compares `newData[4]`
with the content of the memory after the copy, and the state it ends in depends
on that content. -/
theorem scan_reads_past_copy :
    sortInt (logModes.map (fun s => s.numCars)) logModes.length = [2, 2, 3, 5, 5] ∧
    (5 : Int) ∈ scanReads logModes.length ∧ ¬ ((5 : Int) < (logModes.length : Int)) ∧
    (∀ outside : Int → Int, modeScan outside [2, 2, 3, 5, 5] 5
      = modeStep (modeScan outside [2, 2, 3, 5, 5] 4) 5 (outside 5)) ∧
    (modeScan (fun _ => 5) [2, 2, 3, 5, 5] 5).sizeMode
      ≠ (modeScan (fun _ => 0) [2, 2, 3, 5, 5] 5).sizeMode := by
  refine ⟨sorted_copy, mem_scanReads 5 (by decide), by decide, fun outside => ?_, by decide⟩
  have h := modeScan_last_pass outside [2, 2, 3, 5, 5] 4 rfl
  have h4 : arrGet [2, 2, 3, 5, 5] outside ((4 : Nat) : Int) = 5 :=
    arrGet_of_lt [2, 2, 3, 5, 5] outside 4 (by decide)
  rw [h4] at h
  exact h

/-! ## Minimum, median, mean, maximum -/

section Rounded

set_option maxRecDepth 4000

/-- C24, counterexample: with the operations of `float` rounded as in binary32,
the log of three intervals of 2 cars in 19 s has `calcAverageCPS` below
`calcMinCPS`, and the log of three intervals of 7 cars in 18 s has
`calcAverageCPS` above `calcMaxCPS`. -/
theorem average_leaves_bounds_when_rounded :
    (∀ outside, calcAverageCPS32 logThreeSlow < calcMinCPS32 outside logThreeSlow) ∧
    (∀ outside, calcMaxCPS32 outside logThreeBusy < calcAverageCPS32 logThreeBusy) := by
  have h1 : calcAverageCPS32 logThreeSlow < (record32 2 19).cps := by decide
  have h2 : (record32 7 18).cps < calcAverageCPS32 logThreeBusy := by decide
  refine ⟨fun outside => ?_, fun outside => ?_⟩
  · have : calcMinCPS32 outside logThreeSlow = (record32 2 19).cps := by
      simp [calcMinCPS32, logThreeSlow, arrGet_zero_cons]
    rw [this]; exact h1
  · have : calcMaxCPS32 outside logThreeBusy = (record32 7 18).cps := by
      simp [calcMaxCPS32, logThreeBusy, arrGet_zero_cons]
    rw [this]; exact h2

end Rounded

section Chains

variable {F : Type} [LinearOrderedField F]

/-- On a non-empty log `calcMedianCPS` is the mean of two cps values of the log
(twice the same value when the number of intervals is odd). -/
theorem median_of_two_cells (outside : Int → F) (log : List (StatsOverInterval F))
    (hne : log ≠ []) :
    ∃ a ∈ log, ∃ b ∈ log, calcMedianCPS outside log = (a.cps + b.cps) / 2 := by
  obtain ⟨_, hperm⟩ := selection_sorted_perm (0 : F) (log.map (fun r => r.cps))
  have hlen0 : (log.map (fun r => r.cps)).length = log.length := by simp
  rw [hlen0] at hperm
  have hpos : 0 < log.length := List.length_pos.mpr hne
  have hcell : ∀ i : Nat, i < log.length → ∃ a ∈ log,
      arrGet (selection (0 : F) (log.map (fun r => r.cps)) log.length 0) outside (i : Int)
        = a.cps := by
    intro i hi
    have hl : (selection (0 : F) (log.map (fun r => r.cps)) log.length 0).length
        = log.length := by simpa using hperm.length_eq
    have hi2 : i < (selection (0 : F) (log.map (fun r => r.cps)) log.length 0).length := by
      omega
    rw [arrGet_of_lt _ outside i hi2]
    have hmem := hperm.subset (List.getElem_mem hi2)
    obtain ⟨a, ha, hac⟩ := List.mem_map.mp hmem
    exact ⟨a, ha, hac.symm⟩
  unfold calcMedianCPS sortFloat selectionFloat
  simp only
  by_cases hpar : log.length % 2 = 0
  · rw [if_pos hpar]
    have hidx1 : (log.length : Int) / 2 - 1 = ((log.length / 2 - 1 : Nat) : Int) := by omega
    have hidx2 : (log.length : Int) / 2 = ((log.length / 2 : Nat) : Int) := by omega
    obtain ⟨a, ha, hac⟩ := hcell (log.length / 2) (by omega)
    obtain ⟨b, hb, hbc⟩ := hcell (log.length / 2 - 1) (by omega)
    refine ⟨a, ha, b, hb, ?_⟩
    rw [hidx1, hbc, hidx2, hac]
  · rw [if_neg hpar]
    have hidx : ((log.length : Int) - 1) / 2 = (((log.length - 1) / 2 : Nat) : Int) := by omega
    obtain ⟨a, ha, hac⟩ := hcell ((log.length - 1) / 2) (by omega)
    refine ⟨a, ha, a, ha, ?_⟩
    rw [hidx, hac]
    ring

/-- The sum of values between `lo` and `hi` is between `n * lo` and `n * hi`. -/
theorem sum_between (xs : List F) (lo hi : F) (h : ∀ x ∈ xs, lo ≤ x ∧ x ≤ hi) :
    (xs.length : F) * lo ≤ xs.sum ∧ xs.sum ≤ (xs.length : F) * hi := by
  induction xs with
  | nil => simp
  | cons x xs ih =>
    obtain ⟨h1, h2⟩ := ih (fun y hy => h y (List.mem_cons_of_mem _ hy))
    obtain ⟨h3, h4⟩ := h x (List.mem_cons_self _ _)
    simp only [List.length_cons, List.sum_cons, Nat.cast_add, Nat.cast_one]
    constructor <;> nlinarith

/-- In exact arithmetic, on every non-empty log `calcMedianCPS` and
`calcAverageCPS` lie between `calcMinCPS` and `calcMaxCPS`. -/
theorem chains_without_rounding (stray : Stray F)
    (log : List (StatsOverInterval F)) (hne : log ≠ []) :
    (calcMinCPS stray.log log ≤ calcMedianCPS stray.set log ∧
      calcMedianCPS stray.set log ≤ calcMaxCPS stray.log log) ∧
    (calcMinCPS stray.log log ≤ calcAverageCPS log ∧
      calcAverageCPS log ≤ calcMaxCPS stray.log log) := by
  have hlo : ∀ r ∈ log, calcMinCPS stray.log log ≤ r.cps := fun r hr =>
    foldl_min_le_mem (fun s : StatsOverInterval F => s.cps) _ _ r hr
  have hhi : ∀ r ∈ log, r.cps ≤ calcMaxCPS stray.log log := fun r hr =>
    mem_le_foldl_max (fun s : StatsOverInterval F => s.cps) _ _ r hr
  constructor
  · obtain ⟨a, ha, b, hb, hab⟩ := median_of_two_cells stray.set log hne
    rw [hab]
    have := hlo a ha
    have := hlo b hb
    have := hhi a ha
    have := hhi b hb
    constructor
    · rw [le_div_iff₀ (by norm_num : (0 : F) < 2)]; linarith
    · rw [div_le_iff₀ (by norm_num : (0 : F) < 2)]; linarith
  · have hpos : (0 : F) < (log.length : F) := by
      exact_mod_cast List.length_pos.mpr hne
    obtain ⟨h1, h2⟩ := sum_between (log.map (fun r => r.cps)) (calcMinCPS stray.log log)
      (calcMaxCPS stray.log log) (by
        intro x hx
        obtain ⟨r, hr, rfl⟩ := List.mem_map.mp hx
        exact ⟨hlo r hr, hhi r hr⟩)
    rw [List.length_map] at h1 h2
    rw [calcAverageCPS_eq]
    constructor
    · rw [le_div_iff₀ hpos]; linarith
    · rw [div_le_iff₀ hpos]; linarith

end Chains

/-! ## Rounding to binary32 does not cross a binary32 value -/

/-- A number below `2^(24+k)` needs at most `k` halvings. -/
theorem excessBits_le (f : Nat) : ∀ t k : Nat, t < 2 ^ (24 + k) → excessBits f t ≤ k := by
  induction f with
  | zero => intro t k _; simp [excessBits]
  | succ f ih =>
    intro t k h
    simp only [excessBits]
    split_ifs with h24
    · exact Nat.zero_le _
    · have hk : 1 ≤ k := by
        by_contra hk0
        have : k = 0 := by omega
        subst this
        exact h24 (by simpa using h)
      obtain ⟨j, rfl⟩ : ∃ j, k = j + 1 := ⟨k - 1, by omega⟩
      have h2 : t / 2 < 2 ^ (24 + j) := by
        have : 2 ^ (24 + (j + 1)) = 2 ^ (24 + j) * 2 := by rw [← Nat.add_assoc, pow_succ]
        rw [this] at h
        exact (Nat.div_lt_iff_lt_mul (by norm_num)).mpr h
      have := ih (t / 2) j h2
      omega

/-- The halvings counted bring the number below `2^24`. -/
theorem lt_pow_excessBits (f : Nat) : ∀ t : Nat, t < 2 ^ (24 + f) →
    t < 2 ^ (24 + excessBits f t) := by
  induction f with
  | zero => intro t h; simpa [excessBits] using h
  | succ f ih =>
    intro t h
    simp only [excessBits]
    split_ifs with h24
    · simpa using h24
    · have h2 : t / 2 < 2 ^ (24 + f) := by
        have : 2 ^ (24 + (f + 1)) = 2 ^ (24 + f) * 2 := by rw [← Nat.add_assoc, pow_succ]
        rw [this] at h
        exact (Nat.div_lt_iff_lt_mul (by norm_num)).mpr h
      have h3 := ih (t / 2) h2
      have h4 : 2 ^ (24 + (excessBits f (t / 2) + 1)) = 2 ^ (24 + excessBits f (t / 2)) * 2 := by
        rw [← Nat.add_assoc, pow_succ]
      rw [h4]
      omega

/-- No halving more than needed is counted. -/
theorem pow_excessBits_le (f : Nat) : ∀ t : Nat, 0 < excessBits f t →
    2 ^ (23 + excessBits f t) ≤ t := by
  induction f with
  | zero => intro t h; simp [excessBits] at h
  | succ f ih =>
    intro t h
    simp only [excessBits] at h ⊢
    split_ifs at h ⊢ with h24
    · omega
    · by_cases h0 : excessBits f (t / 2) = 0
      · rw [h0]
        have : 2 ^ (23 + (0 + 1)) = 2 ^ 24 := by norm_num
        rw [this]
        omega
      · have h3 := ih (t / 2) (Nat.pos_of_ne_zero h0)
        have h4 : 2 ^ (23 + (excessBits f (t / 2) + 1)) = 2 ^ (23 + excessBits f (t / 2)) * 2 := by
          rw [← Nat.add_assoc, pow_succ]
        rw [h4]
        omega

/-- A larger number needs at least as many halvings. -/
theorem excessBits_mono (f r t : Nat) (h : r ≤ t) (ht : t < 2 ^ (24 + f)) :
    excessBits f r ≤ excessBits f t := by
  by_contra hc
  have hlt : excessBits f t < excessBits f r := not_le.mp hc
  have h1 := pow_excessBits_le f r (by omega)
  have h2 := lt_pow_excessBits f t ht
  have h3 : 2 ^ (24 + excessBits f t) ≤ 2 ^ (23 + excessBits f r) :=
    Nat.pow_le_pow_right (by norm_num) (by omega)
  omega

/-- The rounded value is one of the two multiples of `2^s` around `a / q`, and
the upper one only when `a / q` is not the lower one. -/
theorem roundToGrid_cases (a q s : Nat) :
    roundToGrid a q s = a / (q * 2 ^ s) * 2 ^ s ∨
    (roundToGrid a q s = (a / (q * 2 ^ s) + 1) * 2 ^ s ∧ 0 < a % (q * 2 ^ s)) := by
  unfold roundToGrid
  simp only
  split_ifs with h1 h2 h3
  · exact Or.inl rfl
  · exact Or.inr ⟨rfl, by omega⟩
  · exact Or.inl rfl
  · refine Or.inr ⟨rfl, ?_⟩
    by_contra h0
    have hz : a % (q * 2 ^ s) = 0 := by omega
    rw [hz] at h1 h2
    have hg : q * 2 ^ s = 0 := by omega
    rw [hg] at h3
    simp at h3

/-- Rounding `a / q` does not go below a binary32 value that is at most `a / q`. -/
theorem le_round32Nat (r a q : Nat) (hq : 0 < q) (hrep : 2 ^ excessBits 300 r ∣ r)
    (h : r * q ≤ a) (hb : a / q < 2 ^ (24 + 300)) : r ≤ round32Nat a q := by
  have hrt : r ≤ a / q := (Nat.le_div_iff_mul_le hq).mpr h
  have hmono := excessBits_mono 300 r (a / q) hrt hb
  have hlo : a / (q * 2 ^ excessBits 300 (a / q)) = a / q / 2 ^ excessBits 300 (a / q) := by
    rw [Nat.div_div_eq_div_mul]
  have hpos : 0 < 2 ^ excessBits 300 (a / q) := Nat.pow_pos (by norm_num)
  have hkey : r ≤ a / (q * 2 ^ excessBits 300 (a / q)) * 2 ^ excessBits 300 (a / q) := by
    rw [hlo]
    rcases Nat.lt_or_ge (excessBits 300 r) (excessBits 300 (a / q)) with hlt | hge
    · have h1 := lt_pow_excessBits 300 r (lt_of_le_of_lt hrt hb)
      have h2 := pow_excessBits_le 300 (a / q) (by omega)
      have h3 : 2 ^ (24 + excessBits 300 r) ≤ 2 ^ (23 + excessBits 300 (a / q)) :=
        Nat.pow_le_pow_right (by norm_num) (by omega)
      have h4 : 2 ^ 23 ≤ a / q / 2 ^ excessBits 300 (a / q) := by
        rw [Nat.le_div_iff_mul_le hpos, ← pow_add]
        exact h2
      have h5 : 2 ^ 23 * 2 ^ excessBits 300 (a / q)
          ≤ a / q / 2 ^ excessBits 300 (a / q) * 2 ^ excessBits 300 (a / q) :=
        Nat.mul_le_mul_right _ h4
      rw [← pow_add] at h5
      omega
    · have he : excessBits 300 r = excessBits 300 (a / q) := le_antisymm hmono hge
      rw [he] at hrep
      obtain ⟨c, hc⟩ := hrep
      have hc2 : c ≤ a / q / 2 ^ excessBits 300 (a / q) := by
        rw [Nat.le_div_iff_mul_le hpos]
        rw [hc, Nat.mul_comm] at hrt
        exact hrt
      calc r = c * 2 ^ excessBits 300 (a / q) := by rw [hc, Nat.mul_comm]
        _ ≤ _ := Nat.mul_le_mul_right _ hc2
  unfold round32Nat
  rcases roundToGrid_cases a q (excessBits 300 (a / q)) with h1 | ⟨h1, _⟩
  · rw [h1]; exact hkey
  · rw [h1]
    have : a / (q * 2 ^ excessBits 300 (a / q)) * 2 ^ excessBits 300 (a / q)
        ≤ (a / (q * 2 ^ excessBits 300 (a / q)) + 1) * 2 ^ excessBits 300 (a / q) :=
      Nat.mul_le_mul_right _ (Nat.le_succ _)
    omega

/-- Rounding `a / q` does not go above a binary32 value that is at least `a / q`. -/
theorem round32Nat_le (r a q : Nat) (hq : 0 < q) (hrep : 2 ^ excessBits 300 r ∣ r)
    (h : a ≤ r * q) (hb : r < 2 ^ (24 + 300)) : round32Nat a q ≤ r := by
  have hrt : a / q ≤ r := by
    calc a / q ≤ r * q / q := Nat.div_le_div_right h
      _ = r := Nat.mul_div_cancel _ hq
  have hmono := excessBits_mono 300 (a / q) r hrt hb
  have hpos : 0 < 2 ^ excessBits 300 (a / q) := Nat.pow_pos (by norm_num)
  have hdvd : 2 ^ excessBits 300 (a / q) ∣ r :=
    Dvd.dvd.trans (pow_dvd_pow 2 hmono) hrep
  obtain ⟨c, hc⟩ := hdvd
  have hlo : a / (q * 2 ^ excessBits 300 (a / q)) * (q * 2 ^ excessBits 300 (a / q)) ≤ a :=
    Nat.div_mul_le_self _ _
  have hgpos : 0 < q * 2 ^ excessBits 300 (a / q) := Nat.mul_pos hq hpos
  unfold round32Nat
  rcases roundToGrid_cases a q (excessBits 300 (a / q)) with h1 | ⟨h1, h2⟩
  · rw [h1]
    have h3 : a / (q * 2 ^ excessBits 300 (a / q)) * 2 ^ excessBits 300 (a / q) * q ≤ r * q := by
      calc _ = a / (q * 2 ^ excessBits 300 (a / q)) * (q * 2 ^ excessBits 300 (a / q)) := by ring
        _ ≤ a := hlo
        _ ≤ r * q := h
    exact Nat.le_of_mul_le_mul_right h3 hq
  · rw [h1]
    have hdm := Nat.div_add_mod a (q * 2 ^ excessBits 300 (a / q))
    have h3 : a / (q * 2 ^ excessBits 300 (a / q)) * (q * 2 ^ excessBits 300 (a / q)) < a := by
      rw [Nat.mul_comm] 
      omega
    have h4 : a / (q * 2 ^ excessBits 300 (a / q)) * (q * 2 ^ excessBits 300 (a / q))
        < c * (q * 2 ^ excessBits 300 (a / q)) := by
      calc _ < a := h3
        _ ≤ r * q := h
        _ = c * (q * 2 ^ excessBits 300 (a / q)) := by rw [hc]; ring
    have h5 : a / (q * 2 ^ excessBits 300 (a / q)) < c := Nat.lt_of_mul_lt_mul_right h4
    calc (a / (q * 2 ^ excessBits 300 (a / q)) + 1) * 2 ^ excessBits 300 (a / q)
        ≤ c * 2 ^ excessBits 300 (a / q) := Nat.mul_le_mul_right _ h5
      _ = r := by rw [hc, Nat.mul_comm]

/-- Rounding `p / q` does not go below a binary32 value that is at most `p / q`. -/
theorem le_round32 (r p : Int) (q : Nat) (hq : 0 < q)
    (hrep : 2 ^ excessBits 300 r.natAbs ∣ r.natAbs) (h : r * (q : Int) ≤ p)
    (hr : r.natAbs < 2 ^ (24 + 300)) (hp : p.natAbs / q < 2 ^ (24 + 300)) :
    r ≤ round32 p q := by
  unfold round32
  split_ifs with hneg
  · have hrneg : r < 0 := by
      by_contra hc
      have h0 : 0 ≤ r * (q : Int) := mul_nonneg (not_lt.mp hc) (Int.ofNat_nonneg q)
      omega
    have hpa : (-p).toNat = p.natAbs := by omega
    have hle : p.natAbs ≤ r.natAbs * q := by
      have h1 : ((p.natAbs : Nat) : Int) = -p := by omega
      have h2 : ((r.natAbs : Nat) : Int) = -r := by omega
      have h3 : ((p.natAbs : Nat) : Int) ≤ ((r.natAbs * q : Nat) : Int) := by
        rw [Nat.cast_mul, h1, h2]
        linarith
      exact_mod_cast h3
    have hmain := round32Nat_le r.natAbs p.natAbs q hq hrep hle hr
    rw [hpa]
    have h2 : ((r.natAbs : Nat) : Int) = -r := by omega
    have h4 : ((round32Nat p.natAbs q : Nat) : Int) ≤ ((r.natAbs : Nat) : Int) := by
      exact_mod_cast hmain
    omega
  · rcases le_or_lt r 0 with hr0 | hr0
    · have : (0 : Int) ≤ ((round32Nat p.toNat q : Nat) : Int) := Int.ofNat_nonneg _
      omega
    · have hpa : p.toNat = p.natAbs := by omega
      have hle : r.natAbs * q ≤ p.natAbs := by
        have h1 : ((p.natAbs : Nat) : Int) = p := by omega
        have h2 : ((r.natAbs : Nat) : Int) = r := by omega
        have h3 : ((r.natAbs * q : Nat) : Int) ≤ ((p.natAbs : Nat) : Int) := by
          rw [Nat.cast_mul, h1, h2]
          exact h
        exact_mod_cast h3
      have hmain := le_round32Nat r.natAbs p.natAbs q hq hrep hle hp
      rw [hpa]
      have h2 : ((r.natAbs : Nat) : Int) = r := by omega
      have h4 : ((r.natAbs : Nat) : Int) ≤ ((round32Nat p.natAbs q : Nat) : Int) := by
        exact_mod_cast hmain
      omega

/-- Rounding `p / q` does not go above a binary32 value that is at least `p / q`. -/
theorem round32_le (r p : Int) (q : Nat) (hq : 0 < q)
    (hrep : 2 ^ excessBits 300 r.natAbs ∣ r.natAbs) (h : p ≤ r * (q : Int))
    (hr : r.natAbs < 2 ^ (24 + 300)) (hp : p.natAbs / q < 2 ^ (24 + 300)) :
    round32 p q ≤ r := by
  unfold round32
  split_ifs with hneg
  · rcases le_or_lt 0 r with hr0 | hr0
    · have : (0 : Int) ≤ ((round32Nat (-p).toNat q : Nat) : Int) := Int.ofNat_nonneg _
      omega
    · have hpa : (-p).toNat = p.natAbs := by omega
      have hle : r.natAbs * q ≤ p.natAbs := by
        have h1 : ((p.natAbs : Nat) : Int) = -p := by omega
        have h2 : ((r.natAbs : Nat) : Int) = -r := by omega
        have h3 : ((r.natAbs * q : Nat) : Int) ≤ ((p.natAbs : Nat) : Int) := by
          rw [Nat.cast_mul, h1, h2]
          linarith
        exact_mod_cast h3
      have hmain := le_round32Nat r.natAbs p.natAbs q hq hrep hle hp
      rw [hpa]
      have h2 : ((r.natAbs : Nat) : Int) = -r := by omega
      have h4 : ((r.natAbs : Nat) : Int) ≤ ((round32Nat p.natAbs q : Nat) : Int) := by
        exact_mod_cast hmain
      omega
  · have hp0 : 0 ≤ p := not_lt.mp hneg
    have hr0 : 0 ≤ r := by
      by_contra hc
      have hq' : (0 : Int) < (q : Int) := by exact_mod_cast hq
      have : r * (q : Int) < 0 := mul_neg_of_neg_of_pos (not_le.mp hc) hq'
      omega
    have hpa : p.toNat = p.natAbs := by omega
    have hle : p.natAbs ≤ r.natAbs * q := by
      have h1 : ((p.natAbs : Nat) : Int) = p := by omega
      have h2 : ((r.natAbs : Nat) : Int) = r := by omega
      have h3 : ((p.natAbs : Nat) : Int) ≤ ((r.natAbs * q : Nat) : Int) := by
        rw [Nat.cast_mul, h1, h2]
        exact h
      exact_mod_cast h3
    have hmain := round32Nat_le r.natAbs p.natAbs q hq hrep hle hr
    rw [hpa]
    have h2 : ((r.natAbs : Nat) : Int) = r := by omega
    have h4 : ((round32Nat p.natAbs q : Nat) : Int) ≤ ((r.natAbs : Nat) : Int) := by
      exact_mod_cast hmain
    omega

/-- Twice a binary32 value is a binary32 value (no bound on the exponent here). -/
theorem binary32_double (n : Nat) (hn : 2 * n < 2 ^ (24 + 300))
    (hrep : 2 ^ excessBits 300 n ∣ n) : 2 ^ excessBits 300 (2 * n) ∣ 2 * n := by
  have h1 := lt_pow_excessBits 300 n
    (lt_of_le_of_lt (Nat.le_mul_of_pos_left n (by norm_num)) hn)
  have h2 : 2 * n < 2 ^ (24 + (excessBits 300 n + 1)) := by
    have : 2 ^ (24 + (excessBits 300 n + 1)) = 2 ^ (24 + excessBits 300 n) * 2 := by
      rw [← Nat.add_assoc, pow_succ]
    omega
  have h3 := excessBits_le 300 (2 * n) (excessBits 300 n + 1) h2
  have h4 : 2 ^ (excessBits 300 n + 1) ∣ 2 * n := by
    rw [pow_succ, Nat.mul_comm]
    exact Nat.mul_dvd_mul_left 2 hrep
  exact Dvd.dvd.trans (pow_dvd_pow 2 h3) h4

/-- The codes of finite binary32 values, doubled, are within the range in which
`excessBits 300` counts all the halvings. -/
theorem finite_lt_fuel : 2 * (2 ^ 128 * 2 ^ 149) ≤ 2 ^ (24 + 300) := by
  have h : 2 * (2 ^ 128 * 2 ^ 149) = 2 ^ (1 + (128 + 149)) := by
    rw [pow_add 2 1 (128 + 149), pow_add 2 128 149, pow_one]
  rw [h]
  exact pow_le_pow_right₀ (by norm_num) (by norm_num)

section RoundedMean

set_option maxRecDepth 4000

/-- The `float` value of the `int` 2. -/
theorem ofInt_two : F32.ofInt 2 = ((2 ^ 150 : Nat) : Int) := by decide

end RoundedMean

/-- The mean of two `float` values, computed as `(a + b) / 2` with both
operations rounded, lies between any two binary32 values that enclose `a` and
`b`, when the sum does not overflow. -/
theorem F32_mean_between (lo hi a b : Int) (hlo : IsBinary32 lo) (hhi : IsBinary32 hi)
    (hblo : lo.natAbs < 2 ^ 127 * 2 ^ 149) (hbhi : hi.natAbs < 2 ^ 127 * 2 ^ 149)
    (h1 : lo ≤ a) (h2 : lo ≤ b) (h3 : a ≤ hi) (h4 : b ≤ hi) :
    lo ≤ F32.div (F32.add a b) (F32.ofInt 2) ∧ F32.div (F32.add a b) (F32.ofInt 2) ≤ hi := by
  have hB : (2 : Nat) ^ 128 * 2 ^ 149 = 2 * (2 ^ 127 * 2 ^ 149) := by
    rw [show (128 : Nat) = 127 + 1 from rfl, pow_succ]
    ring
  obtain ⟨L, hLe, hLb⟩ : ∃ L : Nat, L = 2 ^ (24 + 300) ∧ 2 * (2 * (2 ^ 127 * 2 ^ 149)) ≤ L :=
    ⟨_, rfl, by have h := finite_lt_fuel; rw [hB] at h; exact h⟩
  have hrep2 : ∀ c : Int, IsBinary32 c → c.natAbs < 2 ^ 127 * 2 ^ 149 →
      2 ^ excessBits 300 (2 * c).natAbs ∣ (2 * c).natAbs := by
    intro c hc hcb
    have hn : (2 * c).natAbs = 2 * c.natAbs := by omega
    rw [hn]
    apply binary32_double _ _ hc.2
    rw [← hLe]
    omega
  -- the rounded sum lies between twice the bounds
  have hsum : (a + b).natAbs / 1 < 2 ^ (24 + 300) := by
    rw [Nat.div_one, ← hLe]
    omega
  have hs1 : 2 * lo ≤ F32.add a b :=
    le_round32 (2 * lo) (a + b) 1 (by norm_num) (hrep2 lo hlo hblo)
      (by push_cast; linarith) (by rw [← hLe]; omega) hsum
  have hs2 : F32.add a b ≤ 2 * hi :=
    round32_le (2 * hi) (a + b) 1 (by norm_num) (hrep2 hi hhi hbhi)
      (by push_cast; linarith) (by rw [← hLe]; omega) hsum
  generalize F32.add a b = s at hs1 hs2
  -- the rounded half lies between the bounds
  have hP : ((2 ^ 150 : Nat) : Int) = 2 * ((2 ^ 149 : Nat) : Int) := by norm_num
  have hP0 : (0 : Int) ≤ ((2 ^ 149 : Nat) : Int) := Int.ofNat_nonneg _
  have hdiv : F32.div s (F32.ofInt 2) = round32 (s * ((2 ^ 149 : Nat) : Int)) (2 ^ 150) := by
    rw [ofInt_two]
    unfold F32.div
    rw [if_neg (by
      have : (0 : Int) ≤ ((2 ^ 150 : Nat) : Int) := Int.ofNat_nonneg _
      omega), Int.toNat_ofNat]
  have hquot : (s * ((2 ^ 149 : Nat) : Int)).natAbs / 2 ^ 150 < 2 ^ (24 + 300) := by
    have h5 : (s * ((2 ^ 149 : Nat) : Int)).natAbs = s.natAbs * 2 ^ 149 := by
      rw [Int.natAbs_mul, Int.natAbs_ofNat]
    have h6 : s.natAbs * 2 ^ 149 / 2 ^ 150 ≤ s.natAbs := by
      apply Nat.div_le_of_le_mul
      have : (2 : Nat) ^ 150 = 2 * 2 ^ 149 := by norm_num
      rw [this]
      nlinarith [Nat.zero_le s.natAbs, Nat.zero_le (2 ^ 149)]
    rw [h5, ← hLe]
    have h7 : s.natAbs < L := by omega
    omega
  rw [hdiv]
  constructor
  · refine le_round32 lo _ (2 ^ 150) (by norm_num) hlo.2 ?_ (by rw [← hLe]; omega) hquot
    rw [hP]
    nlinarith
  · refine round32_le hi _ (2 ^ 150) (by norm_num) hhi.2 ?_ (by rw [← hLe]; omega) hquot
    rw [hP]
    nlinarith

/-- A binary32 value is not changed by rounding. -/
theorem round32_of_binary32 (c : Int) (h : 2 ^ excessBits 300 c.natAbs ∣ c.natAbs)
    (hb : c.natAbs < 2 ^ (24 + 300)) : round32 c 1 = c :=
  le_antisymm
    (round32_le c c 1 (by norm_num) h (by simp) hb (by rw [Nat.div_one]; exact hb))
    (le_round32 c c 1 (by norm_num) h (by simp) hb (by rw [Nat.div_one]; exact hb))

/-- An `int` below `2^24` in magnitude is converted to `float` without
rounding. -/
theorem ofInt_exact (n : Int) (h : n.natAbs < 2 ^ 24) :
    F32.ofInt n = n * ((2 ^ 149 : Nat) : Int) := by
  unfold F32.ofInt
  have habs : (n * ((2 ^ 149 : Nat) : Int)).natAbs = n.natAbs * 2 ^ 149 := by
    rw [Int.natAbs_mul, Int.natAbs_ofNat]
  have hlt : n.natAbs * 2 ^ 149 < 2 ^ (24 + 149) := by
    rw [pow_add]
    exact Nat.mul_lt_mul_of_pos_right h (Nat.pow_pos (by norm_num))
  apply round32_of_binary32
  · rw [habs]
    have he := excessBits_le 300 _ 149 hlt
    exact Dvd.dvd.trans (pow_dvd_pow 2 he) (Dvd.intro_left _ rfl)
  · rw [habs]
    exact lt_of_lt_of_le hlt (pow_le_pow_right₀ (by norm_num) (by norm_num))

/-- Rounding `a / q` depends on the quotient only. -/
theorem round32Nat_scale (a q k : Nat) (hk : 0 < k) :
    round32Nat (a * k) (q * k) = round32Nat a q := by
  unfold round32Nat roundToGrid
  simp only
  rw [Nat.mul_div_mul_right _ _ hk]
  have hg : q * k * 2 ^ excessBits 300 (a / q) = q * 2 ^ excessBits 300 (a / q) * k := by ring
  rw [hg, Nat.mul_div_mul_right _ _ hk, Nat.mul_mod_mul_right]
  have h1 : (2 * (a % (q * 2 ^ excessBits 300 (a / q)) * k)
      < q * 2 ^ excessBits 300 (a / q) * k)
      ↔ (2 * (a % (q * 2 ^ excessBits 300 (a / q))) < q * 2 ^ excessBits 300 (a / q)) := by
    rw [← Nat.mul_assoc]
    exact Nat.mul_lt_mul_right hk
  have h2 : (q * 2 ^ excessBits 300 (a / q) * k
      < 2 * (a % (q * 2 ^ excessBits 300 (a / q)) * k))
      ↔ (q * 2 ^ excessBits 300 (a / q) < 2 * (a % (q * 2 ^ excessBits 300 (a / q)))) := by
    rw [← Nat.mul_assoc]
    exact Nat.mul_lt_mul_right hk
  simp only [h1, h2]

/-- The cps value the controller stores for a car count and a whole number of
seconds, both below `2^24`, is the binary32 value nearest to their quotient. -/
theorem cps32_is_nearest (numCars seconds : Nat) (h1 : numCars < 2 ^ 24)
    (h2 : seconds < 2 ^ 24) (h3 : 0 < seconds) :
    (record32 numCars seconds).cps
      = round32 ((numCars : Int) * ((2 ^ 149 : Nat) : Int)) seconds := by
  have e1 : F32.ofInt (numCars : Int) = (numCars : Int) * ((2 ^ 149 : Nat) : Int) :=
    ofInt_exact _ (by simpa using h1)
  have e2 : F32.ofInt (seconds : Int) = (seconds : Int) * ((2 ^ 149 : Nat) : Int) :=
    ofInt_exact _ (by simpa using h2)
  show F32.div (F32.ofInt (numCars : Int)) (F32.ofInt (seconds : Int)) = _
  rw [e1, e2]
  unfold F32.div
  have hnn : ¬ ((seconds : Int) * ((2 ^ 149 : Nat) : Int) < 0) := by
    have : (0 : Int) ≤ (seconds : Int) * ((2 ^ 149 : Nat) : Int) :=
      mul_nonneg (Int.ofNat_nonneg _) (Int.ofNat_nonneg _)
    omega
  rw [if_neg hnn]
  have ht : ((seconds : Int) * ((2 ^ 149 : Nat) : Int)).toNat = seconds * 2 ^ 149 := by
    rw [← Nat.cast_mul, Int.toNat_ofNat]
  rw [ht]
  unfold round32
  have hp1 : ¬ ((numCars : Int) * ((2 ^ 149 : Nat) : Int) * ((2 ^ 149 : Nat) : Int) < 0) := by
    have : (0 : Int) ≤ (numCars : Int) * ((2 ^ 149 : Nat) : Int) * ((2 ^ 149 : Nat) : Int) :=
      mul_nonneg (mul_nonneg (Int.ofNat_nonneg _) (Int.ofNat_nonneg _)) (Int.ofNat_nonneg _)
    omega
  have hp2 : ¬ ((numCars : Int) * ((2 ^ 149 : Nat) : Int) < 0) := by
    have : (0 : Int) ≤ (numCars : Int) * ((2 ^ 149 : Nat) : Int) :=
      mul_nonneg (Int.ofNat_nonneg _) (Int.ofNat_nonneg _)
    omega
  rw [if_neg hp1, if_neg hp2]
  have hn1 : ((numCars : Int) * ((2 ^ 149 : Nat) : Int) * ((2 ^ 149 : Nat) : Int)).toNat
      = numCars * 2 ^ 149 * 2 ^ 149 := by
    rw [← Nat.cast_mul, ← Nat.cast_mul, Int.toNat_ofNat]
  have hn2 : ((numCars : Int) * ((2 ^ 149 : Nat) : Int)).toNat = numCars * 2 ^ 149 := by
    rw [← Nat.cast_mul, Int.toNat_ofNat]
  rw [hn1, hn2, round32Nat_scale _ _ _ (Nat.pow_pos (by norm_num))]

section SortedCells

variable {α : Type} [LinearOrder α]

/-- Every cell of the sorted copy holds one of the values copied. -/
theorem sorted_cell_mem (d : α) (xs : List α) (outside : Int → α) (i : Nat)
    (hi : i < xs.length) : arrGet (selection d xs xs.length 0) outside (i : Int) ∈ xs := by
  obtain ⟨_, hperm⟩ := selection_sorted_perm d xs
  have hl : (selection d xs xs.length 0).length = xs.length := hperm.length_eq
  have hi2 : i < (selection d xs xs.length 0).length := by omega
  rw [arrGet_of_lt _ outside i hi2]
  exact hperm.subset (List.getElem_mem hi2)

end SortedCells

/-- With the operations of `float` rounded as in binary32, on a non-empty log
of finite cps values below `2^127` in magnitude, `calcMedianCPS` lies between
`calcMinCPS` and `calcMaxCPS`. -/
theorem median32_between (outside : Int → StatsOverInterval Int) (set : Int → Int)
    (log : List (StatsOverInterval Int)) (hne : log ≠ [])
    (hfin : ∀ r ∈ log, IsBinary32 r.cps ∧ r.cps.natAbs < 2 ^ 127 * 2 ^ 149) :
    calcMinCPS32 outside log ≤ calcMedianCPS32 set log ∧
    calcMedianCPS32 set log ≤ calcMaxCPS32 outside log := by
  have hlo : ∀ r ∈ log, calcMinCPS32 outside log ≤ r.cps := fun r hr =>
    foldl_min_le_mem (fun s : StatsOverInterval Int => s.cps) _ _ r hr
  have hhi : ∀ r ∈ log, r.cps ≤ calcMaxCPS32 outside log := fun r hr =>
    mem_le_foldl_max (fun s : StatsOverInterval Int => s.cps) _ _ r hr
  have hmin : ∃ r ∈ log, calcMinCPS32 outside log = r.cps := by
    obtain ⟨x, xs, rfl⟩ := List.exists_cons_of_ne_nil hne
    rcases foldl_min_mem (fun s : StatsOverInterval Int => s.cps) (x :: xs)
      (arrGet (x :: xs) outside 0).cps with h | h
    · exact ⟨x, List.mem_cons_self _ _, by unfold calcMinCPS32; rw [h, arrGet_zero_cons]⟩
    · exact h
  have hmax : ∃ r ∈ log, calcMaxCPS32 outside log = r.cps := by
    obtain ⟨x, xs, rfl⟩ := List.exists_cons_of_ne_nil hne
    rcases foldl_max_mem (fun s : StatsOverInterval Int => s.cps) (x :: xs)
      (arrGet (x :: xs) outside 0).cps with h | h
    · exact ⟨x, List.mem_cons_self _ _, by unfold calcMaxCPS32; rw [h, arrGet_zero_cons]⟩
    · exact h
  have hpos : 0 < log.length := List.length_pos.mpr hne
  have hcell : ∀ i : Nat, i < log.length → ∃ a ∈ log,
      arrGet (selection (0 : Int) (log.map (fun r => r.cps)) log.length 0) set (i : Int)
        = a.cps := by
    intro i hi
    have hlen0 : (log.map (fun r => r.cps)).length = log.length := by simp
    have h := sorted_cell_mem (0 : Int) (log.map (fun r => r.cps)) set i (by omega)
    rw [hlen0] at h
    obtain ⟨a, ha, hac⟩ := List.mem_map.mp h
    exact ⟨a, ha, hac.symm⟩
  unfold calcMedianCPS32
  simp only
  by_cases hpar : log.length % 2 = 0
  · rw [if_pos hpar]
    have hidx1 : (log.length : Int) / 2 - 1 = ((log.length / 2 - 1 : Nat) : Int) := by omega
    have hidx2 : (log.length : Int) / 2 = ((log.length / 2 : Nat) : Int) := by omega
    obtain ⟨a, ha, hac⟩ := hcell (log.length / 2) (by omega)
    obtain ⟨b, hb, hbc⟩ := hcell (log.length / 2 - 1) (by omega)
    rw [hidx1, hbc, hidx2, hac]
    obtain ⟨rmin, hrmin, hemin⟩ := hmin
    obtain ⟨rmax, hrmax, hemax⟩ := hmax
    have h1 := hfin rmin hrmin
    have h2 := hfin rmax hrmax
    rw [← hemin] at h1
    rw [← hemax] at h2
    exact F32_mean_between _ _ a.cps b.cps h1.1 h2.1 h1.2 h2.2 (hlo a ha) (hlo b hb)
      (hhi a ha) (hhi b hb)
  · rw [if_neg hpar]
    have hidx : ((log.length : Int) - 1) / 2 = (((log.length - 1) / 2 : Nat) : Int) := by omega
    obtain ⟨a, ha, hac⟩ := hcell ((log.length - 1) / 2) (by omega)
    rw [hidx, hac]
    exact ⟨hlo a ha, hhi a ha⟩

/-- C24 (amended): for every non-empty log, `calcMinCPS ≤ calcMedianCPS ≤
calcMaxCPS`, in exact arithmetic and also with the operations of `float` rounded
as in binary32 (for finite cps values below `2^127` in magnitude, so that the
sum of the two middle cells does not overflow); and `calcMinCPS ≤
calcAverageCPS ≤ calcMaxCPS` when the running total and the quotient of
`calcAverageCPS` are computed without rounding error. -/
theorem median_and_mean_between_min_max {F : Type} [LinearOrderedField F] (stray : Stray F)
    (log : List (StatsOverInterval F)) (hne : log ≠ [])
    (outside : Int → StatsOverInterval Int) (set : Int → Int)
    (log32 : List (StatsOverInterval Int)) (hne32 : log32 ≠ [])
    (hfin : ∀ r ∈ log32, IsBinary32 r.cps ∧ r.cps.natAbs < 2 ^ 127 * 2 ^ 149) :
    ((calcMinCPS stray.log log ≤ calcMedianCPS stray.set log ∧
        calcMedianCPS stray.set log ≤ calcMaxCPS stray.log log) ∧
      (calcMinCPS32 outside log32 ≤ calcMedianCPS32 set log32 ∧
        calcMedianCPS32 set log32 ≤ calcMaxCPS32 outside log32)) ∧
    (calcMinCPS stray.log log ≤ calcAverageCPS log ∧
      calcAverageCPS log ≤ calcMaxCPS stray.log log) :=
  ⟨⟨(chains_without_rounding stray log hne).1, median32_between outside set log32 hne32 hfin⟩,
    (chains_without_rounding stray log hne).2⟩

section RoundedExamples

set_option maxRecDepth 8000

/-- C24 (amended), witness: the log with cps values 1/2 and 1/4 in exact
arithmetic, and in binary32 the log of an interval of 2 cars in 19 s and one of
7 cars in 18 s, whose median is the rounded mean of the two cps values. -/
theorem median_and_mean_between_min_max_witness :
    (logHalfQuarter ≠ [] ∧ logSlowBusy ≠ [] ∧
      ∀ r ∈ logSlowBusy, IsBinary32 r.cps ∧ r.cps.natAbs < 2 ^ 127 * 2 ^ 149) ∧
    ((calcMinCPS strayExample.log logHalfQuarter ≤ calcMedianCPS strayExample.set logHalfQuarter ∧
        calcMedianCPS strayExample.set logHalfQuarter
          ≤ calcMaxCPS strayExample.log logHalfQuarter) ∧
      (calcMinCPS32 (fun _ => record32 0 1) logSlowBusy
          ≤ calcMedianCPS32 (fun _ => 0) logSlowBusy ∧
        calcMedianCPS32 (fun _ => 0) logSlowBusy
          ≤ calcMaxCPS32 (fun _ => record32 0 1) logSlowBusy)) ∧
    (calcMinCPS strayExample.log logHalfQuarter ≤ calcAverageCPS logHalfQuarter ∧
      calcAverageCPS logHalfQuarter ≤ calcMaxCPS strayExample.log logHalfQuarter) :=
  ⟨⟨by decide, by decide, by decide⟩,
    median_and_mean_between_min_max strayExample logHalfQuarter (by decide)
      (fun _ => record32 0 1) (fun _ => 0) logSlowBusy (by decide) (by decide)⟩

/-- C18, counterexample: three intervals of 2 cars in 19 s in binary32.  The
three stored cps values are the same value `c`, so their mean is `c`, a `float`;
`calcAverageCPS` returns the `float` below `c`. -/
theorem average_is_not_mean_when_rounded :
    (∀ r ∈ logThreeSlow, r.cps = (record32 2 19).cps) ∧
    (logThreeSlow.map (fun r => r.cps)).sum = 3 * (record32 2 19).cps ∧
    IsBinary32 (record32 2 19).cps ∧
    calcAverageCPS32 logThreeSlow = (record32 2 19).cps - 2 ^ 122 ∧
    calcAverageCPS32 logThreeSlow ≠ (record32 2 19).cps := by
  refine ⟨by decide, by decide, by decide, by decide, by decide⟩

/-- C10, counterexample: three intervals of 2 cars in 19 s in binary32.  The
cps values are equal, so every deviation from their mean is 0 and the square
root of the mean squared deviation is 0; `calcPopStdDevCPS` returns `2^-27`
(code `2^122`), because `calcAverageCPS` is one unit in the last place below the
cps values. -/
theorem pop_std_dev_of_equal_values_when_rounded :
    (∀ r ∈ logThreeSlow, r.cps = (record32 2 19).cps) ∧
    (∀ r ∈ logThreeSlow, 3 * r.cps - (logThreeSlow.map (fun r => r.cps)).sum = 0) ∧
    calcPopStdDevCPS32 logThreeSlow = 2 ^ 122 ∧
    calcPopStdDevCPS32 logThreeSlow ≠ 0 := by
  refine ⟨by decide, by decide, by decide, by decide⟩

/-- C11, counterexample: the cps values 2.0 and 4.0 in binary32.
`calcSmplStdDevCPS` returns `0x1.6a09e6p+0` (code `11863283 * 2^126`), whose
square is not 2; and on three intervals of 2 cars in 19 s, whose deviations
from their mean are all 0, it returns a value that is not 0. -/
theorem smpl_std_dev_square_is_not_two_when_rounded :
    (logTwoFour32.map (fun r => r.cps) = [F32.ofInt 2, F32.ofInt 4]) ∧
    calcSmplStdDevCPS32 logTwoFour32 = 11863283 * 2 ^ 126 ∧
    calcSmplStdDevCPS32 logTwoFour32 * calcSmplStdDevCPS32 logTwoFour32
      ≠ 2 * (2 ^ 149 * 2 ^ 149) ∧
    calcSmplStdDevCPS32 logThreeSlow ≠ 0 := by
  refine ⟨by decide, by decide, by decide, by decide⟩

/-- For the cps values 2.0 and 4.0 the binary32 operations are exact up to the
square root: the mean is 3.0 and `calcPopStdDevCPS` returns 1.0. -/
theorem pop_std_dev_two_four_rounded :
    calcAverageCPS32 logTwoFour32 = F32.ofInt 3 ∧
    calcPopStdDevCPS32 logTwoFour32 = F32.ofInt 1 := by
  refine ⟨by decide, by decide⟩

end RoundedExamples

/-! ## Phase controller: sizes of the two logs -/

section LogSizes

variable {F : Type} [LinearOrderedField F]

/-- One pass through the `switch` keeps the relation between the log sizes and
the state. -/
theorem runPhase_sizes (m : MainState F) (ph : PhaseInput) (h : SizesAlternate m) :
    SizesAlternate (runPhase m ph) := by
  obtain ⟨hcs, _, hout⟩ :=
    phaseLoop_outcome ph.ticks (enterPhase m ph.tMain ph.tOpti) rfl
  have hcs2 : (phaseLoop (enterPhase m ph.tMain ph.tOpti) ph.ticks).currentState
      = m.currentState := hcs
  have hact : activeLog (enterPhase m ph.tMain ph.tOpti) = activeLog m := rfl
  have hpas : passiveLog (enterPhase m ph.tMain ph.tOpti) = passiveLog m := rfl
  have hN : (enterPhase m ph.tMain ph.tOpti).north = m.north := rfl
  have hW : (enterPhase m ph.tMain ph.tOpti).west = m.west := rfl
  rw [hact, hpas, hN, hW] at hout
  rcases h with ⟨hn, hlen⟩ | ⟨hw, hlen⟩
  · simp only [runPhase, hn, true_or, if_true]
    generalize phaseLoop (enterPhase m ph.tMain ph.tOpti) ph.ticks = e at hcs2 hout ⊢
    rcases hout with ⟨h1, h2, h3⟩ | ⟨h1, h2, h3, _⟩
    · simp only [h1, Bool.false_eq_true, if_false]
      exact Or.inl ⟨by rw [hcs2]; exact hn, by rw [h2, h3]; exact hlen⟩
    · simp only [activeLog, passiveLog, hcs2, hn, if_true] at h2 h3
      refine Or.inr ⟨?_, ?_⟩
      · simp [switchState, h1, hcs2, hn]
      · simp [switchState, h1, h2, h3, hlen]
  · have hnn : ¬ m.currentState = 'n' := by rw [hw]; decide
    simp only [runPhase, hw, or_true, if_true]
    generalize phaseLoop (enterPhase m ph.tMain ph.tOpti) ph.ticks = e at hcs2 hout ⊢
    have hen : ¬ e.currentState = 'n' := by rw [hcs2]; exact hnn
    rcases hout with ⟨h1, h2, h3⟩ | ⟨h1, h2, h3, _⟩
    · simp only [h1, Bool.false_eq_true, if_false]
      exact Or.inr ⟨by rw [hcs2]; exact hw, by rw [h2, h3]; exact hlen⟩
    · simp only [activeLog, passiveLog, hcs2, hnn, if_false] at h2 h3
      refine Or.inl ⟨?_, ?_⟩
      · simp [switchState, h1, hen]
      · simp [switchState, h1, h2, h3, hlen]

/-- The outer loop keeps the relation between the log sizes and the state. -/
theorem mainLoop_sizes (simulationTimer simulationTime : Int) (phs : List PhaseInput) :
    ∀ m : MainState F, SizesAlternate m →
      SizesAlternate (mainLoop simulationTimer simulationTime m phs) := by
  induction phs with
  | nil => exact fun m h => h
  | cons ph rest ih =>
    intro m h
    have h1 := runPhase_sizes m ph h
    simp only [mainLoop]
    split_ifs
    · exact ih _ h1
    · exact h1
    · exact h

/-- C23: after any sequence of passes of the outer loop from the start of the
run (the state after the passes observed so far is a phase boundary, the state
after all of them the end of the run), `sizeNorth - sizeWest` is 0 or 1, and it
is 0 exactly when `currentState` is `'n'`, the approach that is green next. -/
theorem sizes_alternate_with_state (simulationTimer simulationTime : Int)
    (j : StatsOverInterval F) (t1 t2 : Int) (phs : List PhaseInput) :
    (((mainLoop simulationTimer simulationTime (mainInit j t1 t2) phs).north.length : Int)
        - (mainLoop simulationTimer simulationTime (mainInit j t1 t2) phs).west.length = 0 ∨
      ((mainLoop simulationTimer simulationTime (mainInit j t1 t2) phs).north.length : Int)
        - (mainLoop simulationTimer simulationTime (mainInit j t1 t2) phs).west.length = 1) ∧
    (((mainLoop simulationTimer simulationTime (mainInit j t1 t2) phs).north.length : Int)
        - (mainLoop simulationTimer simulationTime (mainInit j t1 t2) phs).west.length = 0 ↔
      (mainLoop simulationTimer simulationTime (mainInit j t1 t2) phs).currentState = 'n') := by
  have h := mainLoop_sizes simulationTimer simulationTime phs (mainInit j t1 t2)
    (Or.inl ⟨rfl, rfl⟩)
  generalize mainLoop simulationTimer simulationTime (mainInit j t1 t2) phs = e at h ⊢
  rcases h with ⟨hs, hl⟩ | ⟨hs, hl⟩
  · refine ⟨Or.inl (by omega), fun _ => hs, fun _ => by omega⟩
  · have hnn : ¬ e.currentState = 'n' := by rw [hs]; decide
    refine ⟨Or.inr (by omega), fun h0 => by omega, fun hn => absurd hn hnn⟩

end LogSizes

/-- The sizes of the logs over a run of three phases: 0 and 0 at the start, 1
and 0 after the first phase, 1 and 1 after the second, and still 1 and 1 in
state `'n'` while the third phase is open. -/
theorem sizes_over_three_phases :
    ((mainLoop 0 1000 mainStart (threePhases.take 1)).north.length = 1 ∧
      (mainLoop 0 1000 mainStart (threePhases.take 1)).west.length = 0 ∧
      (mainLoop 0 1000 mainStart (threePhases.take 1)).currentState = 'w') ∧
    ((mainLoop 0 1000 mainStart (threePhases.take 2)).north.length = 1 ∧
      (mainLoop 0 1000 mainStart (threePhases.take 2)).west.length = 1 ∧
      (mainLoop 0 1000 mainStart (threePhases.take 2)).currentState = 'n') ∧
    ((mainLoop 0 1000 mainStart threePhases).north.length = 1 ∧
      (mainLoop 0 1000 mainStart threePhases).west.length = 1 ∧
      (mainLoop 0 1000 mainStart threePhases).currentState = 'n' ∧
      (mainLoop 0 1000 mainStart threePhases).done = false) := by
  decide

/-! ## Time saved is not negative -/

section TimeSavedSign

variable {F : Type} [LinearOrderedField F]

/-- The sum of values that are at most `b` is at most `n * b`, with equality
exactly when every value is `b`. -/
theorem sum_le_length_mul (xs : List F) (b : F) (h : ∀ x ∈ xs, x ≤ b) :
    xs.sum ≤ (xs.length : F) * b ∧ (xs.sum = (xs.length : F) * b ↔ ∀ x ∈ xs, x = b) := by
  induction xs with
  | nil => simp
  | cons x xs ih =>
    obtain ⟨h1, h2⟩ := ih (fun y hy => h y (List.mem_cons_of_mem _ hy))
    have h3 := h x (List.mem_cons_self _ _)
    simp only [List.length_cons, List.sum_cons, Nat.cast_add, Nat.cast_one, List.mem_cons,
      forall_eq_or_imp]
    refine ⟨by nlinarith, fun he => ?_, fun ⟨hx, hall⟩ => ?_⟩
    · have hs : xs.sum = (xs.length : F) * b := le_antisymm h1 (by nlinarith)
      exact ⟨by nlinarith, h2.mp hs⟩
    · rw [hx, h2.mpr hall]; ring

/-- On a log in which every interval duration is at most 30, the `timeSaved`
that `computeStatsOverSimulation` returns is not negative, and it is 0 exactly
when every interval of the log lasted 30 s. -/
theorem time_saved_nonneg (sqrt : F → F) (stray : Stray F)
    (log : List (StatsOverInterval F)) (h : ∀ r ∈ log, r.timeInterval ≤ 30) :
    0 ≤ (computeStatsOverSimulation sqrt stray log).timeSaved ∧
    ((computeStatsOverSimulation sqrt stray log).timeSaved = 0 ↔
      ∀ r ∈ log, r.timeInterval = 30) := by
  have hts : (computeStatsOverSimulation sqrt stray log).timeSaved
      = (log.length : F) * 30 - (log.map (fun r => r.timeInterval)).sum := by
    simp only [computeStatsOverSimulation, calcTimeSaved]
    rw [foldl_add_eq_sum (fun r : StatsOverInterval F => r.timeInterval) log 0, zero_add]
  obtain ⟨h1, h2⟩ := sum_le_length_mul (log.map (fun r => r.timeInterval)) 30 (by
    intro x hx
    obtain ⟨r, hr, rfl⟩ := List.mem_map.mp hx
    exact h r hr)
  rw [List.length_map] at h1 h2
  rw [hts]
  refine ⟨by linarith, ?_⟩
  rw [sub_eq_zero, eq_comm, h2]
  simp

end TimeSavedSign

/-! ## Phase controller under regular polling -/

/-- The passes of a regular sequence read the clock in order. -/
theorem regularFrom_reads (ks : List Tick) :
    ∀ first last : Int, RegularFrom first last ks → ∀ k ∈ ks,
      last ≤ k.tPassed ∧ k.tPassed ≤ k.tMain ∧ k.tMain ≤ k.tOpti ∧ k.tOpti ≤ k.tClose := by
  induction ks with
  | nil =>
    intro _ _ _ k hk
    simp at hk
  | cons a ks ih =>
    intro first last h k hk
    simp only [RegularFrom] at h
    obtain ⟨h1, h2, h3, h4, _, h6⟩ := h
    rcases List.mem_cons.mp hk with rfl | hk2
    · exact ⟨h1, h2, h3, h4⟩
    · obtain ⟨g1, g2, g3, g4⟩ := ih _ _ h6 k hk2
      exact ⟨by omega, g2, g3, g4⟩

/-- The first passes of a regular sequence are a regular sequence. -/
theorem regularFrom_append_left (xs ys : List Tick) :
    ∀ first last : Int, RegularFrom first last (xs ++ ys) → RegularFrom first last xs := by
  induction xs with
  | nil =>
    intro _ _ _
    simp [RegularFrom]
  | cons a xs ih =>
    intro first last h
    simp only [List.cons_append, RegularFrom] at h ⊢
    obtain ⟨h1, h2, h3, h4, h5, h6⟩ := h
    exact ⟨h1, h2, h3, h4, h5, ih _ _ h6⟩

/-- The passes after pass `y` of a regular sequence are regular from `y`. -/
theorem regularFrom_after (xs ys : List Tick) (y : Tick) :
    ∀ first last : Int, RegularFrom first last (xs ++ y :: ys) →
      RegularFrom y.tPassed y.tClose ys := by
  induction xs with
  | nil =>
    intro first last h
    simp only [List.nil_append, RegularFrom] at h
    exact h.2.2.2.2.2
  | cons a xs ih =>
    intro first last h
    simp only [List.cons_append, RegularFrom] at h
    exact ih _ _ h.2.2.2.2.2

/-- The pass that follows passes whose first read is at most `b`: its last read
is at most `b + 1`, and at most one second after its own first read. -/
theorem regularFrom_next (ks : List Tick) (kc : Tick) (b : Int) :
    ∀ first last : Int, first ≤ last → RegularFrom first last (ks ++ [kc]) → first ≤ b →
      (∀ k ∈ ks, k.tPassed ≤ b) →
      kc.tClose ≤ b + 1 ∧ kc.tClose ≤ kc.tPassed + 1 ∧ last ≤ kc.tPassed ∧
        kc.tPassed ≤ kc.tMain ∧ kc.tMain ≤ kc.tOpti ∧ kc.tOpti ≤ kc.tClose := by
  induction ks with
  | nil =>
    intro first last hfl h hb _
    simp only [List.nil_append, RegularFrom] at h
    obtain ⟨h1, h2, h3, h4, h5, _⟩ := h
    exact ⟨by omega, by omega, h1, h2, h3, h4⟩
  | cons a ks ih =>
    intro first last hfl h hb hks
    simp only [List.cons_append, RegularFrom] at h
    obtain ⟨h1, h2, h3, h4, _, h6⟩ := h
    obtain ⟨g1, g2, g3, g4, g5, g6⟩ := ih a.tPassed a.tClose (by omega) h6
      (hks a (List.mem_cons_self _ _)) (fun k hk => hks k (List.mem_cons_of_mem _ hk))
    exact ⟨g1, g2, by omega, g4, g5, g6⟩

section RegularController

variable {F : Type} [LinearOrderedField F]

/-- Passes without a passage that leave the phase open have tested a phase
clock of at most 30 and an idle clock of at most 10. -/
theorem phaseLoop_quiet_open_clocks (m : MainState F) (ks : List Tick) (hd : m.done = false)
    (hq : ∀ k ∈ ks, k.passed = false) (ho : (phaseLoop m ks).done = false) :
    ∀ k ∈ ks, k.tMain - m.timerMain ≤ 30 ∧ k.tOpti - m.timerOpti ≤ 10 := by
  induction ks with
  | nil =>
    intro k hk
    simp at hk
  | cons a ks ih =>
    have ha : a.passed = false := hq a (List.mem_cons_self _ _)
    have hstep : phaseLoop m (a :: ks) = phaseLoop (pollTick m a) ks := by
      simp [phaseLoop, hd]
    rw [hstep] at ho
    by_cases hf : phaseClock m a > 30 ∨ idleClock m a > 10
    · have hc := (pollTick_closing m a hf).1
      rw [phaseLoop_of_done _ _ hc, hc] at ho
      exact absurd ho (by simp)
    · have h1 : phaseClock m a ≤ 30 := not_lt.mp (fun e => hf (Or.inl e))
      have h2 : idleClock m a ≤ 10 := not_lt.mp (fun e => hf (Or.inr e))
      have hm : pollTick m a = m := by
        rw [pollTick_continue m a h1 h2]
        simp [ha]
      rw [hm] at ho
      intro k hk
      rcases List.mem_cons.mp hk with rfl | hk2
      · refine ⟨h1, ?_⟩
        simpa [idleClock, ha] using h2
      · exact ih (fun k hk => hq k (List.mem_cons_of_mem _ hk)) ho k hk2

/-- Passes without a passage that test a phase clock of at most 30 and an idle
clock of at most 10 leave the state as it is. -/
theorem phaseLoop_quiet_stays (m : MainState F) (ks : List Tick)
    (h : ∀ k ∈ ks, k.passed = false ∧ k.tMain - m.timerMain ≤ 30 ∧ k.tOpti - m.timerOpti ≤ 10) :
    phaseLoop m ks = m := by
  induction ks with
  | nil => rfl
  | cons a ks ih =>
    by_cases hd : m.done = true
    · exact phaseLoop_of_done m _ hd
    · obtain ⟨ha, h1, h2⟩ := h a (List.mem_cons_self _ _)
      have hm : pollTick m a = m := by
        rw [pollTick_continue m a h1 (by simpa [idleClock, ha] using h2)]
        simp [ha]
      have hstep : phaseLoop m (a :: ks) = phaseLoop (pollTick m a) ks := by
        simp [phaseLoop, hd]
      rw [hstep, hm]
      exact ih (fun k hk => h k (List.mem_cons_of_mem _ hk))

/-- C6: a pass on which the phase clock is below 30 (or equal to it) and the
idle clock below 10 (or equal to it) never ends the phase and records nothing;
and under regular polling, in a phase whose detector reports a passage on
exactly one pass `p` (none on the passes `pre` before it, none after it), the
phase is still open, with nothing recorded, after every pass `post` whose idle
clock is at most 10 s after the passage, and the first pass `kc` more than 10 s
after the passage closes it with exactly one record, `numCars = 1`. -/
theorem single_passage_closes_after_idle (m0 : MainState F) (t0 t0' : Int) :
    (∀ (m : MainState F) (k : Tick), phaseClock m k ≤ 30 → idleClock m k ≤ 10 →
      (pollTick m k).done = m.done ∧ (pollTick m k).north = m.north ∧
      (pollTick m k).west = m.west) ∧
    (∀ (pre post rest : List Tick) (p kc : Tick),
      RegularPolling t0 t0' (pre ++ p :: (post ++ [kc])) →
      (∀ k ∈ pre, k.passed = false) → p.passed = true → (∀ k ∈ post, k.passed = false) →
      kc.passed = false →
      (phaseLoop (enterPhase m0 t0 t0') pre).done = false →
      (∀ k ∈ post, k.tOpti - p.tPassed ≤ 10) → kc.tOpti - p.tPassed > 10 →
      ((phaseLoop (enterPhase m0 t0 t0') (pre ++ p :: post)).done = false ∧
        (phaseLoop (enterPhase m0 t0 t0') (pre ++ p :: post)).north = m0.north ∧
        (phaseLoop (enterPhase m0 t0 t0') (pre ++ p :: post)).west = m0.west) ∧
      ((phaseLoop (enterPhase m0 t0 t0') (pre ++ p :: (post ++ kc :: rest))).done = true ∧
        activeLog (phaseLoop (enterPhase m0 t0 t0') (pre ++ p :: (post ++ kc :: rest)))
          = activeLog m0
            ++ [(phaseLoop (enterPhase m0 t0 t0') (pre ++ p :: (post ++ kc :: rest))).intervalStat] ∧
        passiveLog (phaseLoop (enterPhase m0 t0 t0') (pre ++ p :: (post ++ kc :: rest)))
          = passiveLog m0 ∧
        (phaseLoop (enterPhase m0 t0 t0')
          (pre ++ p :: (post ++ kc :: rest))).intervalStat.numCars = 1 ∧
        (phaseLoop (enterPhase m0 t0 t0')
          (pre ++ p :: (post ++ kc :: rest))).intervalStat.timeInterval
          = ((kc.tClose - t0 : Int) : F))) := by
  constructor
  · intro m k h1 h2
    rw [pollTick_continue m k h1 h2]
    split <;> simp
  · intro pre post rest p kc hreg hpre hp hpost hkc hopen hidle hlate
    obtain ⟨hr1, hr2, hr3⟩ := hreg
    have hd : (enterPhase m0 t0 t0').done = false := rfl
    -- the passes before the passage
    have hpm : phaseLoop (enterPhase m0 t0 t0') pre = enterPhase m0 t0 t0' :=
      phaseLoop_quiet_open _ pre hpre hopen
    have hpc := phaseLoop_quiet_open_clocks (enterPhase m0 t0 t0') pre hd hpre hopen
    have hreads := regularFrom_reads _ _ _ hr3
    have hprefix : RegularFrom t0 t0' (pre ++ [p]) := by
      have : pre ++ p :: (post ++ [kc]) = (pre ++ [p]) ++ (post ++ [kc]) := by simp
      rw [this] at hr3
      exact regularFrom_append_left _ _ _ _ hr3
    obtain ⟨p1, p2, p3, p4, p5, p6⟩ := regularFrom_next pre p (t0' + 10) t0 t0' hr1 hprefix
      (by omega) (fun k hk => by
        have h1 := (hpc k hk).2
        have h2 := hreads k (List.mem_append_left _ hk)
        have h3 : (enterPhase m0 t0 t0').timerOpti = t0' := rfl
        rw [h3] at h1
        omega)
    -- the pass of the passage
    have hE1 : (enterPhase m0 t0 t0').timerMain = t0 := rfl
    have hstepP : pollTick (enterPhase m0 t0 t0') p
        = { enterPhase m0 t0 t0' with
            carCounter := (enterPhase m0 t0 t0').carCounter + 1, timerOpti := p.tPassed } := by
      rw [pollTick_continue _ p (by unfold phaseClock; rw [hE1]; omega)
        (by unfold idleClock; rw [if_pos hp]; omega), if_pos hp]
    -- the passes up to 10 s after the passage
    have hafter : RegularFrom p.tPassed p.tClose (post ++ [kc]) :=
      regularFrom_after pre (post ++ [kc]) p _ _ hr3
    have hpostreads := regularFrom_reads _ _ _ (regularFrom_append_left _ _ _ _ hafter)
    have hstay : phaseLoop ({ enterPhase m0 t0 t0' with
          carCounter := (enterPhase m0 t0 t0').carCounter + 1, timerOpti := p.tPassed }
          : MainState F) post
        = { enterPhase m0 t0 t0' with
            carCounter := (enterPhase m0 t0 t0').carCounter + 1, timerOpti := p.tPassed } := by
      apply phaseLoop_quiet_stays
      intro k hk
      have h1 := hidle k hk
      have h2 := hpostreads k hk
      refine ⟨hpost k hk, ?_, h1⟩
      show k.tMain - t0 ≤ 30
      omega
    have hrun : ∀ tail : List Tick,
        phaseLoop (enterPhase m0 t0 t0') (pre ++ p :: (post ++ tail))
          = phaseLoop ({ enterPhase m0 t0 t0' with
              carCounter := (enterPhase m0 t0 t0').carCounter + 1, timerOpti := p.tPassed }
              : MainState F) tail := by
      intro tail
      rw [phaseLoop_append, hpm]
      have : phaseLoop (enterPhase m0 t0 t0') (p :: (post ++ tail))
          = phaseLoop (pollTick (enterPhase m0 t0 t0') p) (post ++ tail) := by
        simp [phaseLoop, hd]
      rw [this, hstepP, phaseLoop_append, hstay]
    constructor
    · have h0 := hrun []
      rw [List.append_nil] at h0
      rw [h0]
      exact ⟨rfl, rfl, rfl⟩
    · rw [hrun (kc :: rest)]
      obtain ⟨c1, c2, c3, c4, c5, c6⟩ := regularFrom_next post kc (p.tPassed + 10) p.tPassed
        p.tClose (by omega) hafter (by omega) (fun k hk => by
          have h1 := hidle k hk
          have h2 := hpostreads k hk
          omega)
      have hstepC : phaseLoop ({ enterPhase m0 t0 t0' with
            carCounter := (enterPhase m0 t0 t0').carCounter + 1, timerOpti := p.tPassed }
            : MainState F) (kc :: rest)
          = pollTick ({ enterPhase m0 t0 t0' with
            carCounter := (enterPhase m0 t0 t0').carCounter + 1, timerOpti := p.tPassed }
            : MainState F) kc := by
        have hcl := (pollTick_cutoff ({ enterPhase m0 t0 t0' with
            carCounter := (enterPhase m0 t0 t0').carCounter + 1, timerOpti := p.tPassed }
            : MainState F) kc (by show kc.tMain - t0 ≤ 30; omega)
            (by unfold idleClock; rw [if_neg (by simp [hkc])]; exact hlate)).1
        have : phaseLoop ({ enterPhase m0 t0 t0' with
            carCounter := (enterPhase m0 t0 t0').carCounter + 1, timerOpti := p.tPassed }
            : MainState F) (kc :: rest)
            = phaseLoop (pollTick ({ enterPhase m0 t0 t0' with
            carCounter := (enterPhase m0 t0 t0').carCounter + 1, timerOpti := p.tPassed }
            : MainState F) kc) rest := by
          simp [phaseLoop, enterPhase]
        rw [this, phaseLoop_of_done _ _ hcl]
      rw [hstepC]
      obtain ⟨a, b, c, e⟩ := pollTick_cutoff ({ enterPhase m0 t0 t0' with
            carCounter := (enterPhase m0 t0 t0').carCounter + 1, timerOpti := p.tPassed }
            : MainState F) kc (by show kc.tMain - t0 ≤ 30; omega)
            (by unfold idleClock; rw [if_neg (by simp [hkc])]; exact hlate)
      refine ⟨a, b, (pollTick_frame _ kc).2.2, ?_, c⟩
      rw [e]
      simp [hkc, enterPhase]

end RegularController

section RegularRuns

set_option maxRecDepth 8000

/-- C6, witness: a phase entered at clock 0 and observed once a second, with a
single passage in second 5; it is open after the pass of second 15 and closes on
the pass of second 16 with `numCars = 1`. -/
theorem single_passage_closes_after_idle_witness :
    (RegularPolling 0 0 (ticksUpTo [] 4 ++ passageAt 5
        :: ((ticksUpTo [] 15).drop 5 ++ [quietAt 16])) ∧
      (phaseLoop (enterPhase mainStart 0 0) (ticksUpTo [] 4)).done = false ∧
      (quietAt 16).tOpti - (passageAt 5).tPassed > 10) ∧
    (phaseLoop (enterPhase mainStart 0 0)
      (ticksUpTo [] 4 ++ passageAt 5 :: (ticksUpTo [] 15).drop 5)).done = false ∧
    (phaseLoop (enterPhase mainStart 0 0)
      (ticksUpTo [] 4 ++ passageAt 5
        :: ((ticksUpTo [] 15).drop 5 ++ quietAt 16 :: [quietAt 17]))).done = true ∧
    (phaseLoop (enterPhase mainStart 0 0)
      (ticksUpTo [] 4 ++ passageAt 5
        :: ((ticksUpTo [] 15).drop 5 ++ quietAt 16 :: [quietAt 17]))).intervalStat.numCars
      = 1 ∧
    (phaseLoop (enterPhase mainStart 0 0)
      (ticksUpTo [] 4 ++ passageAt 5
        :: ((ticksUpTo [] 15).drop 5 ++ quietAt 16 :: [quietAt 17]))).intervalStat.timeInterval
      = (((quietAt 16).tClose - 0 : Int) : ℚ) :=
  have h := (single_passage_closes_after_idle mainStart 0 0).2 (ticksUpTo [] 4)
    ((ticksUpTo [] 15).drop 5) [quietAt 17] (passageAt 5) (quietAt 16) (by decide) (by decide)
    (by decide) (by decide) (by decide) (by decide) (by decide) (by decide)
  ⟨⟨by decide, by decide, by decide⟩, h.1.1, h.2.1, h.2.2.2.2.1, h.2.2.2.2.2⟩

end RegularRuns

/-! ## Phase controller: durations and quotients of the records -/

section PositiveDurations

variable {F : Type} [LinearOrderedField F]

/-- A pass through the `switch` during which the clock does not run backwards
keeps the durations of all records positive. -/
theorem runPhase_positive (m : MainState F) (ph : PhaseInput)
    (hs : (phaseReads ph.tMain ph.tOpti ph.ticks).Sorted (· ≤ ·))
    (hn : ∀ r ∈ m.north, 0 < r.timeInterval) (hw : ∀ r ∈ m.west, 0 < r.timeInterval) :
    (∀ r ∈ (runPhase m ph).north, 0 < r.timeInterval) ∧
    (∀ r ∈ (runPhase m ph).west, 0 < r.timeInterval) := by
  obtain ⟨hcs, _, hout⟩ := phaseLoop_outcome ph.ticks (enterPhase m ph.tMain ph.tOpti) rfl
  have hpos := phase_duration_pos m ph.tMain ph.tOpti ph.ticks hs
  have hcs2 : (phaseLoop (enterPhase m ph.tMain ph.tOpti) ph.ticks).currentState
      = m.currentState := hcs
  have hact : activeLog (enterPhase m ph.tMain ph.tOpti) = activeLog m := rfl
  have hpas : passiveLog (enterPhase m ph.tMain ph.tOpti) = passiveLog m := rfl
  have hN : (enterPhase m ph.tMain ph.tOpti).north = m.north := rfl
  have hW : (enterPhase m ph.tMain ph.tOpti).west = m.west := rfl
  rw [hact, hpas, hN, hW] at hout
  have hloop : (∀ r ∈ (phaseLoop (enterPhase m ph.tMain ph.tOpti) ph.ticks).north,
        0 < r.timeInterval) ∧
      (∀ r ∈ (phaseLoop (enterPhase m ph.tMain ph.tOpti) ph.ticks).west,
        0 < r.timeInterval) := by
    generalize phaseLoop (enterPhase m ph.tMain ph.tOpti) ph.ticks = e at hcs2 hout hpos ⊢
    rcases hout with ⟨_, h2, h3⟩ | ⟨h1, h2, h3, _⟩
    · rw [h2, h3]
      exact ⟨hn, hw⟩
    · have hp := hpos h1
      by_cases hst : m.currentState = 'n'
      · simp only [activeLog, passiveLog, hcs2, hst, if_true] at h2 h3
        rw [h2, h3]
        refine ⟨fun r hr => ?_, hw⟩
        rcases List.mem_append.mp hr with hr | hr
        · exact hn r hr
        · have : r = e.intervalStat := by simpa using hr
          rw [this]
          exact hp
      · simp only [activeLog, passiveLog, hcs2, hst, if_false] at h2 h3
        rw [h2, h3]
        refine ⟨hn, fun r hr => ?_⟩
        rcases List.mem_append.mp hr with hr | hr
        · exact hw r hr
        · have : r = e.intervalStat := by simpa using hr
          rw [this]
          exact hp
  simp only [runPhase]
  split_ifs
  · exact hloop
  · exact hloop
  · exact ⟨hn, hw⟩

/-- The outer loop keeps the durations of all records positive when the clock
does not run backwards during any phase. -/
theorem mainLoop_positive (simulationTimer simulationTime : Int) (phs : List PhaseInput) :
    ∀ m : MainState F,
      (∀ ph ∈ phs, (phaseReads ph.tMain ph.tOpti ph.ticks).Sorted (· ≤ ·)) →
      (∀ r ∈ m.north, 0 < r.timeInterval) → (∀ r ∈ m.west, 0 < r.timeInterval) →
      (∀ r ∈ (mainLoop simulationTimer simulationTime m phs).north, 0 < r.timeInterval) ∧
      (∀ r ∈ (mainLoop simulationTimer simulationTime m phs).west, 0 < r.timeInterval) := by
  induction phs with
  | nil => exact fun m _ hn hw => ⟨hn, hw⟩
  | cons ph rest ih =>
    intro m hs hn hw
    have h := runPhase_positive m ph (hs ph (List.mem_cons_self _ _)) hn hw
    simp only [mainLoop]
    split_ifs
    · exact ih _ (fun q hq => hs q (List.mem_cons_of_mem _ hq)) h.1 h.2
    · exact h
    · exact ⟨hn, hw⟩

/-- C15: after any run of the controller during which the clock does not run
backwards within a phase, every interval record in either approach's log has a
duration above 0 and satisfies `cps = numCars / timeInterval` (the car count
converted to `float`, then divided), whichever rule closed its phase; in
particular a record with zero cars has `cps` exactly 0. -/
theorem records_have_consistent_cps (simulationTimer simulationTime : Int)
    (j : StatsOverInterval F) (t1 t2 : Int) (phs : List PhaseInput)
    (hclock : ∀ ph ∈ phs, (phaseReads ph.tMain ph.tOpti ph.ticks).Sorted (· ≤ ·)) :
    (∀ r ∈ (mainLoop simulationTimer simulationTime (mainInit j t1 t2) phs).north,
      0 < r.timeInterval ∧ r.cps = (r.numCars : F) / r.timeInterval ∧
      (r.numCars = 0 → r.cps = 0)) ∧
    (∀ r ∈ (mainLoop simulationTimer simulationTime (mainInit j t1 t2) phs).west,
      0 < r.timeInterval ∧ r.cps = (r.numCars : F) / r.timeInterval ∧
      (r.numCars = 0 → r.cps = 0)) := by
  have h := mainLoop_consistent simulationTimer simulationTime phs (mainInit j t1 t2)
    (fun r hr => by simp [mainInit] at hr) (fun r hr => by simp [mainInit] at hr)
  have hp := mainLoop_positive simulationTimer simulationTime phs (mainInit j t1 t2) hclock
    (fun r hr => by simp [mainInit] at hr) (fun r hr => by simp [mainInit] at hr)
  have hz : ∀ r : StatsOverInterval F, CpsConsistent r →
      r.cps = (r.numCars : F) / r.timeInterval ∧ (r.numCars = 0 → r.cps = 0) := by
    intro r hr
    refine ⟨hr, fun h0 => ?_⟩
    rw [hr, h0]
    simp
  exact ⟨fun r hr => ⟨hp.1 r hr, hz r (h.1 r hr)⟩, fun r hr => ⟨hp.2 r hr, hz r (h.2 r hr)⟩⟩

end PositiveDurations

/-- C15, witness: the run of three phases, in each of which the clock reads are
in non-decreasing order; it records an interval of 11 s for each approach. -/
theorem records_have_consistent_cps_witness :
    (∀ ph ∈ threePhases, (phaseReads ph.tMain ph.tOpti ph.ticks).Sorted (· ≤ ·)) ∧
    (mainLoop 0 1000 (mainInit (⟨0, 0, 0⟩ : StatsOverInterval ℚ) 0 0) threePhases).north.length
      = 1 ∧
    ((∀ r ∈ (mainLoop 0 1000 (mainInit (⟨0, 0, 0⟩ : StatsOverInterval ℚ) 0 0) threePhases).north,
      0 < r.timeInterval ∧ r.cps = (r.numCars : ℚ) / r.timeInterval ∧
      (r.numCars = 0 → r.cps = 0)) ∧
    (∀ r ∈ (mainLoop 0 1000 (mainInit (⟨0, 0, 0⟩ : StatsOverInterval ℚ) 0 0) threePhases).west,
      0 < r.timeInterval ∧ r.cps = (r.numCars : ℚ) / r.timeInterval ∧
      (r.numCars = 0 → r.cps = 0))) :=
  ⟨by decide, by decide,
    records_have_consistent_cps 0 1000 (⟨0, 0, 0⟩ : StatsOverInterval ℚ) 0 0 threePhases
      (by decide)⟩

/-! ## Phase controller: both thresholds on one pass, and a late clock read -/

section SecondRuns

set_option maxRecDepth 8000

/-- The state of the phase with passages in the seconds 10 and 20 after the pass
of second 30: still open, two cars counted, idle timer at 20. -/
theorem state_at_second_30 :
    phaseLoop (enterPhase mainStart 0 0) (ticksUpTo [10, 20] 30)
      = { mainStart with carCounter := 2, timerOpti := 20 } := by
  decide

/-- C19, counterexample: a phase entered at clock 0 and observed once a second,
with passages in the seconds 10 and 20.  On the pass of second 30 the phase
clock is 30 and the idle clock is 10, both at their thresholds; the phase stays
open and no record is appended. -/
theorem both_thresholds_reached_nothing_recorded :
    RegularPolling 0 0 (ticksUpTo [10, 20] 30) ∧
    phaseClock (phaseLoop (enterPhase mainStart 0 0) (ticksUpTo [10, 20] 29))
      (secondTick [10, 20] 30) = 30 ∧
    idleClock (phaseLoop (enterPhase mainStart 0 0) (ticksUpTo [10, 20] 29))
      (secondTick [10, 20] 30) = 10 ∧
    ticksUpTo [10, 20] 30 = ticksUpTo [10, 20] 29 ++ [secondTick [10, 20] 30] ∧
    (phaseLoop (enterPhase mainStart 0 0) (ticksUpTo [10, 20] 30)).done = false ∧
    (phaseLoop (enterPhase mainStart 0 0) (ticksUpTo [10, 20] 30)).north = [] ∧
    (phaseLoop (enterPhase mainStart 0 0) (ticksUpTo [10, 20] 30)).west = [] := by
  refine ⟨by decide, by decide, by decide, by decide, by decide, by decide, by decide⟩

/-- C19, witness: the same phase on the pass of second 31, at phase clock 31 and
idle clock 11. -/
theorem full_rule_wins_witness :
    (phaseClock (phaseLoop (enterPhase mainStart 0 0) (ticksUpTo [10, 20] 30)) (quietAt 31) > 30 ∧
      idleClock (phaseLoop (enterPhase mainStart 0 0) (ticksUpTo [10, 20] 30)) (quietAt 31)
        > 10) ∧
    (pollTick (phaseLoop (enterPhase mainStart 0 0) (ticksUpTo [10, 20] 30)) (quietAt 31)).done
      = true ∧
    activeLog (pollTick (phaseLoop (enterPhase mainStart 0 0) (ticksUpTo [10, 20] 30))
        (quietAt 31))
      = activeLog (phaseLoop (enterPhase mainStart 0 0) (ticksUpTo [10, 20] 30))
        ++ [(pollTick (phaseLoop (enterPhase mainStart 0 0) (ticksUpTo [10, 20] 30))
          (quietAt 31)).intervalStat] ∧
    passiveLog (pollTick (phaseLoop (enterPhase mainStart 0 0) (ticksUpTo [10, 20] 30))
        (quietAt 31))
      = passiveLog (phaseLoop (enterPhase mainStart 0 0) (ticksUpTo [10, 20] 30)) ∧
    (pollTick (phaseLoop (enterPhase mainStart 0 0) (ticksUpTo [10, 20] 30))
      (quietAt 31)).intervalStat.timeInterval = 30 ∧
    (pollTick (phaseLoop (enterPhase mainStart 0 0) (ticksUpTo [10, 20] 30))
      (quietAt 31)).intervalStat.timeInterval
      ≠ ((phaseClock (phaseLoop (enterPhase mainStart 0 0) (ticksUpTo [10, 20] 30))
          (quietAt 31) : Int) : ℚ) :=
  ⟨⟨by decide, by decide⟩,
    full_rule_wins (phaseLoop (enterPhase mainStart 0 0) (ticksUpTo [10, 20] 30)) (quietAt 31)
      (by decide) (by decide)⟩

/-- C25, the code at the failing input: the first phase of a run, entered at
clock 0 and polled regularly, with passages in the seconds 10 and 20.  On the
closing pass the full-duration test reads phase clock 30, the second then
changes, the idle test reads idle clock 11 and the duration is read as 31.  The
log the controller produces for North holds one record of 31 s, and `timeSaved`
computed from it is `-1`. -/
theorem time_saved_negative_after_late_read :
    RegularPolling phaseLateRead.tMain phaseLateRead.tOpti phaseLateRead.ticks ∧
    (mainLoop 0 1000 mainStart [phaseLateRead]).north = [⟨2, 31, 2 / 31⟩] ∧
    (computeStatsOverSimulation (fun x => x) strayExample
      (mainLoop 0 1000 mainStart [phaseLateRead]).north).timeSaved = -1 ∧
    (computeStatsOverSimulation (fun x => x) strayExample
      (mainLoop 0 1000 mainStart [phaseLateRead]).north).timeSaved < 0 := by
  have hloop : phaseLoop (enterPhase mainStart phaseLateRead.tMain phaseLateRead.tOpti)
      phaseLateRead.ticks
      = pollTick { mainStart with carCounter := 2, timerOpti := 20 } tickAcrossSecond := by
    have h1 : enterPhase mainStart phaseLateRead.tMain phaseLateRead.tOpti
        = enterPhase mainStart 0 0 := rfl
    have h2 : phaseLateRead.ticks = ticksUpTo [10, 20] 30 ++ [tickAcrossSecond] := rfl
    rw [h1, h2, phaseLoop_append, state_at_second_30]
    rfl
  have hn : (mainLoop 0 1000 mainStart [phaseLateRead]).north = [⟨2, 31, 2 / 31⟩] := by
    have hs : mainStart.currentState = 'n' := rfl
    simp only [mainLoop, runPhase, hs, true_or, if_true, hloop]
    simp [phaseLateRead, pollTick, mainStart, MainState.record, calcCarsPerSecond,
      tickAcrossSecond, switchState]
  refine ⟨by decide, hn, ?_, ?_⟩
  · rw [hn]
    simp only [computeStatsOverSimulation, calcTimeSaved, List.foldl_cons, List.foldl_nil,
      List.length_singleton]
    norm_num
  · rw [hn]
    simp only [computeStatsOverSimulation, calcTimeSaved, List.foldl_cons, List.foldl_nil,
      List.length_singleton]
    norm_num

end SecondRuns

end Traffic
